import Mathlib

/-!
# Stage partition pass (`oneflow/core/job_rewriter/stage_partition_pass.cpp`)

A shallow embedding of `NaiveSequantialStagePartitionStrategy` and of the scope
merging it relies on, followed by theorems about the embedded functions.

Conventions of the embedding:

* an `OpNode*` is a natural number (pointer identity);
* `HashSet<T>` is a duplicate-free list (insertion history) and `HashMap<K, V>` an
  association list with unique keys; wherever the source iterates over such a
  container the model iterates over `ord` applied to it, `ord` being a parameter
  that stands for the unspecified iteration order of the hash container;
* `Maybe<T>` is `Except PassError T`; a failed `CHECK` (fatal) is an error as well;
* `int64_t` quantities that are sizes or counters are naturals, far below `2^63`.
-/

namespace StagePartition

/-! ## Errors -/

/-- The ways in which a step of the pass can fail. -/
inductive PassError where
  /-- A `CHECK`, `CHECK_EQ` or `CHECK_OR_RETURN` did not hold. -/
  | checkFailed (line : Nat)
  /-- A bounds-checked `std::vector::at` or `VectorAt` was out of range. -/
  | outOfRange
  /-- A moved-from `std::unique_ptr` was dereferenced. -/
  | nullDeref
  /-- The symbol storage has no symbol for the id (`MaybeGet`). -/
  | lookupError (symbol_id : Int)
  /-- A breadth-first traversal was cut short by the step budget of the model. -/
  | outOfFuel
  /-- The job description has no option of that name and type. -/
  | missingOption (name : String)
  /-- No strategy is registered under the name. -/
  | unknownStrategy (name : String)
  /-- The job builder was asked to write an operator a second time. -/
  | doubleWrite (op_name : String)
  deriving DecidableEq, Repr

deriving instance DecidableEq for Except

/-! ## Hash containers -/

/-- The call `HashSet::insert`: nothing happens when the element is already present. -/
def hashInsert {α : Type} [DecidableEq α] (s : List α) (x : α) : List α :=
  if x ∈ s then s else s ++ [x]

/-- The lookups `HashMap::find` and `HashMap::count`. -/
def hmFind {κ ν : Type} [DecidableEq κ] : List (κ × ν) → κ → Option ν
  | [], _ => none
  | (k0, v0) :: m, k => if k0 = k then some v0 else hmFind m k

/-- The assignment `(*map)[k] = v`: overwrite the entry of `k`, or create it. -/
def hmSet {κ ν : Type} [DecidableEq κ] : List (κ × ν) → κ → ν → List (κ × ν)
  | [], k, v => [(k, v)]
  | (k0, v0) :: m, k, v => if k0 = k then (k, v) :: m else (k0, v0) :: hmSet m k v

/-- The call `HashMap::emplace`: an existing entry is kept. -/
def hmEmplace {κ ν : Type} [DecidableEq κ] (m : List (κ × ν)) (k : κ) (v : ν) : List (κ × ν) :=
  match hmFind m k with
  | some _ => m
  | none => m ++ [(k, v)]

/-! ## Balanced splitter -/

/-- Modelled from the spec: `BalancedSplitter` (`oneflow/core/common/balanced_splitter.h`
is not among the sources). The spec asks for `K` contiguous ranges whose sizes are
`⌊N/K⌋` or `⌈N/K⌉`, add up to `N` and are a fixed function of `(N, K, i)`; the pass
only uses the size of range `i`. The model gives the first `N % K` ranges the larger
size. -/
structure BalancedSplitter where
  base_part_size : Nat
  base_begin_idx : Nat
  split_num : Nat
  deriving DecidableEq, Repr

/-- Construction `BalancedSplitter bs(total_num, split_num)`. -/
def BalancedSplitter.new (total_num split_num : Nat) : BalancedSplitter :=
  { base_part_size := total_num / split_num
    base_begin_idx := total_num % split_num
    split_num := split_num }

/-- The value of `bs.At(i).size()`. -/
def BalancedSplitter.AtSize (bs : BalancedSplitter) (i : Nat) : Nat :=
  if i < bs.base_begin_idx then bs.base_part_size + 1 else bs.base_part_size

/-! ## `GetStageDepth2Stage` -/

/-- The body of the loop of lines 219-222: entry `i` of the table becomes the size of
range `i` plus entry `i - 1` (`0` for `i = 0`). The indices are below `num_stages` by
the loop bound, so `.at` never throws here. -/
def fillStep (bs : BalancedSplitter) (tbl : List Nat) (i : Nat) : List Nat :=
  tbl.set i (bs.AtSize i + (if i = 0 then 0 else tbl.getD (i - 1) 0))

/-- Lines 218-222: the table `stage2expected_num_ops_from_start`, a vector of
`num_stages` zeros filled from index `0` upwards. -/
def stage2expected_num_ops_from_start (bs : BalancedSplitter) (num_stages : Nat) : List Nat :=
  (List.range num_stages).foldl (fillStep bs) (List.replicate num_stages 0)

/-- Lines 215-222 for the sizes of the groups: `num_ops`, the splitter, the table. -/
def expectedTable (sizes : List Nat) (num_stages : Nat) : List Nat :=
  stage2expected_num_ops_from_start
    (BalancedSplitter.new (sizes.foldl (fun acc n => acc + n) 0) num_stages) num_stages

/-- The local variables of the walk of lines 225-233. -/
structure WalkState where
  stage : Nat
  depth : Nat
  num_ops_from_start : Nat
  depth2stage : List (Nat × Nat)
  deriving DecidableEq, Repr

/-- One iteration of the loop of lines 228-233 for a group of `size` ops. -/
def walkStep (tbl : List Nat) (st : WalkState) (size : Nat) : Except PassError WalkState :=
  match tbl[st.stage]? with
  | none => .error .outOfRange
  | some expected =>
    let stage := if st.num_ops_from_start > expected then st.stage + 1 else st.stage
    .ok { stage := stage
          depth := st.depth + 1
          num_ops_from_start := st.num_ops_from_start + size
          depth2stage := hmSet st.depth2stage st.depth stage }

/-- The loop of lines 228-233 over the sizes of the groups. -/
def walk (tbl : List Nat) : WalkState → List Nat → Except PassError WalkState
  | st, [] => .ok st
  | st, size :: rest =>
    match walkStep tbl st size with
    | .error e => .error e
    | .ok st1 => walk tbl st1 rest

/-- The start of the walk (lines 225-227). -/
def walkInit : WalkState :=
  { stage := 0, depth := 0, num_ops_from_start := 0, depth2stage := [] }

/-- Lines 215-236 on the sizes of the groups: the filled `depth2stage` table, or the
failed check. `num_stages` is positive in the pass (line 361). -/
def depth2stageOfSizes (sizes : List Nat) (num_stages : Nat) :
    Except PassError (List (Nat × Nat)) :=
  match walk (expectedTable sizes num_stages) walkInit sizes with
  | .error e => .error e
  | .ok st =>
    if (st.stage : Int) ≠ (num_stages : Int) - 1 then .error (.checkFailed 234)
    else if st.depth ≠ sizes.length then .error (.checkFailed 235)
    else .ok st.depth2stage

/-- The sizes `vec->size()` of the groups of the sequential order; `none` when one of
the `unique_ptr`s is null. -/
def groupSizes : List (Option (List Nat)) → Option (List Nat)
  | [] => some []
  | none :: _ => none
  | some vec :: rest =>
    match groupSizes rest with
    | none => none
    | some sizes => some (vec.length :: sizes)

/-- Function `GetStageDepth2Stage` (lines 212-243): the table captured by the returned
`Stage4Depth`. -/
def GetStageDepth2Stage (sequantial_trainable_fw_ops : List (Option (List Nat)))
    (num_stages : Nat) : Except PassError (List (Nat × Nat)) :=
  match groupSizes sequantial_trainable_fw_ops with
  | none => .error .nullDeref
  | some sizes => depth2stageOfSizes sizes num_stages

/-- The closure `Stage4Depth` of lines 237-241. -/
def Stage4Depth (depth2stage : List (Nat × Nat)) (depth : Nat) : Except PassError Nat :=
  match hmFind depth2stage depth with
  | none => .error (.checkFailed 239)
  | some stage => .ok stage

/-! ## Op graph -/

/-- An `OpNode*`. -/
abbrev OpNode := Nat

/-- The part of `OpGraph` the pass reads: the nodes in the order of `ForEachNode`
and the edges `(producer, consumer)`; an `OpGraph` has at most one edge for an
ordered pair of nodes. -/
structure OpGraph where
  nodes : List OpNode
  edges : List (OpNode × OpNode)
  deriving DecidableEq, Repr

/-- The nodes passed by `node->ForEachNodeOnInEdge`. -/
def OpGraph.inNodes (g : OpGraph) (node : OpNode) : List OpNode :=
  (g.edges.filter (fun e => decide (e.2 = node))).map Prod.fst

/-- The nodes passed by `node->ForEachNodeOnOutEdge`. -/
def OpGraph.outNodes (g : OpGraph) (node : OpNode) : List OpNode :=
  (g.edges.filter (fun e => decide (e.1 = node))).map Prod.snd

/-- The nodes passed by `node->ForEachNodeOnInOutEdge`: the in-edges, then the
out-edges. -/
def OpGraph.inOutNodes (g : OpGraph) (node : OpNode) : List OpNode :=
  g.inNodes node ++ g.outNodes node

/-- The push of a node that is not queued yet: the pair is the queue and the set
`queued_nodes`. -/
def enqueue (acc : List OpNode × List OpNode) (n : OpNode) : List OpNode × List OpNode :=
  if n ∈ acc.2 then acc else (acc.1 ++ [n], acc.2 ++ [n])

/-- The `while (!queue.empty())` loop of the traversal: pop the front, call the
handler on it, then push the next nodes that have not been queued before. The first
argument bounds the number of pops. -/
def bfsLoop {σ : Type} (ForEachNext : σ → OpNode → List OpNode) (Handler : OpNode → σ → σ) :
    Nat → List OpNode → List OpNode → σ → Except PassError σ
  | _, [], _, s => .ok s
  | 0, _ :: _, _, _ => .error .outOfFuel
  | fuel + 1, cur :: rest, queued, s =>
    let s1 := Handler cur s
    let q := (ForEachNext s1 cur).foldl enqueue (rest, queued)
    bfsLoop ForEachNext Handler fuel q.1 q.2 s1

/-- Modelled from the spec: `Graph::BfsForEachNode` (`oneflow/core/graph/graph.h` is
not among the sources), the "breadth-first traversal given start nodes, a
neighbor-filter function, and a per-visit callback" that "claims eagerly": a node
enters the queue at most once, the callback runs when a node leaves the queue and
before its neighbours are enumerated. `s` is the state the callbacks capture by
reference. Every node that can be queued is a start or an end of an edge, which
bounds the number of pops. -/
def OpGraph.BfsForEachNode {σ : Type} (g : OpGraph) (starts : List OpNode)
    (ForEachNext : σ → OpNode → List OpNode) (Handler : OpNode → σ → σ) (s : σ) :
    Except PassError σ :=
  let q := starts.foldl enqueue ([], [])
  bfsLoop ForEachNext Handler (starts.length + 2 * g.edges.length) q.1 q.2 s

/-! ## Backbone ops and fused groups -/

/-- Function `GetTrainableFwOps` (lines 245-252). `NeedBackwardOp` is the predicate made by
`MakePredicatorNeedBackwardOp`, which is not among the sources. -/
def GetTrainableFwOps (g : OpGraph) (NeedBackwardOp : OpNode → Bool) : List OpNode :=
  g.nodes.foldl (fun s node => if NeedBackwardOp node then hashInsert s node else s) []

/-- The lambda `GetInputSize` of lines 285-294: the number of in-edges from nodes
of `trainable_fw_ops`. -/
def GetInputSize (g : OpGraph) (trainable_fw_ops : List OpNode) (node : OpNode) : Nat :=
  ((g.inNodes node).filter (fun in_node => decide (in_node ∈ trainable_fw_ops))).length

/-- Function `GetBackBoneOps` (lines 281-307); the result is `backbone_op_nodes`. -/
def GetBackBoneOps (ord : List OpNode → List OpNode) (g : OpGraph)
    (trainable_fw_ops : List OpNode) : Except PassError (List OpNode) :=
  let starts := (ord trainable_fw_ops).filter
    (fun op_node => decide (GetInputSize g trainable_fw_ops op_node > 1))
  let ForEachOut := fun (node : OpNode) =>
    (g.outNodes node).filter (fun out_node => decide (out_node ∈ trainable_fw_ops))
  g.BfsForEachNode starts (fun _ => ForEachOut) (fun node s => hashInsert s node) []

/-- Function `BfsForEachBackboneOp` (lines 330-356) for a handler acting on a state `s`. -/
def BfsForEachBackboneOp {σ : Type} (ord : List OpNode → List OpNode) (g : OpGraph)
    (backbone_op_nodes : List OpNode) (Handler : OpNode → σ → σ) (s : σ) : Except PassError σ :=
  let ForEachIn := fun (node : OpNode) =>
    (g.inNodes node).filter (fun in_node => decide (in_node ∈ backbone_op_nodes))
  let IsSource := fun (node : OpNode) => decide ((ForEachIn node).length = 0)
  let starts := (ord backbone_op_nodes).filter IsSource
  let ForEachOut := fun (node : OpNode) =>
    (g.outNodes node).filter (fun out_node => decide (out_node ∈ backbone_op_nodes))
  g.BfsForEachNode starts (fun _ => ForEachOut) Handler s

/-- The lambda `ForEachOtherNext` of lines 312-320; `other_fw_op2backbone_op` is the
map as it is when the neighbours are enumerated. -/
def ForEachOtherNext (g : OpGraph) (backbone_op_nodes : List OpNode)
    (other_fw_op2backbone_op : List (OpNode × OpNode)) (node : OpNode) : List OpNode :=
  (g.inOutNodes node).filter (fun next_node =>
    !(decide (next_node ∈ backbone_op_nodes))
      && (hmFind other_fw_op2backbone_op next_node).isNone)

/-- The traversal of lines 322-325 started at one backbone op. -/
def fuseFrom (g : OpGraph) (backbone_op_nodes : List OpNode) (backbone_op_node : OpNode)
    (other_fw_op2backbone_op : List (OpNode × OpNode)) : Except PassError (List (OpNode × OpNode)) :=
  g.BfsForEachNode [backbone_op_node] (ForEachOtherNext g backbone_op_nodes)
    (fun other m => if other ∈ backbone_op_nodes then m else hmSet m other backbone_op_node)
    other_fw_op2backbone_op

/-- Function `FuseOtherFwOpsToBackboneOps` (lines 309-328); the result is
`other_fw_op2backbone_op`. The state of the outer traversal is the map, or the
failure of an inner traversal. -/
def FuseOtherFwOpsToBackboneOps (ord : List OpNode → List OpNode) (g : OpGraph)
    (backbone_op_nodes : List OpNode) : Except PassError (List (OpNode × OpNode)) :=
  match BfsForEachBackboneOp ord g backbone_op_nodes
      (fun backbone_op_node (s : Except PassError (List (OpNode × OpNode))) =>
        match s with
        | .error e => .error e
        | .ok m => fuseFrom g backbone_op_nodes backbone_op_node m)
      (.ok []) with
  | .error e => .error e
  | .ok s => s

/-- The pairs of a `HashMap` in the order `ord` gives to its keys. -/
def hmIter {ν : Type} (ord : List OpNode → List OpNode) (m : List (OpNode × ν)) :
    List (OpNode × ν) :=
  (ord (m.map Prod.fst)).filterMap (fun k => (hmFind m k).map (fun v => (k, v)))

/-- Line 270: `(*backbone_op2fused_ops)[backbone]->push_back(other)`; without a vector
under `backbone` the pointer created by `operator[]` is null. -/
def pushFused (m : List (OpNode × Option (List OpNode))) (pair : OpNode × OpNode) :
    Except PassError (List (OpNode × Option (List OpNode))) :=
  match hmFind m pair.2 with
  | some (some vec) => .ok (hmSet m pair.2 (some (vec ++ [pair.1])))
  | _ => .error .nullDeref

/-- The loop of lines 269-271. -/
def pushAllFused : List (OpNode × Option (List OpNode)) → List (OpNode × OpNode) →
    Except PassError (List (OpNode × Option (List OpNode)))
  | m, [] => .ok m
  | m, pair :: rest =>
    match pushFused m pair with
    | .error e => .error e
    | .ok m1 => pushAllFused m1 rest

/-- Lines 266-271: one vector per backbone op, then the fused ops. -/
def buildFusedOps (ord : List OpNode → List OpNode) (backbone_op_nodes : List OpNode)
    (other_fw_op2backbone_op : List (OpNode × OpNode)) :
    Except PassError (List (OpNode × Option (List OpNode))) :=
  pushAllFused
    ((ord backbone_op_nodes).foldl
      (fun m backbone_op_node => hmSet m backbone_op_node (some [backbone_op_node])) [])
    (hmIter ord other_fw_op2backbone_op)

/-- Function `GetBackboneOp2FusedOps` (lines 254-273); the result is `backbone_op2fused_ops`,
a null vector being `none`. -/
def GetBackboneOp2FusedOps (ord : List OpNode → List OpNode) (g : OpGraph)
    (NeedBackwardOp : OpNode → Bool) : Except PassError (List (OpNode × Option (List OpNode))) :=
  match GetBackBoneOps ord g (GetTrainableFwOps g NeedBackwardOp) with
  | .error e => .error e
  | .ok backbone_op_nodes =>
    match FuseOtherFwOpsToBackboneOps ord g backbone_op_nodes with
    | .error e => .error e
    | .ok other_fw_op2backbone_op =>
      buildFusedOps ord backbone_op_nodes other_fw_op2backbone_op

/-! ## Sequential order -/

/-- What the traversal of lines 204-208 reads and writes: `backbone_op2fused_ops` and
`*sequantial_trainable_fw_ops`. -/
structure SeqState where
  backbone_op2fused_ops : List (OpNode × Option (List OpNode))
  sequantial_trainable_fw_ops : List (Option (List OpNode))
  deriving DecidableEq, Repr

/-- The handler of lines 204-208: the vector of `op_node` is moved to the front of the
list, which leaves a null pointer in the map. -/
def moveToFront (op_node : OpNode) (s : Except PassError SeqState) : Except PassError SeqState :=
  match s with
  | .error e => .error e
  | .ok st =>
    match hmFind st.backbone_op2fused_ops op_node with
    | none => .error (.checkFailed 206)
    | some vec =>
      .ok { backbone_op2fused_ops := hmSet st.backbone_op2fused_ops op_node none
            sequantial_trainable_fw_ops := vec :: st.sequantial_trainable_fw_ops }

/-- The lambda `ForEachIn` of lines 198-202, on the state of the traversal. -/
def seqForEachIn (g : OpGraph) (s : Except PassError SeqState) (node : OpNode) : List OpNode :=
  match s with
  | .error _ => []
  | .ok st =>
    (g.inNodes node).filter (fun in_node => (hmFind st.backbone_op2fused_ops in_node).isSome)

/-- The list `starts` of lines 182-197: the keys of the map, in its iteration order,
that have no out-edge to a key of the map. -/
def sinkStarts (ord : List OpNode → List OpNode) (g : OpGraph)
    (backbone_op2fused_ops : List (OpNode × Option (List OpNode))) : List OpNode :=
  let ForEachOut := fun (node : OpNode) =>
    (g.outNodes node).filter (fun out_node => (hmFind backbone_op2fused_ops out_node).isSome)
  let IsSinkNode := fun (node : OpNode) => decide ((ForEachOut node).length = 0)
  ((hmIter ord backbone_op2fused_ops).map Prod.fst).filter IsSinkNode

/-- Lines 182-208 for a given `backbone_op2fused_ops`. -/
def sequantialize (ord : List OpNode → List OpNode) (g : OpGraph)
    (backbone_op2fused_ops : List (OpNode × Option (List OpNode))) :
    Except PassError (List (Option (List OpNode))) :=
  match g.BfsForEachNode (sinkStarts ord g backbone_op2fused_ops) (seqForEachIn g) moveToFront
      (.ok { backbone_op2fused_ops := backbone_op2fused_ops
             sequantial_trainable_fw_ops := [] }) with
  | .error e => .error e
  | .ok (.error e) => .error e
  | .ok (.ok st) => .ok st.sequantial_trainable_fw_ops

/-- Function `GetSequantialTrainableFwOps` (lines 177-210). -/
def GetSequantialTrainableFwOps (ord : List OpNode → List OpNode) (g : OpGraph)
    (NeedBackwardOp : OpNode → Bool) : Except PassError (List (Option (List OpNode))) :=
  match GetBackboneOp2FusedOps ord g NeedBackwardOp with
  | .error e => .error e
  | .ok backbone_op2fused_ops => sequantialize ord g backbone_op2fused_ops

/-! ## The stage of every trainable forward op -/

/-- Function `GetStagePartitionScopeIds` (lines 358-364); `scope_ids` is the job's list
`"stage_partition_scope_ids"`. -/
def GetStagePartitionScopeIds (scope_ids : List Int) : Except PassError (List Int) :=
  if scope_ids.length > 0 then .ok scope_ids else .error (.checkFailed 361)

/-- Function `VectorAt` of `container_util.h`, a bounds-checked read. -/
def VectorAt (vec : List Int) (index : Nat) : Except PassError Int :=
  match vec[index]? with
  | none => .error .outOfRange
  | some x => .ok x

/-- The inner loop of line 171: the handler on every op of one group. -/
def forEachOp {τ : Type} (Handler : OpNode → Int → τ → Except PassError τ)
    (scope_symbol_id : Int) : List OpNode → τ → Except PassError τ
  | [], t => .ok t
  | op_node :: rest, t =>
    match Handler op_node scope_symbol_id t with
    | .error e => .error e
    | .ok t1 => forEachOp Handler scope_symbol_id rest t1

/-- The loop of lines 167-173, from the group at `depth` on. -/
def forEachFusedVec {τ : Type} (depth2stage : List (Nat × Nat))
    (stage_partition_scope_ids : List Int) (Handler : OpNode → Int → τ → Except PassError τ) :
    List (Option (List OpNode)) → Nat → τ → Except PassError τ
  | [], _, t => .ok t
  | fused_vec :: rest, depth, t =>
    match Stage4Depth depth2stage depth with
    | .error e => .error e
    | .ok stage =>
      match VectorAt stage_partition_scope_ids stage with
      | .error e => .error e
      | .ok scope_symbol_id =>
        match fused_vec with
        | none => .error .nullDeref
        | some vec =>
          match forEachOp Handler scope_symbol_id vec t with
          | .error e => .error e
          | .ok t1 =>
            forEachFusedVec depth2stage stage_partition_scope_ids Handler rest (depth + 1) t1

/-- Function `ForEachStageScope4TrainableFwOp` (lines 154-175). `t` is the state the handler
acts on, `scope_ids` the job's list `"stage_partition_scope_ids"`. -/
def ForEachStageScope4TrainableFwOp {τ : Type} (ord : List OpNode → List OpNode) (g : OpGraph)
    (NeedBackwardOp : OpNode → Bool) (scope_ids : List Int)
    (Handler : OpNode → Int → τ → Except PassError τ) (t : τ) : Except PassError τ :=
  match GetSequantialTrainableFwOps ord g NeedBackwardOp with
  | .error e => .error e
  | .ok sequantial_trainable_fw_ops =>
    match GetStagePartitionScopeIds scope_ids with
    | .error e => .error e
    | .ok stage_partition_scope_ids =>
      match GetStageDepth2Stage sequantial_trainable_fw_ops stage_partition_scope_ids.length with
      | .error e => .error e
      | .ok depth2stage =>
        forEachFusedVec depth2stage stage_partition_scope_ids Handler
          sequantial_trainable_fw_ops 0 t

/-- The handler that only records its calls. -/
def recordCall (op_node : OpNode) (scope_symbol_id : Int) (t : List (OpNode × Int)) :
    Except PassError (List (OpNode × Int)) :=
  .ok (t ++ [(op_node, scope_symbol_id)])

/-! ## Scope merging -/

/-- The value of an attribute (`AttrValue` of `user_op_attr.proto`): one of the
alternatives of `ATTR_SEQ`; the alternatives the pass never reads are kept as a tag
and a payload. -/
inductive AttrValue where
  | at_int32 (v : Int)
  | at_int64 (v : Int)
  | at_bool (v : Bool)
  | at_string (v : String)
  | at_other (tag : Nat) (payload : List Int)
  deriving DecidableEq, Repr

/-- The content of a scope (`ScopeProto`): the fields `MergeScope` writes, the attribute
map, and the remaining fields, which `MergeScope` only copies. -/
structure ScopeProto where
  job_desc_symbol_id : Int
  device_parallel_desc_symbol_id : Int
  host_parallel_desc_symbol_id : Int
  parent_scope_symbol_id : Option Int
  attr_name2attr_value : List (String × AttrValue)
  remaining_fields : List Int
  deriving DecidableEq, Repr

/-- Modelled from the spec: `Scope::Int64` (`oneflow/core/job/scope.h` is not among the
sources): the int64 value the scope carries under `attr_name`; `none` when the scope
carries no int64 value under that name, in which case the getter's `CHECK` fails. -/
def ScopeProto.Int64 (scope : ScopeProto) (attr_name : String) : Option Int :=
  match hmFind scope.attr_name2attr_value attr_name with
  | some (.at_int64 v) => some v
  | _ => none

/-- Modelled from the spec: the Scope/Symbol Registry (`vm::SymbolStorage<Scope>` and
the symbol-id cache behind `FindOrCreateSymbolId` are not among the sources): a table
from symbol ids to immutable scope records, each id registered once, with a counter of
the records created. -/
structure SymbolStorage where
  symbols : List (Int × ScopeProto)
  created : Nat
  nodup : (symbols.map Prod.fst).Nodup

/-- Modelled from the spec: `Get(id) → ScopeRecord | NotFoundError` (`MaybeGet`). -/
def SymbolStorage.MaybeGet (storage : SymbolStorage) (symbol_id : Int) :
    Except PassError ScopeProto :=
  match hmFind storage.symbols symbol_id with
  | none => .error (.lookupError symbol_id)
  | some scope => .ok scope

/-- An id above every id of the list. -/
def freshSymbolId (symbols : List (Int × ScopeProto)) : Int :=
  (symbols.map Prod.fst).foldl max 0 + 1

/-- Modelled from the spec: `FindOrCreate(content) → canonical id`: the id of the
registered record with identical content if there is one, otherwise a new id under
which the content is registered. -/
def SymbolStorage.FindOrCreateSymbolId (storage : SymbolStorage) (content : ScopeProto) :
    Int × SymbolStorage :=
  match storage.symbols.find? (fun p => decide (p.2 = content)) with
  | some p => (p.1, storage)
  | none =>
    (freshSymbolId storage.symbols,
      { symbols := storage.symbols ++ [(freshSymbolId storage.symbols, content)]
        created := storage.created + 1
        nodup := by
          rw [List.map_append, List.nodup_append]
          refine ⟨storage.nodup, by simp, ?_⟩
          intro a h1 h2
          simp only [List.map_cons, List.map_nil, List.mem_singleton] at h2
          subst h2
          have hmax : ∀ (l : List Int) (a x : Int), x = a ∨ x ∈ l → x ≤ l.foldl max a := by
            intro l
            induction l with
            | nil =>
              intro a x h
              rcases h with h | h
              · rw [h]; exact le_refl _
              · cases h
            | cons y l ih =>
              intro a x h
              rw [List.foldl_cons]
              rcases h with h | h
              · exact le_trans (h ▸ le_max_left a y) (ih (max a y) (max a y) (Or.inl rfl))
              · rcases List.mem_cons.1 h with h | h
                · exact le_trans (h ▸ le_max_right a y) (ih (max a y) (max a y) (Or.inl rfl))
                · exact ih _ x (Or.inr h)
          have := hmax (storage.symbols.map Prod.fst) 0 _ (Or.inr h1)
          unfold freshSymbolId at this
          omega })

/-- What `MergeScope` acts on besides its arguments: the symbol storage and the scopes
passed to `ForeignCallback::AddScopeToPyStorage`, in the order of the calls. -/
structure World where
  storage : SymbolStorage
  py_storage : List (Int × ScopeProto)

/-- The `merged_scope` built in lines 130-139. -/
def mergedScopeProto (old_scope_id : Int) (old_scope stage_scope : ScopeProto)
    (stage_placement_id stage_weight_buffer_size : Int) : ScopeProto :=
  { old_scope with
    parent_scope_symbol_id := some old_scope_id
    device_parallel_desc_symbol_id := stage_scope.device_parallel_desc_symbol_id
    host_parallel_desc_symbol_id := stage_scope.host_parallel_desc_symbol_id
    attr_name2attr_value :=
      hmSet (hmSet old_scope.attr_name2attr_value "stage_placement_id"
        (.at_int64 stage_placement_id)) "stage_weight_buffer_size"
        (.at_int64 stage_weight_buffer_size) }

/-- Function `MergeScope` (lines 126-152): the result and the world after the call. -/
def MergeScope (w : World) (old_scope_id stage_scope_id : Int) : Except PassError Int × World :=
  match w.storage.MaybeGet old_scope_id with
  | .error e => (.error e, w)
  | .ok old_scope =>
    match w.storage.MaybeGet stage_scope_id with
    | .error e => (.error e, w)
    | .ok stage_scope =>
      match stage_scope.Int64 "stage_placement_id" with
      | none => (.error (.checkFailed 138), w)
      | some stage_placement_id =>
        match stage_scope.Int64 "stage_weight_buffer_size" with
        | none => (.error (.checkFailed 139), w)
        | some stage_weight_buffer_size =>
          let merged_scope := mergedScopeProto old_scope_id old_scope stage_scope
            stage_placement_id stage_weight_buffer_size
          let found := w.storage.FindOrCreateSymbolId merged_scope
          (.ok found.1,
            { storage := found.2, py_storage := w.py_storage ++ [(found.1, merged_scope)] })

/-- What the getter of `MakeGetterGetMergedScopeSymbolId` acts on: the cache
`old7stage2merged` it captures, and the world. -/
structure MergerState where
  old7stage2merged : List ((Int × Int) × Int)
  world : World

/-- The closure `GetMergedScopeSymbolId` built in lines 114-122. -/
def GetMergedScopeSymbolId (s : MergerState) (old_scope_id stage_scope_id : Int) :
    Except PassError Int × MergerState :=
  match hmFind s.old7stage2merged (old_scope_id, stage_scope_id) with
  | some merged => (.ok merged, s)
  | none =>
    match MergeScope s.world old_scope_id stage_scope_id with
    | (.error e, w) => (.error e, { s with world := w })
    | (.ok merge_scope_symbol_id, w) =>
      (.ok merge_scope_symbol_id,
        { old7stage2merged :=
            hmEmplace s.old7stage2merged (old_scope_id, stage_scope_id) merge_scope_symbol_id
          world := w })

/-- What happens between two calls of the getter within one pass: another call of the
getter, or a change of the world by other code. -/
inductive PassStep where
  | get (old_scope_id stage_scope_id : Int)
  | other (change : World → World)

/-- The state after a sequence of steps. -/
def runSteps : MergerState → List PassStep → MergerState
  | s, [] => s
  | s, .get old_scope_id stage_scope_id :: rest =>
    runSteps (GetMergedScopeSymbolId s old_scope_id stage_scope_id).2 rest
  | s, .other change :: rest => runSteps { s with world := change s.world } rest

/-! ## The pass and its strategies -/

/-- The part of `OperatorConf` the pass reads and writes: the name, the optional field
`scope_symbol_id`, and the remaining fields, which the pass only copies. -/
structure OperatorConf where
  name : String
  scope_symbol_id : Option Int
  remaining_fields : List Int
  deriving DecidableEq, Repr

/-- The content of a `ParallelConf`. -/
structure ParallelConf where
  device_tag : String
  device_name : List String
  deriving DecidableEq, Repr

/-- What the pass reads of a `Job`: the graph `OpGraph::New` builds from it, the operator
configuration `op_node->op().op_conf()` of every node, and the predicate
`MakePredicatorNeedBackwardOp` makes for that graph. -/
structure Job where
  op_graph : OpGraph
  op_conf : OpNode → OperatorConf
  NeedBackwardOp : OpNode → Bool

/-- Modelled from the spec: the Job Configuration (`JobDesc` is not among the sources),
with "named boolean/string/int64-list lookups" for which "absence ... is a fatal
configuration error", and the training flag. -/
structure JobDesc where
  is_train : Bool
  bool_options : List (String × Bool)
  string_options : List (String × String)
  list_int64_options : List (String × List Int)
  deriving DecidableEq, Repr

/-- Modelled from the spec: the lookup `job_desc.Bool(name)`. -/
def JobDesc.getBool (job_desc : JobDesc) (name : String) : Except PassError Bool :=
  match hmFind job_desc.bool_options name with
  | none => .error (.missingOption name)
  | some v => .ok v

/-- Modelled from the spec: the lookup `job_desc.String(name)`. -/
def JobDesc.getString (job_desc : JobDesc) (name : String) : Except PassError String :=
  match hmFind job_desc.string_options name with
  | none => .error (.missingOption name)
  | some v => .ok v

/-- Modelled from the spec: the lookup `job_desc.ListInt64(name)`. -/
def JobDesc.getListInt64 (job_desc : JobDesc) (name : String) : Except PassError (List Int) :=
  match hmFind job_desc.list_int64_options name with
  | none => .error (.missingOption name)
  | some v => .ok v

/-- Modelled from the spec: the Job Mutator (`JobBuilder` is not among the sources): the
operator configurations and parallel configurations written so far, in the order of the
writes; each operator can be written once per pass. -/
structure JobBuilder where
  mut_op_confs : List OperatorConf
  mut_parallel_confs : List (String × ParallelConf)
  deriving DecidableEq, Repr

/-- Modelled from the spec: `MutOpsOnlyOnce`, "rewrite operator config, exactly once per
operator per pass". -/
def JobBuilder.MutOpsOnlyOnce : JobBuilder → List OperatorConf → Except PassError JobBuilder
  | job_builder, [] => .ok job_builder
  | job_builder, op_conf :: rest =>
    if op_conf.name ∈ job_builder.mut_op_confs.map OperatorConf.name then
      .error (.doubleWrite op_conf.name)
    else
      JobBuilder.MutOpsOnlyOnce
        { job_builder with mut_op_confs := job_builder.mut_op_confs ++ [op_conf] } rest

/-- Modelled from the spec: `MutParallelConfOnlyOnce`, "rewrite parallel descriptor,
exactly once per operator per pass". -/
def JobBuilder.MutParallelConfOnlyOnce (job_builder : JobBuilder) (op_name : String)
    (parallel_conf : ParallelConf) : Except PassError JobBuilder :=
  if op_name ∈ job_builder.mut_parallel_confs.map Prod.fst then .error (.doubleWrite op_name)
  else .ok { job_builder with
             mut_parallel_confs := job_builder.mut_parallel_confs ++ [(op_name, parallel_conf)] }

/-- What the handler of `NaiveSequantialStagePartitionStrategy::Apply` captures by
reference: the getter's cache and the world, and the job builder. -/
structure ApplyState where
  merger : MergerState
  job_builder : JobBuilder

/-- The handler of lines 86-104. `GetParallelDesc` stands for `Scope::GetParallelDesc`
followed by `parallel_conf()`; it is not among the sources. -/
def rewriteOp (job : Job)
    (GetParallelDesc : ScopeProto → OperatorConf → Except PassError ParallelConf)
    (op_node : OpNode) (stage_scope_symbol_id : Int) (st : ApplyState) :
    Except PassError ApplyState :=
  let old_op_conf := job.op_conf op_node
  match old_op_conf.scope_symbol_id with
  | none => .error (.checkFailed 88)
  | some old_scope_symbol_id =>
    match GetMergedScopeSymbolId st.merger old_scope_symbol_id stage_scope_symbol_id with
    | (.error e, _) => .error e
    | (.ok merged_scope_symbol_id, merger) =>
      match merger.world.storage.MaybeGet merged_scope_symbol_id with
      | .error e => .error e
      | .ok merged_scope =>
        let op_conf := { old_op_conf with scope_symbol_id := some merged_scope_symbol_id }
        match st.job_builder.MutOpsOnlyOnce [op_conf] with
        | .error e => .error e
        | .ok job_builder =>
          match GetParallelDesc merged_scope op_conf with
          | .error e => .error e
          | .ok parallel_conf =>
            match job_builder.MutParallelConfOnlyOnce old_op_conf.name parallel_conf with
            | .error e => .error e
            | .ok job_builder1 => .ok { merger := merger, job_builder := job_builder1 }

/-- The state the handler of `NaiveSequantialStagePartitionStrategy::Apply` starts
from: an empty cache, the world, and a job builder without writes. -/
def applyInit (w : World) : ApplyState :=
  { merger := { old7stage2merged := [], world := w }
    job_builder := { mut_op_confs := [], mut_parallel_confs := [] } }

/-- What can be observed of a run of the pass besides its result. -/
inductive PassEvent where
  /-- The strategy registry was asked for a name (`NewObj`). -/
  | strategyLookup (name : String)
  /-- The op graph of the job was built (`OpGraph::New`, line 80). -/
  | opGraphNew
  /-- A job builder was made for the job (line 81). -/
  | jobBuilderNew
  deriving DecidableEq, Repr

/-- A run of the pass: the events in their order, and the result, on success the writes
asked of the job builder and the world after the run. -/
structure PassRun where
  events : List PassEvent
  result : Except PassError (JobBuilder × World)

/-- The strategies of lines 65-72 and 74-366. -/
inductive StagePartitionStragety where
  | DisableStagePartitionStrategy
  | NaiveSequantialStagePartitionStrategy
  deriving DecidableEq, Repr

/-- The registrations of lines 72 and 366 (`REGISTER_SSP_PARTITION_STRATEGY`). -/
def registeredStrategies : List (String × StagePartitionStragety) :=
  [("disable", .DisableStagePartitionStrategy),
   ("naive_sequantial", .NaiveSequantialStagePartitionStrategy)]

/-- Modelled from the spec: the Strategy Registry (`NewObj` and `REGISTER_CLASS_CREATOR`
are not among the sources): "lookup by name returns a fresh strategy instance or a fatal
unknown strategy error". -/
def NewObj (strategy_name : String) : Except PassError StagePartitionStragety :=
  match hmFind registeredStrategies strategy_name with
  | none => .error (.unknownStrategy strategy_name)
  | some strategy => .ok strategy

/-- The method `DisableStagePartitionStrategy::Apply` (line 70). -/
def DisableStagePartitionStrategy.Apply (w : World) : PassRun :=
  { events := [], result := .ok ({ mut_op_confs := [], mut_parallel_confs := [] }, w) }

/-- The method `NaiveSequantialStagePartitionStrategy::Apply` (lines 79-106). The job's
list of stage scopes is read where `GetStagePartitionScopeIds` reads it, after the
sequential order, which is built without any effect. -/
def NaiveSequantialStagePartitionStrategy.Apply (ord : List OpNode → List OpNode) (job : Job)
    (job_desc : JobDesc)
    (GetParallelDesc : ScopeProto → OperatorConf → Except PassError ParallelConf)
    (w : World) : PassRun :=
  { events := [.opGraphNew, .jobBuilderNew]
    result :=
      match job_desc.getListInt64 "stage_partition_scope_ids" with
      | .error e => .error e
      | .ok scope_ids =>
        match ForEachStageScope4TrainableFwOp ord job.op_graph job.NeedBackwardOp scope_ids
            (rewriteOp job GetParallelDesc) (applyInit w) with
        | .error e => .error e
        | .ok st => .ok (st.job_builder, st.merger.world) }

/-- The virtual call `strategy->Apply(job, ctx)`. -/
def StagePartitionStragety.Apply (strategy : StagePartitionStragety)
    (ord : List OpNode → List OpNode) (job : Job) (job_desc : JobDesc)
    (GetParallelDesc : ScopeProto → OperatorConf → Except PassError ParallelConf)
    (w : World) : PassRun :=
  match strategy with
  | .DisableStagePartitionStrategy => DisableStagePartitionStrategy.Apply w
  | .NaiveSequantialStagePartitionStrategy =>
    NaiveSequantialStagePartitionStrategy.Apply ord job job_desc GetParallelDesc w

/-- The method `StagePartitionPass::IsEnabled` (lines 54-56); the flag is read only for a
training job. -/
def IsEnabled (job_desc : JobDesc) : Except PassError Bool :=
  if job_desc.is_train then job_desc.getBool "enable_stage_partition" else .ok false

/-- The method `StagePartitionPass::Apply` (lines 46-52). -/
def StagePartitionPass.Apply (ord : List OpNode → List OpNode) (job : Job) (job_desc : JobDesc)
    (GetParallelDesc : ScopeProto → OperatorConf → Except PassError ParallelConf)
    (w : World) : PassRun :=
  match IsEnabled job_desc with
  | .error e => { events := [], result := .error e }
  | .ok false =>
    { events := [], result := .ok ({ mut_op_confs := [], mut_parallel_confs := [] }, w) }
  | .ok true =>
    match job_desc.getString "stage_partition_strategy" with
    | .error e => { events := [], result := .error e }
    | .ok partition_strategy =>
      match NewObj partition_strategy with
      | .error e => { events := [.strategyLookup partition_strategy], result := .error e }
      | .ok strategy =>
        { events := .strategyLookup partition_strategy ::
            (strategy.Apply ord job job_desc GetParallelDesc w).events
          result := (strategy.Apply ord job job_desc GetParallelDesc w).result }

/-! ## Notions used in the statements and proofs -/

/-- The sum of the sizes of the ranges `0 .. i`. -/
def cumSize (bs : BalancedSplitter) : Nat → Nat
  | 0 => bs.AtSize 0
  | i + 1 => cumSize bs i + bs.AtSize (i + 1)

/-- What holds of the walk after every group. -/
structure WalkInv (st : WalkState) : Prop where
  start : st.depth = 0 → st.num_ops_from_start = 0 ∧ st.stage = 0
  dom : ∀ d, (hmFind st.depth2stage d).isSome ↔ d < st.depth
  le_stage : ∀ d s, hmFind st.depth2stage d = some s → s ≤ st.stage
  mono : ∀ d1 d2 s1 s2, d1 ≤ d2 → hmFind st.depth2stage d1 = some s1 →
    hmFind st.depth2stage d2 = some s2 → s1 ≤ s2
  surj : 0 < st.depth → ∀ s, s ≤ st.stage → ∃ d, hmFind st.depth2stage d = some s
  last : 0 < st.depth → hmFind st.depth2stage (st.depth - 1) = some st.stage
  lt_depth : st.stage ≤ st.depth - 1

/-- The ends of the edges: every node a traversal can reach beyond its starts. -/
def OpGraph.endpoints (g : OpGraph) : List OpNode :=
  g.edges.map Prod.fst ++ g.edges.map Prod.snd

/-- The number of nodes of `U` that have not been queued. -/
def unqueued (U queued : List OpNode) : Nat :=
  (U.filter (fun x => decide (x ∉ queued))).length

/-- The nodes reached from a seed along edges into nodes of `T` (the seeds included). -/
inductive ReachThrough (g : OpGraph) (T : List OpNode) (seed : OpNode → Prop) : OpNode → Prop
  | start (v : OpNode) : seed v → ReachThrough g T seed v
  | step (u v : OpNode) : ReachThrough g T seed u → (u, v) ∈ g.edges → v ∈ T →
      ReachThrough g T seed v

/-- Node `v` has more than one predecessor in `T`. -/
def MultiInput (g : OpGraph) (T : List OpNode) (v : OpNode) : Prop :=
  ∃ u1 u2, u1 ≠ u2 ∧ u1 ∈ T ∧ u2 ∈ T ∧ (u1, v) ∈ g.edges ∧ (u2, v) ∈ g.edges

/-- The ops of a list of groups, a null group having none. -/
def seqOps : List (Option (List OpNode)) → List OpNode
  | [] => []
  | none :: rest => seqOps rest
  | some vec :: rest => vec ++ seqOps rest

/-- The ops of all the groups of `backbone_op2fused_ops`. -/
def allOps (m : List (OpNode × Option (List OpNode))) : List OpNode :=
  seqOps (m.map Prod.snd)

/-- What holds of `backbone_op2fused_ops` while it is built: no vector is null, and the
vector of a backbone op starts with that op. -/
def GroupsInv (m : List (OpNode × Option (List OpNode))) : Prop :=
  ∀ p, p ∈ m → ∃ others, p.2 = some (p.1 :: others)

/-- What holds of `other_fw_op2backbone_op` throughout the fusion. -/
structure FuseInv (backbone : List OpNode) (m : List (OpNode × OpNode)) : Prop where
  keys : (m.map Prod.fst).Nodup
  other : ∀ p, p ∈ m → p.1 ∉ backbone
  target : ∀ p, p ∈ m → p.2 ∈ backbone

/-- The handler calls `calls` made in order on the state `t`, up to the first failure. -/
def applyCalls {τ : Type} (Handler : OpNode → Int → τ → Except PassError τ) :
    List (OpNode × Int) → τ → Except PassError τ
  | [], t => .ok t
  | call :: rest, t =>
    match Handler call.1 call.2 t with
    | .error e => .error e
    | .ok t1 => applyCalls Handler rest t1

/-- The position in the sequential order of the first group that contains `op`. -/
def groupDepth : List (Option (List OpNode)) → OpNode → Option Nat
  | [], _ => none
  | none :: rest, op => (groupDepth rest op).map (fun d => d + 1)
  | some vec :: rest, op =>
    if op ∈ vec then some 0 else (groupDepth rest op).map (fun d => d + 1)

/-- The stage of an op: `Stage4Depth` of the position of its group in the sequential
order; `none` when the pass fails or the op is in no group. -/
def stageOfOp (ord : List OpNode → List OpNode) (g : OpGraph) (NeedBackwardOp : OpNode → Bool)
    (num_stages : Nat) (op : OpNode) : Option Nat :=
  match GetSequantialTrainableFwOps ord g NeedBackwardOp with
  | .error _ => none
  | .ok seq =>
    match GetStageDepth2Stage seq num_stages with
    | .error _ => none
    | .ok depth2stage =>
      match groupDepth seq op with
      | none => none
      | some depth =>
        match Stage4Depth depth2stage depth with
        | .error _ => none
        | .ok stage => some stage

/-- What holds of the traversal of `sequantialize` after every pop: the nodes popped so
far (`handled`, in the order of the pops) and the queue make up the queued set, every
queued node is a key of the map, the vectors of the nodes not popped yet are untouched,
and the list holds the vectors of the popped nodes, the last popped first. -/
def SeqInv (m0 : List (OpNode × Option (List OpNode)))
    (handled queue queued : List OpNode) (s : Except PassError SeqState) : Prop :=
  ∃ st, s = .ok st ∧ queued.Perm (handled ++ queue) ∧ queued.Nodup ∧
    (∀ x, x ∈ queued → x ∈ m0.map Prod.fst) ∧
    st.backbone_op2fused_ops.map Prod.fst = m0.map Prod.fst ∧
    (∀ k, k ∉ handled → hmFind st.backbone_op2fused_ops k = hmFind m0 k) ∧
    st.sequantial_trainable_fw_ops = handled.reverse.filterMap (fun k => hmFind m0 k)

/-- The calls of the handler in the loop of lines 167-173 for non-null groups, from the
group at `depth` on: every op of a group is passed with the scope id of the stage of the
group's depth. -/
def stageCalls (depth2stage : List (Nat × Nat)) (stage_partition_scope_ids : List Int) :
    List (List OpNode) → Nat → List (OpNode × Int)
  | [], _ => []
  | vec :: rest, depth =>
    vec.map (fun op_node =>
      (op_node, stage_partition_scope_ids.getD ((hmFind depth2stage depth).getD 0) 0)) ++
      stageCalls depth2stage stage_partition_scope_ids rest (depth + 1)

/-- Op `x` is linked to the backbone op `b` by an undirected path whose nodes after `b`
are all mapped to `b` by `m`. -/
inductive GroupPath (g : OpGraph) (m : List (OpNode × OpNode)) (b : OpNode) : OpNode → Prop
  | start : GroupPath g m b b
  | step (u v : OpNode) : GroupPath g m b u → v ∈ g.inOutNodes u → hmFind m v = some b →
      GroupPath g m b v

/-- Whether `b` is reached from `a` along at most `n` edges, taken in either direction. -/
def withinDist (g : OpGraph) : Nat → OpNode → OpNode → Bool
  | 0, a, b => decide (a = b)
  | n + 1, a, b => decide (a = b) || (g.inOutNodes a).any (fun c => withinDist g n c b)

/-- What holds of the traversal started at the backbone op `b` after every pop. -/
def FusePathInv (g : OpGraph) (backbone : List OpNode) (b : OpNode)
    (m0 : List (OpNode × OpNode)) (queue queued : List OpNode)
    (m : List (OpNode × OpNode)) : Prop :=
  queued.Nodup ∧ queue.Nodup ∧ (∀ x, x ∈ queue → x ∈ queued) ∧
  (∀ k v, hmFind m0 k = some v → hmFind m k = some v) ∧
  (∀ k v, hmFind m k = some v → hmFind m0 k = some v ∨ (v = b ∧ GroupPath g m b k)) ∧
  (∀ x, x ∈ queue → x = b ∨
    (x ∉ backbone ∧ hmFind m x = none ∧ ∃ u, GroupPath g m b u ∧ x ∈ g.inOutNodes u))

/-- Every entry of the map is linked to its backbone op inside that op's group. -/
def PathInv (g : OpGraph) (m : List (OpNode × OpNode)) : Prop :=
  ∀ k b, hmFind m k = some b → GroupPath g m b k

/-- The order in which the traversal from `starts` along `ForEachNext` takes the nodes
out of its queue: the traversal run with a handler that only appends the node it is
called on. -/
def visitOrder (g : OpGraph) (starts : List OpNode) (ForEachNext : OpNode → List OpNode) :
    Except PassError (List OpNode) :=
  g.BfsForEachNode starts (fun (_ : List OpNode) node => ForEachNext node)
    (fun node visited => visited ++ [node]) []

/-- What holds of the traversal of `sequantialize` and of the order of its pops
(`order`): `SeqInv`, every start is queued, every in-node of a popped node that is a key
of the map is queued, and the first popped node is a start. -/
def SeqOrderInv (g : OpGraph) (m0 : List (OpNode × Option (List OpNode)))
    (starts queue queued : List OpNode) (s : Except PassError SeqState)
    (order : List OpNode) : Prop :=
  SeqInv m0 order queue queued s ∧ (∀ x, x ∈ starts → x ∈ queued) ∧
    (∀ u v, u ∈ order → (v, u) ∈ g.edges → v ∈ m0.map Prod.fst → v ∈ queued) ∧
    (∀ b0, b0 ∈ order.head? → b0 ∈ starts) ∧ (order = [] → ∀ x, x ∈ queue → x ∈ starts)

/-- What holds, after every pop, of a traversal whose neighbours do not depend on the
state, and of the traversal that records the pops (`visited`): the state is the
handler folded over the popped nodes, the queued nodes are the popped nodes followed
by the queue, every start is queued, the neighbours of a popped node are queued, and
every queued node is a start or a neighbour of a popped node. -/
def VisitInv {σ : Type} (starts : List OpNode) (nx : OpNode → List OpNode)
    (H : OpNode → σ → σ) (s0 : σ) (queue queued : List OpNode) (s : σ)
    (visited : List OpNode) : Prop :=
  s = visited.foldl (fun s b => H b s) s0 ∧ queued = visited ++ queue ∧ queued.Nodup ∧
    (∀ x, x ∈ starts → x ∈ queued) ∧
    (∀ u v, u ∈ visited → v ∈ nx u → v ∈ queued) ∧
    (∀ x, x ∈ queued → x ∈ starts ∨ ∃ u, u ∈ visited ∧ x ∈ nx u)

/-- What holds besides `FusePathInv` of the traversal started at the backbone op `b`
after every pop: `b` is queued, a popped node is a backbone op or is in the map, every
neighbour of a popped node is a backbone op, in the map or queued, and every entry of
the map that was not in `m0` is a popped node. -/
def FuseClosedInv (g : OpGraph) (backbone : List OpNode) (b : OpNode)
    (m0 : List (OpNode × OpNode)) (queue queued : List OpNode)
    (m : List (OpNode × OpNode)) : Prop :=
  FusePathInv g backbone b m0 queue queued m ∧ b ∈ queued ∧
  (∀ p, p ∈ queued → p ∉ queue → p ∈ backbone ∨ (hmFind m p).isSome) ∧
  (∀ p y, p ∈ queued → p ∉ queue → y ∈ g.inOutNodes p →
    y ∈ backbone ∨ (hmFind m y).isSome ∨ y ∈ queued) ∧
  (∀ k v, hmFind m k = some v → hmFind m0 k = some v ∨ (k ∈ queued ∧ k ∉ queue))

/-- Op `x` is linked to the backbone op `b` by an undirected path whose nodes after `b`
are all outside the backbone. -/
inductive NBPath (g : OpGraph) (backbone : List OpNode) (b : OpNode) : OpNode → Prop
  | start : NBPath g backbone b b
  | step (u v : OpNode) : NBPath g backbone b u → v ∈ g.inOutNodes u → v ∉ backbone →
      NBPath g backbone b v

/-- Op `x` is linked to some backbone op by an undirected path. -/
inductive Linked (g : OpGraph) (backbone : List OpNode) : OpNode → Prop
  | start (b : OpNode) : b ∈ backbone → Linked g backbone b
  | step (u v : OpNode) : Linked g backbone u → v ∈ g.inOutNodes u → Linked g backbone v

/-- What holds of `other_fw_op2backbone_op` when the traversals started at the backbone
ops of `done`, in this order, have run: the map is as `FuseInv` and `PathInv` say; an op
is mapped to a backbone op of `done` before which no backbone op of `done` is linked to
the op outside the backbone; and no neighbour of a backbone op of `done` or of an op
of the map is outside the backbone and the map. -/
def FirstWinsInv (g : OpGraph) (backbone done : List OpNode)
    (m : List (OpNode × OpNode)) : Prop :=
  FuseInv backbone m ∧ PathInv g m ∧
  (∀ k v, hmFind m k = some v → ∃ l1 l2, done = l1 ++ v :: l2 ∧
    ∀ b, b ∈ l1 → ¬ NBPath g backbone b k) ∧
  (∀ b y, b ∈ done → y ∈ g.inOutNodes b → y ∈ backbone ∨ (hmFind m y).isSome) ∧
  (∀ k y, (hmFind m k).isSome → y ∈ g.inOutNodes k → y ∈ backbone ∨ (hmFind m y).isSome)

/-- Op `x` is linked to `b` by an undirected path all of whose nodes are in `grp`. -/
inductive PathIn (g : OpGraph) (grp : List OpNode) (b : OpNode) : OpNode → Prop
  | start : PathIn g grp b b
  | step (u v : OpNode) : PathIn g grp b u → v ∈ g.inOutNodes u → v ∈ grp → PathIn g grp b v

/-- Whether the backbone op `x` reaches a backbone op without a successor in the
backbone along at most `n` edges between backbone ops. -/
def sinkWithin (g : OpGraph) (backbone : List OpNode) : Nat → OpNode → Bool
  | 0, x => decide (x ∈ backbone) && (g.outNodes x).all (fun y => !decide (y ∈ backbone))
  | n + 1, x => sinkWithin g backbone n x ||
      (decide (x ∈ backbone) &&
        (g.outNodes x).any (fun y => decide (y ∈ backbone) && sinkWithin g backbone n y))

/-- What holds, after every pop, of the traversal that records its pops (`visited`),
for levels `lv n` (the nodes within `n` steps of the starts): the queued nodes are the
popped nodes followed by the queue, every start is queued, the neighbours of a popped
node are queued, every queued node has a level, no queued node has a smaller level
than a node queued before it, and no queued node is more than one level beyond the
head of the queue. -/
def LevelInv (starts : List OpNode) (nx : OpNode → List OpNode) (lv : Nat → OpNode → Prop)
    (queue queued visited : List OpNode) : Prop :=
  queued = visited ++ queue ∧
  (∀ x, x ∈ starts → x ∈ queued) ∧
  (∀ u v, u ∈ visited → v ∈ nx u → v ∈ queued) ∧
  (∀ x, x ∈ queued → ∃ n, lv n x) ∧
  queued.Pairwise (fun x y => ∀ n, lv n y → lv n x) ∧
  (∀ cur, cur ∈ queue.head? → ∀ x, x ∈ queued → ∀ n, lv n cur → lv (n + 1) x)

/-! ## Example inputs -/

/-- The diamond `0 → 1, 0 → 2, 1 → 3, 2 → 3, 3 → 4` (`A`, `B`, `C`, `D`, `loss`). -/
def diamond : OpGraph :=
  { nodes := [0, 1, 2, 3, 4], edges := [(0, 1), (0, 2), (1, 3), (2, 3), (3, 4)] }

/-- The chain `0 → 1 → 2 → 3 → 4` (`A`, `B`, `C`, `D`, `E`). -/
def chain : OpGraph :=
  { nodes := [0, 1, 2, 3, 4], edges := [(0, 1), (1, 2), (2, 3), (3, 4)] }

/-- A graph with the edges `2 → 6 → 7 → 8` and `2 → 8`: op `2` has the inputs `0` and
`1`, op `6` the further inputs `3`, `4` and `5`. Every edge goes from a smaller to a
larger number. -/
def shortcut : OpGraph :=
  { nodes := [0, 1, 2, 3, 4, 5, 6, 7, 8]
    edges := [(0, 2), (1, 2), (2, 6), (3, 6), (4, 6), (5, 6), (6, 7), (7, 8), (2, 8)] }

/-- A scope without attributes. -/
def plainScope (device host : Int) : ScopeProto :=
  { job_desc_symbol_id := 1, device_parallel_desc_symbol_id := device
    host_parallel_desc_symbol_id := host, parent_scope_symbol_id := none
    attr_name2attr_value := [("checkpointing", .at_bool true)], remaining_fields := [] }

/-- A stage scope carrying the two stage attributes. -/
def stageScope (device host placement buffer : Int) : ScopeProto :=
  { job_desc_symbol_id := 1, device_parallel_desc_symbol_id := device
    host_parallel_desc_symbol_id := host, parent_scope_symbol_id := none
    attr_name2attr_value :=
      [("stage_placement_id", .at_int64 placement), ("stage_weight_buffer_size", .at_int64 buffer)]
    remaining_fields := [] }

/-- A storage with the scopes `7` (an op's scope) and `3` (a stage scope). -/
def storage73 : SymbolStorage :=
  { symbols := [(7, plainScope 10 11), (3, stageScope 20 21 0 4)], created := 2
    nodup := by decide }

/-- A job description of a job that is not a training job. -/
def evalJobDesc : JobDesc :=
  { is_train := false, bool_options := [("enable_stage_partition", true)]
    string_options := [("stage_partition_strategy", "naive_sequantial")]
    list_int64_options := [("stage_partition_scope_ids", [100, 101])] }

/-- A job description of a training job with the pass enabled and the given strategy. -/
def trainJobDesc (strategy_name : String) : JobDesc :=
  { is_train := true, bool_options := [("enable_stage_partition", true)]
    string_options := [("stage_partition_strategy", strategy_name)]
    list_int64_options := [("stage_partition_scope_ids", [3, 3])] }

/-- The diamond as a job: every op is trainable forward; an op has the scope `7` unless
it is listed in `unscoped`, in which case it has no scope. -/
def diamondJob (unscoped : List OpNode) : Job :=
  { op_graph := diamond
    op_conf := fun op_node =>
      { name := "op" ++ toString op_node
        scope_symbol_id := if op_node ∈ unscoped then none else some 7
        remaining_fields := [] }
    NeedBackwardOp := fun _ => true }

/-- A graph in which op `3` is not trainable forward: `0 → 2`, `1 → 2`, `3 → 2`. -/
def labelled : OpGraph :=
  { nodes := [0, 1, 2, 3], edges := [(0, 2), (1, 2), (3, 2)] }

/-- A graph with the backbone ops `2` and `4`: `0 → 2`, `1 → 2`, `2 → 4`, `0 → 3`,
`3 → 4`. -/
def detour : OpGraph :=
  { nodes := [0, 1, 2, 3, 4], edges := [(0, 2), (1, 2), (2, 4), (0, 3), (3, 4)] }

/-- The graph `shortcut` with the edge `2 → 8` listed before the edge `7 → 8`. -/
def shortcutAlt : OpGraph :=
  { nodes := [0, 1, 2, 3, 4, 5, 6, 7, 8]
    edges := [(0, 2), (1, 2), (2, 6), (3, 6), (4, 6), (5, 6), (6, 7), (2, 8), (7, 8)] }

/-- A graph in which op `0` feeds the multi-input op `7` and, through op `1`, the
multi-input op `3`; ops `4`, `5`, `6` are the other inputs of `7`, op `2` the other
input of `3`, and `7 → 8 → 9`. Every edge goes from a smaller to a larger number. -/
def sidefeed : OpGraph :=
  { nodes := [0, 1, 2, 3, 4, 5, 6, 7, 8, 9]
    edges := [(0, 1), (1, 3), (2, 3), (0, 7), (4, 7), (5, 7), (6, 7), (7, 8), (8, 9)] }

/-! # Theorems -/

/-! ## Hash maps -/

theorem hmFind_hmSet {κ ν : Type} [DecidableEq κ] (m : List (κ × ν)) (k : κ) (v : ν) (k1 : κ) :
    hmFind (hmSet m k v) k1 = if k = k1 then some v else hmFind m k1 := by
  induction m with
  | nil => simp [hmSet, hmFind]
  | cons p m ih =>
    obtain ⟨k0, v0⟩ := p
    by_cases h0 : k0 = k
    · subst h0
      by_cases h1 : k0 = k1 <;> simp [hmSet, hmFind, h1]
    · by_cases h1 : k0 = k1
      · subst h1
        have : ¬ k = k0 := fun h => h0 h.symm
        simp [hmSet, hmFind, h0, this]
      · simp [hmSet, hmFind, h0, h1, ih]

/-! ## `GetStageDepth2Stage`: the table and the walk -/

theorem foldl_add_eq_sum (l : List Nat) (a : Nat) :
    l.foldl (fun acc n => acc + n) a = a + l.sum := by
  induction l generalizing a with
  | nil => simp
  | cons x l ih => simp [ih, Nat.add_assoc]

theorem fill_spec (bs : BalancedSplitter) (K : Nat) (tbl0 : List Nat) (h0 : tbl0.length = K) :
    ∀ n, n ≤ K →
      ((List.range n).foldl (fillStep bs) tbl0).length = K ∧
      (∀ i, i < n → ((List.range n).foldl (fillStep bs) tbl0)[i]? = some (cumSize bs i)) := by
  intro n
  induction n with
  | zero => intro _; simp [h0]
  | succ n ih =>
    intro hn
    obtain ⟨hlen, hval⟩ := ih (by omega)
    rw [List.range_succ, List.foldl_append]
    simp only [List.foldl_cons, List.foldl_nil]
    refine ⟨by simp [fillStep, hlen], ?_⟩
    intro i hi
    by_cases hin : i = n
    · subst hin
      have hlt : i < ((List.range i).foldl (fillStep bs) tbl0).length := by omega
      simp only [fillStep]
      rw [List.getElem?_set_eq_of_lt _ hlt]
      cases i with
      | zero => simp [cumSize]
      | succ j =>
        have hj := hval j (by omega)
        simp [cumSize, List.getD_eq_getElem?_getD, hj]
        omega
    · have := hval i (by omega)
      simp only [fillStep]
      rw [List.getElem?_set_ne (by omega)]
      simpa using this

theorem table_length (bs : BalancedSplitter) (K : Nat) :
    (stage2expected_num_ops_from_start bs K).length = K :=
  (fill_spec bs K (List.replicate K 0) (by simp) K (Nat.le_refl K)).1

theorem table_get (bs : BalancedSplitter) (K i : Nat) (hi : i < K) :
    (stage2expected_num_ops_from_start bs K)[i]? = some (cumSize bs i) :=
  (fill_spec bs K (List.replicate K 0) (by simp) K (Nat.le_refl K)).2 i hi

theorem cumSize_new (N K i : Nat) :
    cumSize (BalancedSplitter.new N K) i = (i + 1) * (N / K) + min (i + 1) (N % K) := by
  induction i with
  | zero =>
    simp only [cumSize, BalancedSplitter.AtSize, BalancedSplitter.new]
    split <;> omega
  | succ i ih =>
    rw [cumSize, ih]
    simp only [BalancedSplitter.AtSize, BalancedSplitter.new]
    have : (i + 1 + 1) * (N / K) = (i + 1) * (N / K) + N / K := by ring
    rw [this]
    split <;> omega

theorem cumSize_last (N K : Nat) (hK : 1 ≤ K) :
    cumSize (BalancedSplitter.new N K) (K - 1) = N := by
  rw [cumSize_new]
  have h1 : K - 1 + 1 = K := by omega
  rw [h1]
  have h2 : N % K < K := Nat.mod_lt _ (by omega)
  have h3 : K * (N / K) + N % K = N := Nat.div_add_mod N K
  rw [Nat.min_eq_right (by omega)]
  exact h3

theorem walkInv_init : WalkInv walkInit where
  start := fun _ => ⟨rfl, rfl⟩
  dom := by intro d; simp [walkInit, hmFind]
  le_stage := by intro d s h; simp [walkInit, hmFind] at h
  mono := by intro d1 d2 s1 s2 _ h; simp [walkInit, hmFind] at h
  surj := by intro h; simp [walkInit] at h
  last := by intro h; simp [walkInit] at h
  lt_depth := by simp [walkInit]

theorem walkInv_push (st : WalkState) (ns size : Nat) (inv : WalkInv st)
    (hge : st.stage ≤ ns) (hle : ns ≤ st.stage + 1) (hfirst : st.depth = 0 → ns = 0) :
    WalkInv { stage := ns, depth := st.depth + 1
              num_ops_from_start := st.num_ops_from_start + size
              depth2stage := hmSet st.depth2stage st.depth ns } := by
  refine
    { start := by intro hd; simp at hd
      dom := ?_, le_stage := ?_, mono := ?_, surj := ?_, last := ?_, lt_depth := ?_ }
  · intro d
    show (hmFind (hmSet st.depth2stage st.depth ns) d).isSome ↔ d < st.depth + 1
    rw [hmFind_hmSet]
    by_cases hd : st.depth = d
    · rw [if_pos hd]; simp; omega
    · rw [if_neg hd, inv.dom d]; omega
  · intro d s
    show hmFind (hmSet st.depth2stage st.depth ns) d = some s → s ≤ ns
    rw [hmFind_hmSet]
    by_cases hd : st.depth = d
    · rw [if_pos hd]; intro hs; injection hs with hs; omega
    · rw [if_neg hd]; intro hs; have := inv.le_stage d s hs; omega
  · intro d1 d2 s1 s2 hle12
    show hmFind (hmSet st.depth2stage st.depth ns) d1 = some s1 →
      hmFind (hmSet st.depth2stage st.depth ns) d2 = some s2 → s1 ≤ s2
    rw [hmFind_hmSet, hmFind_hmSet]
    by_cases hd1 : st.depth = d1
    · by_cases hd2 : st.depth = d2
      · rw [if_pos hd1, if_pos hd2]
        intro a b; injection a with a; injection b with b; omega
      · rw [if_pos hd1, if_neg hd2]
        intro _ b
        have : d2 < st.depth := (inv.dom d2).1 (by simp [b])
        omega
    · by_cases hd2 : st.depth = d2
      · rw [if_neg hd1, if_pos hd2]
        intro a b; injection b with b
        have := inv.le_stage d1 s1 a
        omega
      · rw [if_neg hd1, if_neg hd2]
        exact inv.mono d1 d2 s1 s2 hle12
  · intro _ s hs
    show ∃ d, hmFind (hmSet st.depth2stage st.depth ns) d = some s
    by_cases hnew : s = ns
    · exact ⟨st.depth, by rw [hmFind_hmSet, if_pos rfl, hnew]⟩
    · have hs1 : s ≤ ns := hs
      have hs2 : s ≤ st.stage := by omega
      have hpos : 0 < st.depth := by
        rcases Nat.eq_zero_or_pos st.depth with h0 | h0
        · have := hfirst h0; omega
        · exact h0
      obtain ⟨d, hd⟩ := inv.surj hpos s hs2
      have : d < st.depth := (inv.dom d).1 (by simp [hd])
      exact ⟨d, by rw [hmFind_hmSet, if_neg (by omega), hd]⟩
  · intro _
    show hmFind (hmSet st.depth2stage st.depth ns) (st.depth + 1 - 1) = some ns
    rw [hmFind_hmSet, if_pos (by omega)]
  · show ns ≤ st.depth + 1 - 1
    rcases Nat.eq_zero_or_pos st.depth with h0 | h0
    · have := hfirst h0; omega
    · have := inv.lt_depth; omega

theorem walkStep_eq (tbl : List Nat) (st st1 : WalkState) (size : Nat)
    (h : walkStep tbl st size = .ok st1) :
    ∃ ns, st.stage ≤ ns ∧ ns ≤ st.stage + 1 ∧ (st.num_ops_from_start = 0 → ns = st.stage) ∧
      st1 = { stage := ns, depth := st.depth + 1
              num_ops_from_start := st.num_ops_from_start + size
              depth2stage := hmSet st.depth2stage st.depth ns } := by
  unfold walkStep at h
  cases hget : tbl[st.stage]? with
  | none => rw [hget] at h; cases h
  | some expected =>
    rw [hget] at h
    injection h with h
    refine ⟨if st.num_ops_from_start > expected then st.stage + 1 else st.stage, ?_, ?_, ?_, h.symm⟩
    · split <;> omega
    · split <;> omega
    · intro h0; rw [h0]; simp

theorem walkStep_inv (tbl : List Nat) (st st1 : WalkState) (size : Nat)
    (h : walkStep tbl st size = .ok st1) (inv : WalkInv st) : WalkInv st1 := by
  obtain ⟨ns, hge, hle, h0, rfl⟩ := walkStep_eq tbl st st1 size h
  apply walkInv_push st ns size inv hge hle
  intro hd
  obtain ⟨hn, hs⟩ := inv.start hd
  rw [h0 hn, hs]

theorem walk_inv (tbl : List Nat) (sizes : List Nat) :
    ∀ st st1, walk tbl st sizes = .ok st1 → WalkInv st →
      WalkInv st1 ∧ st1.depth = st.depth + sizes.length := by
  induction sizes with
  | nil =>
    intro st st1 h inv
    simp only [walk] at h
    injection h with h
    subst h
    exact ⟨inv, rfl⟩
  | cons size rest ih =>
    intro st st1 h inv
    simp only [walk] at h
    cases hstep : walkStep tbl st size with
    | error e => simp [hstep] at h
    | ok st2 =>
      simp only [hstep] at h
      obtain ⟨inv1, hd⟩ := ih st2 st1 h (walkStep_inv tbl st st2 size hstep inv)
      refine ⟨inv1, ?_⟩
      have : st2.depth = st.depth + 1 := by
        obtain ⟨ns, _, _, _, rfl⟩ := walkStep_eq tbl st st2 size hstep
        rfl
      simp only [List.length_cons]
      omega

/-- With at least one stage the bounds-checked read of the walk never fails. -/
theorem walk_ok (tbl : List Nat) (K N : Nat) (hlen : tbl.length = K)
    (hlast : tbl[K - 1]? = some N) (sizes : List Nat) :
    ∀ st, st.stage < K → st.num_ops_from_start + sizes.sum ≤ N →
      ∃ st1, walk tbl st sizes = .ok st1 ∧ st1.stage < K := by
  induction sizes with
  | nil => intro st h _; exact ⟨st, rfl, h⟩
  | cons size rest ih =>
    intro st hst hsum
    simp only [List.sum_cons] at hsum
    have hlt : st.stage < tbl.length := by omega
    simp only [walk, walkStep, List.getElem?_eq_getElem hlt]
    apply ih
    · show (if st.num_ops_from_start > tbl[st.stage] then st.stage + 1 else st.stage) < K
      by_cases hs : st.stage = K - 1
      · have : tbl[st.stage] = N := by
          have h2 : tbl[st.stage]? = some N := by rw [hs]; exact hlast
          rw [List.getElem?_eq_getElem hlt] at h2
          injection h2
        rw [this]
        have : ¬ st.num_ops_from_start > N := by omega
        simp only [this, if_false]
        exact hst
      · split <;> omega
    · show st.num_ops_from_start + size + rest.sum ≤ N
      omega

theorem groupSizes_map_some (groups : List (List OpNode)) :
    groupSizes (groups.map some) = some (groups.map List.length) := by
  induction groups with
  | nil => rfl
  | cons vec rest ih => simp [groupSizes, ih]

theorem walk_run (sizes : List Nat) (K : Nat) (hK : 1 ≤ K) :
    ∃ st, walk (expectedTable sizes K) walkInit sizes = .ok st ∧ st.stage < K ∧ WalkInv st ∧
      st.depth = sizes.length := by
  have hlast : (expectedTable sizes K)[K - 1]? = some (sizes.foldl (fun acc n => acc + n) 0) := by
    unfold expectedTable
    rw [table_get _ K (K - 1) (by omega), cumSize_last _ K hK]
  obtain ⟨st, hst, hlt⟩ := walk_ok (expectedTable sizes K) K _ (table_length _ K) hlast sizes
    walkInit (by simp [walkInit]; omega) (by simp [walkInit, foldl_add_eq_sum])
  obtain ⟨inv, hd⟩ := walk_inv _ sizes walkInit st hst walkInv_init
  exact ⟨st, hst, hlt, inv, by simpa [walkInit] using hd⟩

theorem depth2stageOfSizes_eq (sizes : List Nat) (K : Nat) (st : WalkState)
    (hst : walk (expectedTable sizes K) walkInit sizes = .ok st) (hd : st.depth = sizes.length) :
    depth2stageOfSizes sizes K =
      if (st.stage : Int) ≠ (K : Int) - 1 then .error (.checkFailed 234) else .ok st.depth2stage := by
  unfold depth2stageOfSizes
  simp only [hst, hd]
  simp

theorem GetStageDepth2Stage_eq (groups : List (List OpNode)) (K : Nat) :
    GetStageDepth2Stage (groups.map some) K = depth2stageOfSizes (groups.map List.length) K := by
  simp [GetStageDepth2Stage, groupSizes_map_some]

theorem Stage4Depth_ok (tbl : List (Nat × Nat)) (d s : Nat) :
    Stage4Depth tbl d = .ok s ↔ hmFind tbl d = some s := by
  unfold Stage4Depth
  cases hmFind tbl d with
  | none => simp
  | some x => simp

/-- C4. With at least one stage the walk of `GetStageDepth2Stage` always runs to the end
and consumes one depth per group; the function aborts exactly when the stage reached
differs from `K - 1`, always through the check of line 234 and never through the
check of line 235; with `K ≥ 2` and fewer groups than stages it aborts. -/
theorem GetStageDepth2Stage_aborts_iff (groups : List (List OpNode)) (num_stages : Nat)
    (hK : 1 ≤ num_stages) :
    ∃ st, walk (expectedTable (groups.map List.length) num_stages) walkInit
          (groups.map List.length) = .ok st ∧
      st.depth = groups.length ∧
      (st.stage ≠ num_stages - 1 →
        GetStageDepth2Stage (groups.map some) num_stages = .error (.checkFailed 234)) ∧
      (st.stage = num_stages - 1 →
        GetStageDepth2Stage (groups.map some) num_stages = .ok st.depth2stage) ∧
      (2 ≤ num_stages → groups.length < num_stages →
        GetStageDepth2Stage (groups.map some) num_stages = .error (.checkFailed 234)) := by
  obtain ⟨st, hst, _, inv, hd⟩ := walk_run (groups.map List.length) num_stages hK
  have heq := depth2stageOfSizes_eq _ num_stages st hst hd
  rw [← GetStageDepth2Stage_eq] at heq
  have hne : st.stage ≠ num_stages - 1 →
      GetStageDepth2Stage (groups.map some) num_stages = .error (.checkFailed 234) := by
    intro h
    rw [heq, if_pos]
    omega
  refine ⟨st, hst, by simpa using hd, hne, ?_, ?_⟩
  · intro h
    rw [heq, if_neg]
    omega
  · intro h2 hlt
    apply hne
    have := inv.lt_depth
    simp only [List.length_map] at hd
    omega

theorem GetStageDepth2Stage_aborts_iff_witness :
    1 ≤ 2 ∧ ∃ st, walk (expectedTable ([[0, 1, 2], [3]].map List.length) 2) walkInit
          ([[0, 1, 2], [3]].map List.length) = .ok st ∧
      st.depth = [[0, 1, 2], [3]].length ∧
      (st.stage ≠ 2 - 1 →
        GetStageDepth2Stage ([[0, 1, 2], [3]].map some) 2 = .error (.checkFailed 234)) ∧
      (st.stage = 2 - 1 →
        GetStageDepth2Stage ([[0, 1, 2], [3]].map some) 2 = .ok st.depth2stage) ∧
      (2 ≤ 2 → [[0, 1, 2], [3]].length < 2 →
        GetStageDepth2Stage ([[0, 1, 2], [3]].map some) 2 = .error (.checkFailed 234)) :=
  ⟨by decide, GetStageDepth2Stage_aborts_iff [[0, 1, 2], [3]] 2 (by decide)⟩

/-- C3, as amended. When `GetStageDepth2Stage` succeeds for `M` groups and `K ≥ 1`
stages, `Stage4Depth` is defined exactly on the depths `0 .. M - 1` and is monotone
non-decreasing; when there is at least one group it is onto `[0, K)` and the last depth
has stage `K - 1`. -/
theorem Stage4Depth_monotone_onto (groups : List (List OpNode)) (num_stages : Nat)
    (depth2stage : List (Nat × Nat)) (hK : 1 ≤ num_stages)
    (h : GetStageDepth2Stage (groups.map some) num_stages = .ok depth2stage) :
    (∀ depth, (∃ stage, Stage4Depth depth2stage depth = .ok stage) ↔ depth < groups.length) ∧
    (∀ d1 d2 s1 s2, d1 ≤ d2 → Stage4Depth depth2stage d1 = .ok s1 →
      Stage4Depth depth2stage d2 = .ok s2 → s1 ≤ s2) ∧
    (∀ depth stage, Stage4Depth depth2stage depth = .ok stage → stage < num_stages) ∧
    (groups ≠ [] →
      (∀ stage, stage < num_stages →
        ∃ depth, depth < groups.length ∧ Stage4Depth depth2stage depth = .ok stage) ∧
      Stage4Depth depth2stage (groups.length - 1) = .ok (num_stages - 1)) := by
  obtain ⟨st, hst, hlt, inv, hd⟩ := walk_run (groups.map List.length) num_stages hK
  have heq := depth2stageOfSizes_eq _ num_stages st hst hd
  rw [← GetStageDepth2Stage_eq, h] at heq
  have hstage : st.stage = num_stages - 1 := by
    by_contra hne
    rw [if_pos (by omega)] at heq
    cases heq
  rw [if_neg (by omega)] at heq
  injection heq with heq
  subst heq
  simp only [List.length_map] at hd
  have hdom : ∀ depth, (∃ stage, Stage4Depth st.depth2stage depth = .ok stage) ↔
      depth < groups.length := by
    intro depth
    rw [← hd, ← inv.dom depth]
    simp only [Stage4Depth_ok, Option.isSome_iff_exists]
  refine ⟨hdom, ?_, ?_, ?_⟩
  · intro d1 d2 s1 s2 hle h1 h2
    exact inv.mono d1 d2 s1 s2 hle ((Stage4Depth_ok _ _ _).1 h1) ((Stage4Depth_ok _ _ _).1 h2)
  · intro depth stage hs
    have := inv.le_stage depth stage ((Stage4Depth_ok _ _ _).1 hs)
    omega
  · intro hne
    have hpos : 0 < st.depth := by
      rw [hd]
      exact List.length_pos.2 hne
    constructor
    · intro stage hs
      obtain ⟨d, hfind⟩ := inv.surj hpos stage (by omega)
      have hok := (Stage4Depth_ok _ _ _).2 hfind
      exact ⟨d, (hdom d).1 ⟨stage, hok⟩, hok⟩
    · rw [Stage4Depth_ok, ← hd, ← hstage]
      exact inv.last hpos

theorem Stage4Depth_monotone_onto_witness :
    1 ≤ 2 ∧ GetStageDepth2Stage ([[0, 1, 2], [3]].map some) 2 = .ok [(0, 0), (1, 1)] ∧
    ((∀ depth, (∃ stage, Stage4Depth [(0, 0), (1, 1)] depth = .ok stage) ↔
        depth < [[0, 1, 2], [3]].length) ∧
    (∀ d1 d2 s1 s2, d1 ≤ d2 → Stage4Depth [(0, 0), (1, 1)] d1 = .ok s1 →
      Stage4Depth [(0, 0), (1, 1)] d2 = .ok s2 → s1 ≤ s2) ∧
    (∀ depth stage, Stage4Depth [(0, 0), (1, 1)] depth = .ok stage → stage < 2) ∧
    ([[0, 1, 2], [3]] ≠ [] →
      (∀ stage, stage < 2 →
        ∃ depth, depth < [[0, 1, 2], [3]].length ∧
          Stage4Depth [(0, 0), (1, 1)] depth = .ok stage) ∧
      Stage4Depth [(0, 0), (1, 1)] ([[0, 1, 2], [3]].length - 1) = .ok (2 - 1))) :=
  ⟨by decide, by decide,
    Stage4Depth_monotone_onto [[0, 1, 2], [3]] 2 [(0, 0), (1, 1)] (by decide) (by decide)⟩

/-- C3, counterexample to surjectivity: with no group and one stage
`GetStageDepth2Stage` succeeds, and stage `0` receives no depth. -/
theorem Stage4Depth_not_onto_without_groups :
    GetStageDepth2Stage (([] : List (List OpNode)).map some) 1 = .ok [] ∧
    (0 < 1 ∧ ¬ ∃ depth, Stage4Depth [] depth = .ok 0) := by
  refine ⟨by decide, by decide, ?_⟩
  rintro ⟨depth, h⟩
  simp [Stage4Depth, hmFind] at h

/-! ## Breadth-first traversal -/

theorem mem_inNodes (g : OpGraph) (u v : OpNode) : u ∈ g.inNodes v ↔ (u, v) ∈ g.edges := by
  simp only [OpGraph.inNodes, List.mem_map, List.mem_filter, decide_eq_true_eq]
  constructor
  · rintro ⟨⟨a, b⟩, ⟨hmem, hb⟩, ha⟩
    simp only at hb ha
    subst hb; subst ha
    exact hmem
  · intro h
    exact ⟨(u, v), ⟨h, rfl⟩, rfl⟩

theorem mem_outNodes (g : OpGraph) (u v : OpNode) : v ∈ g.outNodes u ↔ (u, v) ∈ g.edges := by
  simp only [OpGraph.outNodes, List.mem_map, List.mem_filter, decide_eq_true_eq]
  constructor
  · rintro ⟨⟨a, b⟩, ⟨hmem, ha⟩, hb⟩
    simp only at hb ha
    subst hb; subst ha
    exact hmem
  · intro h
    exact ⟨(u, v), ⟨h, rfl⟩, rfl⟩

theorem mem_endpoints_of_edge (g : OpGraph) (u v : OpNode) (h : (u, v) ∈ g.edges) :
    u ∈ g.endpoints ∧ v ∈ g.endpoints := by
  simp only [OpGraph.endpoints, List.mem_append, List.mem_map]
  exact ⟨Or.inl ⟨(u, v), h, rfl⟩, Or.inr ⟨(u, v), h, rfl⟩⟩

theorem endpoints_length (g : OpGraph) : g.endpoints.length = 2 * g.edges.length := by
  simp [OpGraph.endpoints]; omega

theorem enqueue_fold_mem_queued (l : List OpNode) :
    ∀ (acc : List OpNode × List OpNode) (x : OpNode),
      x ∈ (l.foldl enqueue acc).2 ↔ x ∈ acc.2 ∨ x ∈ l := by
  induction l with
  | nil => intro acc x; simp
  | cons n l ih =>
    intro acc x
    rw [List.foldl_cons, ih]
    unfold enqueue
    by_cases hn : n ∈ acc.2
    · rw [if_pos hn]
      constructor
      · rintro (h | h)
        · exact Or.inl h
        · exact Or.inr (List.mem_cons_of_mem _ h)
      · rintro (h | h)
        · exact Or.inl h
        · rcases List.mem_cons.1 h with h | h
          · exact Or.inl (h ▸ hn)
          · exact Or.inr h
    · rw [if_neg hn]
      simp only [List.mem_append, List.mem_singleton, List.mem_cons]
      tauto

theorem enqueue_fold_mem_queue (l : List OpNode) :
    ∀ (acc : List OpNode × List OpNode) (x : OpNode),
      x ∈ (l.foldl enqueue acc).1 ↔ x ∈ acc.1 ∨ (x ∈ l ∧ x ∉ acc.2) := by
  induction l with
  | nil => intro acc x; simp
  | cons n l ih =>
    intro acc x
    rw [List.foldl_cons, ih]
    unfold enqueue
    by_cases hn : n ∈ acc.2
    · rw [if_pos hn]
      simp only [List.mem_cons]
      constructor
      · rintro (h | ⟨h1, h2⟩)
        · exact Or.inl h
        · exact Or.inr ⟨Or.inr h1, h2⟩
      · rintro (h | ⟨h1 | h1, h2⟩)
        · exact Or.inl h
        · exact absurd (h1 ▸ hn) h2
        · exact Or.inr ⟨h1, h2⟩
    · rw [if_neg hn]
      simp only [List.mem_append, List.mem_singleton, List.mem_cons]
      by_cases hx : x = n
      · subst hx; tauto
      · tauto

theorem unqueued_append_le (U queued : List OpNode) (n : OpNode) :
    unqueued U (queued ++ [n]) ≤ unqueued U queued := by
  unfold unqueued
  induction U with
  | nil => simp
  | cons x U ih =>
    simp only [List.filter_cons]
    by_cases h1 : x ∈ queued
    · have h2 : x ∈ queued ++ [n] := List.mem_append_left _ h1
      simp [h1, h2]
      simpa using ih
    · by_cases h2 : x ∈ queued ++ [n]
      · simp only [h1, h2, not_true_eq_false, decide_False, not_false_eq_true, decide_True,
          if_true, List.length_cons]
        simp only [Bool.false_eq_true, if_false]
        omega
      · simp only [h1, h2, not_false_eq_true, decide_True, if_true, List.length_cons]
        omega

theorem unqueued_append_lt (U queued : List OpNode) (n : OpNode) (hU : n ∈ U)
    (hn : n ∉ queued) : unqueued U (queued ++ [n]) + 1 ≤ unqueued U queued := by
  induction U with
  | nil => cases hU
  | cons x U ih =>
    have hle := unqueued_append_le U queued n
    unfold unqueued at ih hle ⊢
    simp only [List.filter_cons]
    by_cases hx : x = n
    · subst hx
      have h2 : x ∈ queued ++ [x] := by simp
      simp only [hn, h2, not_true_eq_false, decide_False, not_false_eq_true, decide_True,
        if_true, List.length_cons, Bool.false_eq_true, if_false]
      omega
    · have hU2 : n ∈ U := by
        rcases List.mem_cons.1 hU with h | h
        · exact absurd h.symm hx
        · exact h
      have := ih hU2
      by_cases h1 : x ∈ queued
      · have h2 : x ∈ queued ++ [n] := List.mem_append_left _ h1
        simp only [h1, h2, not_true_eq_false, decide_False, Bool.false_eq_true, if_false]
        exact this
      · have h2 : x ∉ queued ++ [n] := by
          simp only [List.mem_append, List.mem_singleton]
          tauto
        simp only [h1, h2, not_false_eq_true, decide_True, if_true, List.length_cons]
        omega

theorem enqueue_fold_measure (U : List OpNode) (l : List OpNode) (hl : ∀ n ∈ l, n ∈ U) :
    ∀ (acc : List OpNode × List OpNode),
      unqueued U (l.foldl enqueue acc).2 + (l.foldl enqueue acc).1.length ≤
        unqueued U acc.2 + acc.1.length := by
  induction l with
  | nil => intro acc; simp
  | cons n l ih =>
    intro acc
    rw [List.foldl_cons]
    refine Nat.le_trans (ih (fun m hm => hl m (List.mem_cons_of_mem _ hm)) _) ?_
    unfold enqueue
    by_cases hn : n ∈ acc.2
    · rw [if_pos hn]
    · rw [if_neg hn]
      have := unqueued_append_lt U acc.2 n (hl n (List.mem_cons_self _ _)) hn
      simp only [List.length_append, List.length_singleton]
      omega

/-- A property of the queue, the queued set and the state that every pop preserves
holds when the traversal ends. -/
theorem bfsLoop_inv {σ : Type} (next : σ → OpNode → List OpNode) (H : OpNode → σ → σ)
    (P : List OpNode → List OpNode → σ → Prop)
    (hstep : ∀ cur rest queued s, P (cur :: rest) queued s →
      P ((next (H cur s) cur).foldl enqueue (rest, queued)).1
        ((next (H cur s) cur).foldl enqueue (rest, queued)).2 (H cur s)) :
    ∀ fuel queue queued s r, bfsLoop next H fuel queue queued s = .ok r → P queue queued s →
      ∃ queued1, P [] queued1 r := by
  intro fuel
  induction fuel with
  | zero =>
    intro queue queued s r h hP
    cases queue with
    | nil =>
      simp only [bfsLoop] at h
      injection h with h
      subst h
      exact ⟨queued, hP⟩
    | cons cur rest => simp [bfsLoop] at h
  | succ fuel ih =>
    intro queue queued s r h hP
    cases queue with
    | nil =>
      simp only [bfsLoop] at h
      injection h with h
      subst h
      exact ⟨queued, hP⟩
    | cons cur rest =>
      simp only [bfsLoop] at h
      exact ih _ _ _ r h (hstep cur rest queued s hP)

/-- The traversal ends within the budget when every neighbour lies in `U`. -/
theorem bfsLoop_ok {σ : Type} (next : σ → OpNode → List OpNode) (H : OpNode → σ → σ)
    (U : List OpNode) (hU : ∀ s v n, n ∈ next s v → n ∈ U) :
    ∀ fuel queue queued s, unqueued U queued + queue.length ≤ fuel →
      ∃ r, bfsLoop next H fuel queue queued s = .ok r := by
  intro fuel
  induction fuel with
  | zero =>
    intro queue queued s h
    cases queue with
    | nil => exact ⟨s, rfl⟩
    | cons cur rest => simp at h
  | succ fuel ih =>
    intro queue queued s h
    cases queue with
    | nil => exact ⟨s, rfl⟩
    | cons cur rest =>
      simp only [bfsLoop]
      apply ih
      have := enqueue_fold_measure U (next (H cur s) cur) (fun n hn => hU _ _ n hn) (rest, queued)
      simp only [List.length_cons] at h
      simp only at this
      omega

theorem unqueued_le (U queued : List OpNode) : unqueued U queued ≤ U.length :=
  List.length_filter_le _ _

theorem enqueue_fold_length (l : List OpNode) :
    ∀ (acc : List OpNode × List OpNode),
      (l.foldl enqueue acc).1.length ≤ acc.1.length + l.length := by
  induction l with
  | nil => intro acc; simp
  | cons n l ih =>
    intro acc
    rw [List.foldl_cons]
    refine Nat.le_trans (ih _) ?_
    unfold enqueue
    by_cases hn : n ∈ acc.2
    · rw [if_pos hn]
      simp only [List.length_cons]
      omega
    · rw [if_neg hn]
      simp only [List.length_append, List.length_cons, List.length_nil]
      omega

theorem BfsForEachNode_ok {σ : Type} (g : OpGraph) (starts : List OpNode)
    (next : σ → OpNode → List OpNode) (H : OpNode → σ → σ) (s : σ)
    (hU : ∀ s v n, n ∈ next s v → n ∈ g.endpoints) :
    ∃ r, g.BfsForEachNode starts next H s = .ok r := by
  unfold OpGraph.BfsForEachNode
  apply bfsLoop_ok next H g.endpoints hU
  have h1 := unqueued_le g.endpoints (starts.foldl enqueue ([], [])).2
  have h2 := enqueue_fold_length starts ([], [])
  rw [endpoints_length] at h1
  simp only [List.length_nil] at h2
  omega

theorem BfsForEachNode_inv {σ : Type} (g : OpGraph) (starts : List OpNode)
    (next : σ → OpNode → List OpNode) (H : OpNode → σ → σ) (s r : σ)
    (P : List OpNode → List OpNode → σ → Prop)
    (hstep : ∀ cur rest queued s, P (cur :: rest) queued s →
      P ((next (H cur s) cur).foldl enqueue (rest, queued)).1
        ((next (H cur s) cur).foldl enqueue (rest, queued)).2 (H cur s))
    (h : g.BfsForEachNode starts next H s = .ok r)
    (h0 : P (starts.foldl enqueue ([], [])).1 (starts.foldl enqueue ([], [])).2 s) :
    ∃ queued1, P [] queued1 r :=
  bfsLoop_inv next H P hstep _ _ _ s r h h0

/-- A property of the state that the handler preserves holds when the traversal ends. -/
theorem BfsForEachNode_state {σ : Type} (g : OpGraph) (starts : List OpNode)
    (next : σ → OpNode → List OpNode) (H : OpNode → σ → σ) (s r : σ) (P : σ → Prop)
    (hstep : ∀ cur s, P s → P (H cur s))
    (h : g.BfsForEachNode starts next H s = .ok r) (h0 : P s) : P r := by
  obtain ⟨_, hP⟩ := BfsForEachNode_inv g starts next H s r (fun _ _ s => P s)
    (fun cur _ _ s hs => hstep cur s hs) h h0
  exact hP

/-! ## `GetBackBoneOps` -/

theorem mem_hashInsert {α : Type} [DecidableEq α] (s : List α) (a x : α) :
    x ∈ hashInsert s a ↔ x ∈ s ∨ x = a := by
  unfold hashInsert
  by_cases h : a ∈ s
  · rw [if_pos h]
    constructor
    · exact Or.inl
    · rintro (h1 | h1)
      · exact h1
      · exact h1 ▸ h
  · rw [if_neg h]
    simp

theorem enqueue_starts_queued (starts : List OpNode) (x : OpNode) :
    x ∈ (starts.foldl enqueue ([], [])).2 ↔ x ∈ starts := by
  rw [enqueue_fold_mem_queued]; simp

theorem enqueue_starts_queue (starts : List OpNode) (x : OpNode) :
    x ∈ (starts.foldl enqueue ([], [])).1 ↔ x ∈ starts := by
  rw [enqueue_fold_mem_queue]; simp

/-- The traversal of `GetBackBoneOps` ends, and it collects exactly the nodes reached
from the starts along edges into `trainable_fw_ops`. -/
theorem GetBackBoneOps_spec (ord : List OpNode → List OpNode) (g : OpGraph) (T : List OpNode)
    (hord : ∀ l, (ord l).Perm l) :
    ∃ backbone, GetBackBoneOps ord g T = .ok backbone ∧
      ∀ v, v ∈ backbone ↔
        ReachThrough g T (fun v => v ∈ T ∧ GetInputSize g T v > 1) v := by
  have hnext : ∀ u v, v ∈ (g.outNodes u).filter (fun out_node => decide (out_node ∈ T)) ↔
      ((u, v) ∈ g.edges ∧ v ∈ T) := by
    intro u v
    simp [List.mem_filter, mem_outNodes]
  have hstart : ∀ x, x ∈ (ord T).filter (fun op_node => decide (GetInputSize g T op_node > 1)) ↔
      (x ∈ T ∧ GetInputSize g T x > 1) := by
    intro x
    simp [List.mem_filter, (hord T).mem_iff]
  obtain ⟨r, hr⟩ := BfsForEachNode_ok g
    ((ord T).filter (fun op_node => decide (GetInputSize g T op_node > 1)))
    (fun (_ : List OpNode) (node : OpNode) =>
      (g.outNodes node).filter (fun out_node => decide (out_node ∈ T)))
    (fun node s => hashInsert s node) []
    (by
      intro _ u v hv
      exact (mem_endpoints_of_edge g u v ((hnext u v).1 hv).1).2)
  refine ⟨r, hr, ?_⟩
  obtain ⟨queued1, h1, h2, h3, h4⟩ := BfsForEachNode_inv g _ _ _ [] r
    (fun queue queued s =>
      (∀ x, x ∈ queued ↔ x ∈ s ∨ x ∈ queue) ∧
      (∀ u, u ∈ s → ∀ v, (u, v) ∈ g.edges → v ∈ T → v ∈ queued) ∧
      (∀ x, x ∈ queued → ReachThrough g T (fun v => v ∈ T ∧ GetInputSize g T v > 1) x) ∧
      (∀ x, (x ∈ T ∧ GetInputSize g T x > 1) → x ∈ queued))
    (by
      rintro cur rest queued s ⟨i1, i2, i3, i4⟩
      have hcur : cur ∈ queued := (i1 cur).2 (Or.inr (List.mem_cons_self _ _))
      refine ⟨?_, ?_, ?_, ?_⟩
      · intro x
        rw [enqueue_fold_mem_queued, enqueue_fold_mem_queue, mem_hashInsert]
        have := i1 x
        simp only [List.mem_cons] at this
        by_cases hx : x ∈ queued <;> tauto
      · intro u hu v he hv
        rw [enqueue_fold_mem_queued]
        rcases (mem_hashInsert _ _ _).1 hu with hu | hu
        · exact Or.inl (i2 u hu v he hv)
        · subst hu
          exact Or.inr ((hnext u v).2 ⟨he, hv⟩)
      · intro x hx
        rcases (enqueue_fold_mem_queued _ _ _).1 hx with hx | hx
        · exact i3 x hx
        · obtain ⟨he, hv⟩ := (hnext cur x).1 hx
          exact ReachThrough.step cur x (i3 cur hcur) he hv
      · intro x hx
        rw [enqueue_fold_mem_queued]
        exact Or.inl (i4 x hx))
    hr
    (by
      refine ⟨?_, ?_, ?_, ?_⟩
      · intro x
        rw [enqueue_starts_queued, enqueue_starts_queue]
        simp
      · intro u hu; cases hu
      · intro x hx
        rw [enqueue_starts_queued] at hx
        exact ReachThrough.start x ((hstart x).1 hx)
      · intro x hx
        rw [enqueue_starts_queued]
        exact (hstart x).2 hx)
  have hq : ∀ x, x ∈ queued1 ↔ x ∈ r := by
    intro x
    rw [h1 x]
    simp
  intro v
  constructor
  · intro hv
    exact h3 v ((hq v).2 hv)
  · intro hv
    induction hv with
    | start v hs => exact (hq v).1 (h4 v hs)
    | step u v _ he hT ih => exact (hq v).1 (h2 u ih v he hT)

theorem ReachThrough_mem (g : OpGraph) (T : List OpNode) (seed : OpNode → Prop)
    (hseed : ∀ v, seed v → v ∈ T) (v : OpNode) (h : ReachThrough g T seed v) : v ∈ T := by
  cases h with
  | start _ hs => exact hseed v hs
  | step u _ _ _ hT => exact hT

/-- C5. `GetBackBoneOps` returns a set of nodes of `trainable_fw_ops` that contains
every successor in `trainable_fw_ops` of each of its nodes. -/
theorem GetBackBoneOps_forward_closed (ord : List OpNode → List OpNode) (g : OpGraph)
    (trainable_fw_ops : List OpNode) (hord : ∀ l, (ord l).Perm l) :
    ∃ backbone_op_nodes, GetBackBoneOps ord g trainable_fw_ops = .ok backbone_op_nodes ∧
      (∀ u v, u ∈ backbone_op_nodes → (u, v) ∈ g.edges → v ∈ trainable_fw_ops →
        v ∈ backbone_op_nodes) ∧
      (∀ u, u ∈ backbone_op_nodes → u ∈ trainable_fw_ops) := by
  obtain ⟨backbone, hok, hspec⟩ := GetBackBoneOps_spec ord g trainable_fw_ops hord
  refine ⟨backbone, hok, ?_, ?_⟩
  · intro u v hu he hv
    exact (hspec v).2 (ReachThrough.step u v ((hspec u).1 hu) he hv)
  · intro u hu
    exact ReachThrough_mem g _ _ (fun _ h => h.1) u ((hspec u).1 hu)

theorem GetBackBoneOps_forward_closed_witness :
    (∀ l : List OpNode, (id l).Perm l) ∧
    ∃ backbone_op_nodes,
      GetBackBoneOps id diamond [0, 1, 2, 3, 4]
        = .ok backbone_op_nodes ∧
      (∀ u v, u ∈ backbone_op_nodes →
        (u, v) ∈ diamond.edges →
        v ∈ [0, 1, 2, 3, 4] → v ∈ backbone_op_nodes) ∧
      (∀ u, u ∈ backbone_op_nodes → u ∈ [0, 1, 2, 3, 4]) :=
  ⟨fun l => List.Perm.refl l,
    GetBackBoneOps_forward_closed id diamond [0, 1, 2, 3, 4] (fun l => List.Perm.refl l)⟩

theorem two_mem_of_length (l : List OpNode) (h : l.Nodup) :
    1 < l.length ↔ ∃ a b, a ≠ b ∧ a ∈ l ∧ b ∈ l := by
  constructor
  · intro hlen
    match l, h, hlen with
    | a :: b :: rest, h, _ =>
      refine ⟨a, b, ?_, by simp, by simp⟩
      intro hab
      subst hab
      simp at h
  · rintro ⟨a, b, hab, ha, hb⟩
    match l, ha, hb with
    | [x], ha, hb =>
      simp only [List.mem_singleton] at ha hb
      exact absurd (ha.trans hb.symm) hab
    | _ :: _ :: _, _, _ => simp

theorem inNodes_nodup (g : OpGraph) (h : g.edges.Nodup) (v : OpNode) : (g.inNodes v).Nodup := by
  unfold OpGraph.inNodes
  apply List.Nodup.map_on
  · rintro ⟨a1, b1⟩ h1 ⟨a2, b2⟩ h2 h12
    simp only [List.mem_filter, decide_eq_true_eq] at h1 h2
    simp only at h12
    rw [h12, h1.2, h2.2]
  · exact h.filter _

theorem GetInputSize_gt_one (g : OpGraph) (T : List OpNode) (h : g.edges.Nodup) (v : OpNode) :
    GetInputSize g T v > 1 ↔ MultiInput g T v := by
  unfold GetInputSize MultiInput
  rw [gt_iff_lt, two_mem_of_length _ ((inNodes_nodup g h v).filter _)]
  simp only [List.mem_filter, mem_inNodes, decide_eq_true_eq]
  constructor
  · rintro ⟨a, b, hab, ⟨ha1, ha2⟩, hb1, hb2⟩
    exact ⟨a, b, hab, ha2, hb2, ha1, hb1⟩
  · rintro ⟨a, b, hab, ha2, hb2, ha1, hb1⟩
    exact ⟨a, b, hab, ⟨ha1, ha2⟩, hb1, hb2⟩

theorem ReachThrough_congr (g : OpGraph) (T : List OpNode) (s1 s2 : OpNode → Prop)
    (h : ∀ v, s1 v → s2 v) (v : OpNode) (hv : ReachThrough g T s1 v) : ReachThrough g T s2 v := by
  induction hv with
  | start v hs => exact ReachThrough.start v (h v hs)
  | step u v _ he hT ih => exact ReachThrough.step u v ih he hT

/-- C6. In a graph with at most one edge per ordered pair of nodes, the set returned by
`GetBackBoneOps` contains every node of `trainable_fw_ops` with more than one
predecessor in `trainable_fw_ops`; each of its nodes is reached from such a seed along
edges into `trainable_fw_ops`; it is contained in every set that contains the seeds and
is closed under successors in `trainable_fw_ops`, and is itself closed; a node of
`trainable_fw_ops` belongs to it exactly when it has more than one predecessor in
`trainable_fw_ops` or has a predecessor in the set. -/
theorem GetBackBoneOps_least_closed (ord : List OpNode → List OpNode) (g : OpGraph)
    (trainable_fw_ops : List OpNode) (hord : ∀ l, (ord l).Perm l) (hedges : g.edges.Nodup) :
    ∃ backbone_op_nodes, GetBackBoneOps ord g trainable_fw_ops = .ok backbone_op_nodes ∧
      (∀ v, v ∈ trainable_fw_ops → MultiInput g trainable_fw_ops v → v ∈ backbone_op_nodes) ∧
      (∀ v, v ∈ backbone_op_nodes →
        ReachThrough g trainable_fw_ops
          (fun s => s ∈ trainable_fw_ops ∧ MultiInput g trainable_fw_ops s) v) ∧
      (∀ S : OpNode → Prop,
        (∀ v, v ∈ trainable_fw_ops → MultiInput g trainable_fw_ops v → S v) →
        (∀ u v, S u → (u, v) ∈ g.edges → v ∈ trainable_fw_ops → S v) →
        ∀ v, v ∈ backbone_op_nodes → S v) ∧
      (∀ u v, u ∈ backbone_op_nodes → (u, v) ∈ g.edges → v ∈ trainable_fw_ops →
        v ∈ backbone_op_nodes) ∧
      (∀ v, v ∈ trainable_fw_ops →
        (v ∈ backbone_op_nodes ↔
          (MultiInput g trainable_fw_ops v ∨ ∃ u, u ∈ backbone_op_nodes ∧ (u, v) ∈ g.edges))) := by
  obtain ⟨backbone, hok, hspec⟩ := GetBackBoneOps_spec ord g trainable_fw_ops hord
  have hseed : ∀ v, v ∈ trainable_fw_ops → MultiInput g trainable_fw_ops v → v ∈ backbone := by
    intro v hv hm
    exact (hspec v).2 (ReachThrough.start v ⟨hv, (GetInputSize_gt_one g _ hedges v).2 hm⟩)
  have hclosed : ∀ u v, u ∈ backbone → (u, v) ∈ g.edges → v ∈ trainable_fw_ops →
      v ∈ backbone := by
    intro u v hu he hv
    exact (hspec v).2 (ReachThrough.step u v ((hspec u).1 hu) he hv)
  refine ⟨backbone, hok, hseed, ?_, ?_, hclosed, ?_⟩
  · intro v hv
    exact ReachThrough_congr g _ _ _
      (fun s hs => ⟨hs.1, (GetInputSize_gt_one g _ hedges s).1 hs.2⟩) v ((hspec v).1 hv)
  · intro S hS1 hS2 v hv
    have := (hspec v).1 hv
    induction this with
    | start v hs => exact hS1 v hs.1 ((GetInputSize_gt_one g _ hedges v).1 hs.2)
    | step u v hu he hT ih => exact hS2 u v (ih ((hspec u).2 hu)) he hT
  · intro v hvT
    constructor
    · intro hv
      have := (hspec v).1 hv
      cases this with
      | start _ hs => exact Or.inl ((GetInputSize_gt_one g _ hedges v).1 hs.2)
      | step u _ hu he _ => exact Or.inr ⟨u, (hspec u).2 hu, he⟩
    · rintro (hm | ⟨u, hu, he⟩)
      · exact hseed v hvT hm
      · exact hclosed u v hu he hvT

theorem GetBackBoneOps_least_closed_witness :
    (∀ l : List OpNode, (id l).Perm l) ∧
    diamond.edges.Nodup ∧
    ∃ backbone_op_nodes,
      GetBackBoneOps id diamond [0, 1, 2, 3, 4]
        = .ok backbone_op_nodes ∧
      (∀ v, v ∈ [0, 1, 2, 3, 4] →
        MultiInput diamond [0, 1, 2, 3, 4] v →
        v ∈ backbone_op_nodes) ∧
      (∀ v, v ∈ backbone_op_nodes →
        ReachThrough diamond [0, 1, 2, 3, 4]
          (fun s => s ∈ [0, 1, 2, 3, 4] ∧
            MultiInput diamond [0, 1, 2, 3, 4] s) v) ∧
      (∀ S : OpNode → Prop,
        (∀ v, v ∈ [0, 1, 2, 3, 4] →
          MultiInput diamond [0, 1, 2, 3, 4] v →
          S v) →
        (∀ u v, S u →
          (u, v) ∈ diamond.edges →
          v ∈ [0, 1, 2, 3, 4] → S v) →
        ∀ v, v ∈ backbone_op_nodes → S v) ∧
      (∀ u v, u ∈ backbone_op_nodes →
        (u, v) ∈ diamond.edges →
        v ∈ [0, 1, 2, 3, 4] → v ∈ backbone_op_nodes) ∧
      (∀ v, v ∈ [0, 1, 2, 3, 4] →
        (v ∈ backbone_op_nodes ↔
          (MultiInput diamond [0, 1, 2, 3, 4] v ∨
            ∃ u, u ∈ backbone_op_nodes ∧
              (u, v) ∈ diamond.edges))) :=
  ⟨fun l => List.Perm.refl l, by decide,
    GetBackBoneOps_least_closed id diamond [0, 1, 2, 3, 4] (fun l => List.Perm.refl l) (by decide)⟩

/-! ## Scope merging -/

theorem hmFind_of_mem {κ ν : Type} [DecidableEq κ] (m : List (κ × ν)) (k : κ) (v : ν)
    (hmem : (k, v) ∈ m) (hnd : (m.map Prod.fst).Nodup) : hmFind m k = some v := by
  induction m with
  | nil => cases hmem
  | cons p m ih =>
    obtain ⟨k0, v0⟩ := p
    simp only [List.map_cons, List.nodup_cons] at hnd
    rcases List.mem_cons.1 hmem with h | h
    · injection h with h1 h2
      subst h1; subst h2
      simp [hmFind]
    · have hne : k0 ≠ k := by
        intro hk
        subst hk
        exact hnd.1 (List.mem_map.2 ⟨(k0, v), h, rfl⟩)
      simp only [hmFind, if_neg hne]
      exact ih h hnd.2

theorem hmFind_none_iff {κ ν : Type} [DecidableEq κ] (m : List (κ × ν)) (k : κ) :
    hmFind m k = none ↔ k ∉ m.map Prod.fst := by
  induction m with
  | nil => simp [hmFind]
  | cons p m ih =>
    obtain ⟨k0, v0⟩ := p
    by_cases h : k0 = k
    · subst h; simp [hmFind]
    · have h2 : ¬ k = k0 := fun e => h e.symm
      simp [hmFind, h, h2, ih]

theorem hmFind_append {κ ν : Type} [DecidableEq κ] (m1 m2 : List (κ × ν)) (k : κ) :
    hmFind (m1 ++ m2) k = match hmFind m1 k with
      | some v => some v
      | none => hmFind m2 k := by
  induction m1 with
  | nil => simp [hmFind]
  | cons p m ih =>
    obtain ⟨k0, v0⟩ := p
    by_cases h : k0 = k
    · simp [hmFind, h]
    · simp [hmFind, h, ih]

theorem le_foldl_max (l : List Int) : ∀ (a x : Int), x = a ∨ x ∈ l → x ≤ l.foldl max a := by
  induction l with
  | nil =>
    intro a x h
    rcases h with h | h
    · rw [h]; exact le_refl _
    · cases h
  | cons y l ih =>
    intro a x h
    rw [List.foldl_cons]
    rcases h with h | h
    · exact le_trans (h ▸ le_max_left a y) (ih (max a y) (max a y) (Or.inl rfl))
    · rcases List.mem_cons.1 h with h | h
      · exact le_trans (h ▸ le_max_right a y) (ih (max a y) (max a y) (Or.inl rfl))
      · exact ih _ x (Or.inr h)

theorem freshSymbolId_not_mem (symbols : List (Int × ScopeProto)) :
    freshSymbolId symbols ∉ symbols.map Prod.fst := by
  intro h
  have := le_foldl_max (symbols.map Prod.fst) 0 _ (Or.inr h)
  unfold freshSymbolId at this
  omega

theorem FindOrCreateSymbolId_get (storage : SymbolStorage) (content : ScopeProto) :
    (storage.FindOrCreateSymbolId content).2.MaybeGet (storage.FindOrCreateSymbolId content).1
      = .ok content := by
  unfold SymbolStorage.FindOrCreateSymbolId
  cases hfind : storage.symbols.find? (fun p => decide (p.2 = content)) with
  | some p =>
    have hp := List.find?_some hfind
    have hmem := List.mem_of_find?_eq_some hfind
    simp only [decide_eq_true_eq] at hp
    obtain ⟨k, v⟩ := p
    simp only at hp
    subst hp
    simp only [SymbolStorage.MaybeGet, hmFind_of_mem storage.symbols k v hmem storage.nodup]
  | none =>
    have hnone : hmFind storage.symbols (freshSymbolId storage.symbols) = none := by
      rw [hmFind_none_iff]
      intro h1
      exact freshSymbolId_not_mem storage.symbols h1
    simp only [SymbolStorage.MaybeGet, hmFind_append, hnone, hmFind, if_true]

theorem MaybeGet_ok (storage : SymbolStorage) (symbol_id : Int) (scope : ScopeProto) :
    storage.MaybeGet symbol_id = .ok scope ↔ hmFind storage.symbols symbol_id = some scope := by
  unfold SymbolStorage.MaybeGet
  cases hmFind storage.symbols symbol_id with
  | none => simp
  | some x => simp

theorem MaybeGet_error (storage : SymbolStorage) (symbol_id : Int) (e : PassError) :
    storage.MaybeGet symbol_id = .error e ↔
      (hmFind storage.symbols symbol_id = none ∧ e = .lookupError symbol_id) := by
  unfold SymbolStorage.MaybeGet
  cases hmFind storage.symbols symbol_id with
  | none => simp [eq_comm]
  | some x => simp

theorem MergeScope_ok (w : World) (old_scope_id stage_scope_id : Int)
    (old_scope stage_scope : ScopeProto) (stage_placement_id stage_weight_buffer_size : Int)
    (hold : w.storage.MaybeGet old_scope_id = .ok old_scope)
    (hstage : w.storage.MaybeGet stage_scope_id = .ok stage_scope)
    (hp : stage_scope.Int64 "stage_placement_id" = some stage_placement_id)
    (hb : stage_scope.Int64 "stage_weight_buffer_size" = some stage_weight_buffer_size) :
    MergeScope w old_scope_id stage_scope_id =
      (.ok (w.storage.FindOrCreateSymbolId (mergedScopeProto old_scope_id old_scope stage_scope
          stage_placement_id stage_weight_buffer_size)).1,
        { storage := (w.storage.FindOrCreateSymbolId (mergedScopeProto old_scope_id old_scope
            stage_scope stage_placement_id stage_weight_buffer_size)).2
          py_storage := w.py_storage ++
            [((w.storage.FindOrCreateSymbolId (mergedScopeProto old_scope_id old_scope
                stage_scope stage_placement_id stage_weight_buffer_size)).1,
              mergedScopeProto old_scope_id old_scope stage_scope
                stage_placement_id stage_weight_buffer_size)] }) := by
  unfold MergeScope
  simp only [hold, hstage, hp, hb]

/-- C8. When the storage has both scopes and the stage scope carries the int64 values
`stage_placement_id` and `stage_weight_buffer_size`, `MergeScope` returns the
find-or-create id of a scope that is registered under that id afterwards, whose parent
is `old_scope_id`, whose device and host parallel-descriptor ids are those of the stage
scope, whose attribute map is the old scope's with exactly the two stage keys
overwritten by the stage scope's values, and whose other fields are the old scope's;
the scope is passed to the foreign callback as well. -/
theorem MergeScope_registers (w : World) (old_scope_id stage_scope_id : Int)
    (old_scope stage_scope : ScopeProto) (stage_placement_id stage_weight_buffer_size : Int)
    (hold : w.storage.MaybeGet old_scope_id = .ok old_scope)
    (hstage : w.storage.MaybeGet stage_scope_id = .ok stage_scope)
    (hp : stage_scope.Int64 "stage_placement_id" = some stage_placement_id)
    (hb : stage_scope.Int64 "stage_weight_buffer_size" = some stage_weight_buffer_size) :
    ∃ merged_id merged,
      (MergeScope w old_scope_id stage_scope_id).1 = .ok merged_id ∧
      (MergeScope w old_scope_id stage_scope_id).2.storage.MaybeGet merged_id = .ok merged ∧
      merged.parent_scope_symbol_id = some old_scope_id ∧
      merged.device_parallel_desc_symbol_id = stage_scope.device_parallel_desc_symbol_id ∧
      merged.host_parallel_desc_symbol_id = stage_scope.host_parallel_desc_symbol_id ∧
      (∀ attr_name, hmFind merged.attr_name2attr_value attr_name =
        if attr_name = "stage_placement_id" then some (.at_int64 stage_placement_id)
        else if attr_name = "stage_weight_buffer_size" then
          some (.at_int64 stage_weight_buffer_size)
        else hmFind old_scope.attr_name2attr_value attr_name) ∧
      merged.job_desc_symbol_id = old_scope.job_desc_symbol_id ∧
      merged.remaining_fields = old_scope.remaining_fields ∧
      (merged_id, (MergeScope w old_scope_id stage_scope_id).2.storage) =
        w.storage.FindOrCreateSymbolId merged ∧
      (MergeScope w old_scope_id stage_scope_id).2.py_storage =
        w.py_storage ++ [(merged_id, merged)] := by
  rw [MergeScope_ok w old_scope_id stage_scope_id old_scope stage_scope stage_placement_id
    stage_weight_buffer_size hold hstage hp hb]
  refine ⟨_, mergedScopeProto old_scope_id old_scope stage_scope stage_placement_id
    stage_weight_buffer_size, rfl, FindOrCreateSymbolId_get _ _, rfl, rfl, rfl, ?_, rfl, rfl,
    rfl, rfl⟩
  intro attr_name
  simp only [mergedScopeProto, hmFind_hmSet]
  by_cases h1 : attr_name = "stage_placement_id"
  · subst h1
    simp
  · by_cases h2 : attr_name = "stage_weight_buffer_size"
    · subst h2
      simp
    · have h1' : ¬ "stage_placement_id" = attr_name := fun e => h1 e.symm
      have h2' : ¬ "stage_weight_buffer_size" = attr_name := fun e => h2 e.symm
      simp [h1, h2, h1', h2']

theorem MergeScope_registers_witness :
    (({ storage := storage73, py_storage := [] } : World).storage.MaybeGet 7
      = .ok (plainScope 10 11)) ∧
    (({ storage := storage73, py_storage := [] } : World).storage.MaybeGet 3
      = .ok (stageScope 20 21 0 4)) ∧
    ((stageScope 20 21 0 4).Int64 "stage_placement_id" = some 0) ∧
    ((stageScope 20 21 0 4).Int64 "stage_weight_buffer_size" = some 4) ∧
    ∃ merged_id merged,
      (MergeScope { storage := storage73, py_storage := [] } 7 3).1 = .ok merged_id ∧
      (MergeScope { storage := storage73, py_storage := [] } 7 3).2.storage.MaybeGet merged_id
        = .ok merged ∧
      merged.parent_scope_symbol_id = some 7 ∧
      merged.device_parallel_desc_symbol_id
        = (stageScope 20 21 0 4).device_parallel_desc_symbol_id ∧
      merged.host_parallel_desc_symbol_id = (stageScope 20 21 0 4).host_parallel_desc_symbol_id ∧
      (∀ attr_name, hmFind merged.attr_name2attr_value attr_name =
        if attr_name = "stage_placement_id" then some (.at_int64 0)
        else if attr_name = "stage_weight_buffer_size" then some (.at_int64 4)
        else hmFind (plainScope 10 11).attr_name2attr_value attr_name) ∧
      merged.job_desc_symbol_id = (plainScope 10 11).job_desc_symbol_id ∧
      merged.remaining_fields = (plainScope 10 11).remaining_fields ∧
      (merged_id, (MergeScope { storage := storage73, py_storage := [] } 7 3).2.storage) =
        ({ storage := storage73, py_storage := [] } : World).storage.FindOrCreateSymbolId merged ∧
      (MergeScope { storage := storage73, py_storage := [] } 7 3).2.py_storage =
        ({ storage := storage73, py_storage := [] } : World).py_storage ++ [(merged_id, merged)] :=
  ⟨by decide, by decide, by decide, by decide,
    MergeScope_registers { storage := storage73, py_storage := [] } 7 3 (plainScope 10 11)
      (stageScope 20 21 0 4) 0 4 (by decide) (by decide) (by decide) (by decide)⟩

theorem hmFind_hmEmplace_self {κ ν : Type} [DecidableEq κ] (m : List (κ × ν)) (k : κ) (v : ν)
    (h : hmFind m k = none) : hmFind (hmEmplace m k v) k = some v := by
  unfold hmEmplace
  rw [h]
  simp only [hmFind_append, h, hmFind, if_true]

theorem GetMergedScopeSymbolId_hit (s : MergerState) (old_scope_id stage_scope_id merged : Int)
    (h : hmFind s.old7stage2merged (old_scope_id, stage_scope_id) = some merged) :
    GetMergedScopeSymbolId s old_scope_id stage_scope_id = (.ok merged, s) := by
  unfold GetMergedScopeSymbolId
  rw [h]

/-- An entry of the cache survives every call of the getter. -/
theorem GetMergedScopeSymbolId_keeps (s : MergerState) (pair : Int × Int) (merged : Int)
    (h : hmFind s.old7stage2merged pair = some merged) (old_scope_id stage_scope_id : Int) :
    hmFind (GetMergedScopeSymbolId s old_scope_id stage_scope_id).2.old7stage2merged pair
      = some merged := by
  unfold GetMergedScopeSymbolId
  cases hc : hmFind s.old7stage2merged (old_scope_id, stage_scope_id) with
  | some m => exact h
  | none =>
    simp only
    cases hm : MergeScope s.world old_scope_id stage_scope_id with
    | mk res w =>
      cases res with
      | error e => exact h
      | ok m =>
        simp only
        unfold hmEmplace
        rw [hc]
        simp only [hmFind_append, h]

theorem runSteps_keeps (steps : List PassStep) :
    ∀ (s : MergerState) (pair : Int × Int) (merged : Int),
      hmFind s.old7stage2merged pair = some merged →
      hmFind (runSteps s steps).old7stage2merged pair = some merged := by
  induction steps with
  | nil => intro s pair merged h; exact h
  | cons step rest ih =>
    intro s pair merged h
    cases step with
    | get o t =>
      exact ih _ pair merged (GetMergedScopeSymbolId_keeps s pair merged h o t)
    | other change => exact ih _ pair merged h

theorem GetMergedScopeSymbolId_caches (s : MergerState) (old_scope_id stage_scope_id merged : Int)
    (h : (GetMergedScopeSymbolId s old_scope_id stage_scope_id).1 = .ok merged) :
    hmFind (GetMergedScopeSymbolId s old_scope_id stage_scope_id).2.old7stage2merged
      (old_scope_id, stage_scope_id) = some merged := by
  unfold GetMergedScopeSymbolId at h ⊢
  cases hc : hmFind s.old7stage2merged (old_scope_id, stage_scope_id) with
  | some m =>
    rw [hc] at h
    simp only at h ⊢
    injection h with h
    rw [hc, h]
  | none =>
    rw [hc] at h
    simp only at h ⊢
    cases hm : MergeScope s.world old_scope_id stage_scope_id with
    | mk res w =>
      rw [hm] at h
      cases res with
      | error e => simp at h
      | ok m =>
        simp only at h ⊢
        injection h with h
        subst h
        exact hmFind_hmEmplace_self _ _ _ hc

/-- C9. Once a call of the getter for a pair has succeeded, every later call for the
same pair in the same pass, whatever calls of the getter and changes of the world lie
in between, returns the same merged id and leaves the cache and the world (the
storage, its creation counter, the scopes passed to the foreign callback) as they
were. -/
theorem GetMergedScopeSymbolId_idempotent (s : MergerState) (old_scope_id stage_scope_id : Int)
    (merged : Int) (steps : List PassStep)
    (h : (GetMergedScopeSymbolId s old_scope_id stage_scope_id).1 = .ok merged) :
    GetMergedScopeSymbolId
        (runSteps (GetMergedScopeSymbolId s old_scope_id stage_scope_id).2 steps)
        old_scope_id stage_scope_id
      = (.ok merged, runSteps (GetMergedScopeSymbolId s old_scope_id stage_scope_id).2 steps) :=
  GetMergedScopeSymbolId_hit _ _ _ _
    (runSteps_keeps steps _ _ _ (GetMergedScopeSymbolId_caches s _ _ _ h))

theorem GetMergedScopeSymbolId_idempotent_witness :
    ((GetMergedScopeSymbolId
        { old7stage2merged := [], world := { storage := storage73, py_storage := [] } } 7 3).1
      = .ok 8) ∧
    GetMergedScopeSymbolId
        (runSteps (GetMergedScopeSymbolId
          { old7stage2merged := [], world := { storage := storage73, py_storage := [] } } 7 3).2
          [])
        7 3
      = (.ok 8, runSteps (GetMergedScopeSymbolId
          { old7stage2merged := [], world := { storage := storage73, py_storage := [] } } 7 3).2
          []) :=
  ⟨by decide,
    GetMergedScopeSymbolId_idempotent
      { old7stage2merged := [], world := { storage := storage73, py_storage := [] } } 7 3 8 []
      (by decide)⟩

/-- C10. Every failure of `MergeScope` leaves the world as it was, and a failing call of
the getter leaves the cache as it was. When the stage scope, if registered, carries both
int64 stage attributes, `MergeScope` fails exactly when one of the two ids is not
registered, and the failure is the lookup error of an unregistered id. -/
theorem MergeScope_fails_iff (w : World) (old_scope_id stage_scope_id : Int) :
    (∀ e, (MergeScope w old_scope_id stage_scope_id).1 = .error e →
      (MergeScope w old_scope_id stage_scope_id).2 = w ∧
      ∀ cache, hmFind cache (old_scope_id, stage_scope_id) = none →
        GetMergedScopeSymbolId { old7stage2merged := cache, world := w }
            old_scope_id stage_scope_id
          = (.error e, { old7stage2merged := cache, world := w })) ∧
    ((∀ stage_scope, w.storage.MaybeGet stage_scope_id = .ok stage_scope →
        (stage_scope.Int64 "stage_placement_id").isSome ∧
        (stage_scope.Int64 "stage_weight_buffer_size").isSome) →
      (((∃ e, (MergeScope w old_scope_id stage_scope_id).1 = .error e) ↔
          (hmFind w.storage.symbols old_scope_id = none ∨
            hmFind w.storage.symbols stage_scope_id = none)) ∧
        ∀ e, (MergeScope w old_scope_id stage_scope_id).1 = .error e →
          (e = .lookupError old_scope_id ∧ hmFind w.storage.symbols old_scope_id = none) ∨
          (e = .lookupError stage_scope_id ∧ hmFind w.storage.symbols stage_scope_id = none))) := by
  have hworld : ∀ e, (MergeScope w old_scope_id stage_scope_id).1 = .error e →
      (MergeScope w old_scope_id stage_scope_id).2 = w := by
    intro e
    unfold MergeScope
    cases hold : w.storage.MaybeGet old_scope_id with
    | error e1 => intro _; rfl
    | ok old_scope =>
      cases hstage : w.storage.MaybeGet stage_scope_id with
      | error e1 => intro _; rfl
      | ok stage_scope =>
        cases hp : stage_scope.Int64 "stage_placement_id" with
        | none => simp only [hp]; intro _; trivial
        | some p =>
          cases hb : stage_scope.Int64 "stage_weight_buffer_size" with
          | none => simp only [hp, hb]; intro _; trivial
          | some b => simp only [hp, hb]; intro h; simp at h
  refine ⟨?_, ?_⟩
  · intro e he
    refine ⟨hworld e he, ?_⟩
    intro cache hc
    unfold GetMergedScopeSymbolId
    simp only [hc]
    have h2 := hworld e he
    cases hm : MergeScope w old_scope_id stage_scope_id with
    | mk res w1 =>
      rw [hm] at he h2
      simp only at he h2
      subst he; subst h2
      rfl
  · intro hattr
    have key : ∀ e, (MergeScope w old_scope_id stage_scope_id).1 = .error e →
        (e = .lookupError old_scope_id ∧ hmFind w.storage.symbols old_scope_id = none) ∨
        (e = .lookupError stage_scope_id ∧ hmFind w.storage.symbols stage_scope_id = none) := by
      intro e
      unfold MergeScope
      cases hold : w.storage.MaybeGet old_scope_id with
      | error e1 =>
        intro h
        simp only at h
        injection h with h
        subst h
        have := (MaybeGet_error _ _ _).1 hold
        exact Or.inl ⟨this.2, this.1⟩
      | ok old_scope =>
        cases hstage : w.storage.MaybeGet stage_scope_id with
        | error e1 =>
          intro h
          simp only at h
          injection h with h
          subst h
          have := (MaybeGet_error _ _ _).1 hstage
          exact Or.inr ⟨this.2, this.1⟩
        | ok stage_scope =>
          obtain ⟨h1, h2⟩ := hattr stage_scope hstage
          obtain ⟨p, hp⟩ := Option.isSome_iff_exists.1 h1
          obtain ⟨b, hb⟩ := Option.isSome_iff_exists.1 h2
          simp only [hp, hb]
          intro h
          simp at h
    refine ⟨⟨?_, ?_⟩, key⟩
    · rintro ⟨e, he⟩
      rcases key e he with h | h
      · exact Or.inl h.2
      · exact Or.inr h.2
    · intro h
      unfold MergeScope
      cases hold : w.storage.MaybeGet old_scope_id with
      | error e1 => exact ⟨e1, rfl⟩
      | ok old_scope =>
        cases hstage : w.storage.MaybeGet stage_scope_id with
        | error e1 => exact ⟨e1, rfl⟩
        | ok stage_scope =>
          exfalso
          rw [MaybeGet_ok] at hold hstage
          rcases h with h | h
          · rw [h] at hold; cases hold
          · rw [h] at hstage; cases hstage

theorem MergeScope_fails_iff_witness :
    ((MergeScope { storage := storage73, py_storage := [] } 9 3).1 = .error (.lookupError 9)) ∧
    (∀ stage_scope,
      ({ storage := storage73, py_storage := [] } : World).storage.MaybeGet 3 = .ok stage_scope →
        (stage_scope.Int64 "stage_placement_id").isSome ∧
        (stage_scope.Int64 "stage_weight_buffer_size").isSome) ∧
    ((MergeScope { storage := storage73, py_storage := [] } 9 3).2
        = { storage := storage73, py_storage := [] } ∧
      ∀ cache, hmFind cache ((9 : Int), (3 : Int)) = none →
        GetMergedScopeSymbolId
            { old7stage2merged := cache, world := { storage := storage73, py_storage := [] } } 9 3
          = (.error (.lookupError 9),
              { old7stage2merged := cache
                world := { storage := storage73, py_storage := [] } })) ∧
    (((∃ e, (MergeScope { storage := storage73, py_storage := [] } 9 3).1 = .error e) ↔
        (hmFind ({ storage := storage73, py_storage := [] } : World).storage.symbols 9 = none ∨
          hmFind ({ storage := storage73, py_storage := [] } : World).storage.symbols 3 = none)) ∧
      ∀ e, (MergeScope { storage := storage73, py_storage := [] } 9 3).1 = .error e →
        (e = .lookupError 9 ∧
          hmFind ({ storage := storage73, py_storage := [] } : World).storage.symbols 9 = none) ∨
        (e = .lookupError 3 ∧
          hmFind ({ storage := storage73, py_storage := [] } : World).storage.symbols 3 = none)) :=
  have hattr : ∀ stage_scope,
      ({ storage := storage73, py_storage := [] } : World).storage.MaybeGet 3 = .ok stage_scope →
        (stage_scope.Int64 "stage_placement_id").isSome ∧
        (stage_scope.Int64 "stage_weight_buffer_size").isSome := by
    intro stage_scope h
    have h3 : ({ storage := storage73, py_storage := [] } : World).storage.MaybeGet 3
        = .ok (stageScope 20 21 0 4) := by decide
    rw [h3] at h
    injection h with h
    subst h
    decide
  ⟨by decide, hattr,
    (MergeScope_fails_iff { storage := storage73, py_storage := [] } 9 3).1 (.lookupError 9)
      (by decide),
    (MergeScope_fails_iff { storage := storage73, py_storage := [] } 9 3).2 hattr⟩

/-! ## Fused groups -/

theorem hmSet_keys_of_find {κ ν : Type} [DecidableEq κ] (m : List (κ × ν)) (k : κ) (v v0 : ν)
    (h : hmFind m k = some v0) : (hmSet m k v).map Prod.fst = m.map Prod.fst := by
  induction m with
  | nil => simp [hmFind] at h
  | cons p m ih =>
    obtain ⟨k1, v1⟩ := p
    by_cases hk : k1 = k
    · subst hk
      simp [hmSet]
    · simp only [hmFind, if_neg hk] at h
      simp [hmSet, hk, ih h]

theorem hmSet_of_not_mem {κ ν : Type} [DecidableEq κ] (m : List (κ × ν)) (k : κ) (v : ν)
    (h : k ∉ m.map Prod.fst) : hmSet m k v = m ++ [(k, v)] := by
  induction m with
  | nil => rfl
  | cons p m ih =>
    obtain ⟨k1, v1⟩ := p
    simp only [List.map_cons, List.mem_cons, not_or] at h
    have hk : ¬ k1 = k := fun e => h.1 e.symm
    simp [hmSet, hk, ih h.2]

theorem hmSet_keys_nodup {κ ν : Type} [DecidableEq κ] (m : List (κ × ν)) (k : κ) (v : ν)
    (h : (m.map Prod.fst).Nodup) : ((hmSet m k v).map Prod.fst).Nodup := by
  cases hf : hmFind m k with
  | none =>
    have hk := (hmFind_none_iff m k).1 hf
    rw [hmSet_of_not_mem m k v hk, List.map_append, List.nodup_append]
    refine ⟨h, by simp, ?_⟩
    intro a h1 h2
    simp only [List.map_cons, List.map_nil, List.mem_singleton] at h2
    subst h2
    exact hk h1
  | some v0 => rw [hmSet_keys_of_find m k v v0 hf]; exact h

theorem mem_hmSet {κ ν : Type} [DecidableEq κ] (m : List (κ × ν)) (k : κ) (v : ν) (p : κ × ν)
    (h : p ∈ hmSet m k v) : p ∈ m ∨ p = (k, v) := by
  induction m with
  | nil =>
    simp only [hmSet, List.mem_singleton] at h
    exact Or.inr h
  | cons q m ih =>
    obtain ⟨k1, v1⟩ := q
    by_cases hk : k1 = k
    · simp only [hmSet, if_pos hk, List.mem_cons] at h
      rcases h with h | h
      · exact Or.inr h
      · exact Or.inl (List.mem_cons_of_mem _ h)
    · simp only [hmSet, if_neg hk, List.mem_cons] at h
      rcases h with h | h
      · exact Or.inl (h ▸ List.mem_cons_self _ _)
      · rcases ih h with h | h
        · exact Or.inl (List.mem_cons_of_mem _ h)
        · exact Or.inr h

theorem mem_of_hmFind {κ ν : Type} [DecidableEq κ] (m : List (κ × ν)) (k : κ) (v : ν)
    (h : hmFind m k = some v) : (k, v) ∈ m := by
  induction m with
  | nil => simp [hmFind] at h
  | cons q m ih =>
    obtain ⟨k1, v1⟩ := q
    by_cases hk : k1 = k
    · simp only [hmFind, if_pos hk] at h
      injection h with h
      subst hk; subst h
      exact List.mem_cons_self _ _
    · simp only [hmFind, if_neg hk] at h
      exact List.mem_cons_of_mem _ (ih h)

theorem hmFind_isSome_iff {κ ν : Type} [DecidableEq κ] (m : List (κ × ν)) (k : κ) :
    (hmFind m k).isSome ↔ k ∈ m.map Prod.fst := by
  have := hmFind_none_iff m k
  cases h : hmFind m k with
  | none => simp only [h, true_iff] at this; simp [this]
  | some v =>
    simp only [h, false_iff, not_not, reduceCtorEq] at this
    simp [this]

theorem mem_inOutNodes_endpoints (g : OpGraph) (u v : OpNode) (h : v ∈ g.inOutNodes u) :
    v ∈ g.endpoints := by
  unfold OpGraph.inOutNodes at h
  rcases List.mem_append.1 h with h | h
  · exact (mem_endpoints_of_edge g v u ((mem_inNodes g v u).1 h)).1
  · exact (mem_endpoints_of_edge g u v ((mem_outNodes g u v).1 h)).2

theorem fuseFrom_ok (g : OpGraph) (backbone : List OpNode) (b : OpNode)
    (m : List (OpNode × OpNode)) : ∃ m1, fuseFrom g backbone b m = .ok m1 := by
  unfold fuseFrom
  apply BfsForEachNode_ok
  intro s u v hv
  unfold ForEachOtherNext at hv
  exact mem_inOutNodes_endpoints g u v (List.mem_filter.1 hv).1

theorem fuseFrom_inv (g : OpGraph) (backbone : List OpNode) (b : OpNode) (hb : b ∈ backbone)
    (m m1 : List (OpNode × OpNode)) (h : fuseFrom g backbone b m = .ok m1)
    (inv : FuseInv backbone m) : FuseInv backbone m1 := by
  unfold fuseFrom at h
  refine BfsForEachNode_state g _ _ _ m m1 (FuseInv backbone) ?_ h inv
  intro cur s hs
  by_cases hc : cur ∈ backbone
  · simp only [if_pos hc]; exact hs
  · simp only [if_neg hc]
    refine ⟨hmSet_keys_nodup _ _ _ hs.keys, ?_, ?_⟩
    · intro p hp
      rcases mem_hmSet _ _ _ p hp with hp | hp
      · exact hs.other p hp
      · rw [hp]; exact hc
    · intro p hp
      rcases mem_hmSet _ _ _ p hp with hp | hp
      · exact hs.target p hp
      · rw [hp]; exact hb

/-- The fusion ends, and it maps distinct ops outside the backbone to backbone ops. -/
theorem FuseOtherFwOpsToBackboneOps_spec (ord : List OpNode → List OpNode) (g : OpGraph)
    (backbone : List OpNode) (hord : ∀ l, (ord l).Perm l) :
    ∃ other, FuseOtherFwOpsToBackboneOps ord g backbone = .ok other ∧ FuseInv backbone other := by
  unfold FuseOtherFwOpsToBackboneOps BfsForEachBackboneOp
  have hnext : ∀ u v, v ∈ (g.outNodes u).filter (fun out_node => decide (out_node ∈ backbone)) →
      ((u, v) ∈ g.edges ∧ v ∈ backbone) := by
    intro u v h
    simpa [List.mem_filter, mem_outNodes] using h
  obtain ⟨r, hr⟩ := BfsForEachNode_ok g
    ((ord backbone).filter (fun node => decide
      (((g.inNodes node).filter (fun in_node => decide (in_node ∈ backbone))).length = 0)))
    (fun (_ : Except PassError (List (OpNode × OpNode))) (node : OpNode) =>
      (g.outNodes node).filter (fun out_node => decide (out_node ∈ backbone)))
    (fun backbone_op_node (s : Except PassError (List (OpNode × OpNode))) =>
        match s with
        | .error e => .error e
        | .ok m => fuseFrom g backbone backbone_op_node m)
    (.ok [])
    (by
      intro _ u v hv
      exact (mem_endpoints_of_edge g u v (hnext u v hv).1).2)
  rw [hr]
  obtain ⟨_, _, m, hm, hinv⟩ := BfsForEachNode_inv g _ _ _ _ r
    (fun queue _ s => (∀ x, x ∈ queue → x ∈ backbone) ∧ ∃ m, s = .ok m ∧ FuseInv backbone m)
    (by
      rintro cur rest queued s ⟨hq, m, hs, hinv⟩
      subst hs
      have hcur : cur ∈ backbone := hq cur (List.mem_cons_self _ _)
      refine ⟨?_, ?_⟩
      · intro x hx
        rcases (enqueue_fold_mem_queue _ _ _).1 hx with hx | hx
        · exact hq x (List.mem_cons_of_mem _ hx)
        · exact (hnext cur x hx.1).2
      · obtain ⟨m1, hm1⟩ := fuseFrom_ok g backbone cur m
        exact ⟨m1, hm1, fuseFrom_inv g backbone cur hcur m m1 hm1 hinv⟩)
    hr
    (by
      refine ⟨?_, [], rfl, ⟨by simp, by simp, by simp⟩⟩
      intro x hx
      rw [enqueue_starts_queue] at hx
      exact ((hord backbone).mem_iff).1 (List.mem_filter.1 hx).1)
  subst hm
  exact ⟨m, rfl, hinv⟩

theorem hashInsert_nodup {α : Type} [DecidableEq α] (s : List α) (x : α) (h : s.Nodup) :
    (hashInsert s x).Nodup := by
  unfold hashInsert
  by_cases hx : x ∈ s
  · rw [if_pos hx]; exact h
  · rw [if_neg hx, List.nodup_append]
    refine ⟨h, by simp, ?_⟩
    intro a h1 h2
    simp only [List.mem_singleton] at h2
    subst h2
    exact hx h1

theorem GetBackBoneOps_nodup (ord : List OpNode → List OpNode) (g : OpGraph) (T : List OpNode)
    (backbone : List OpNode) (h : GetBackBoneOps ord g T = .ok backbone) : backbone.Nodup := by
  unfold GetBackBoneOps at h
  exact BfsForEachNode_state g _ _ _ [] backbone List.Nodup
    (fun cur s hs => hashInsert_nodup s cur hs) h List.nodup_nil

theorem allOps_append (m1 m2 : List (OpNode × Option (List OpNode))) :
    allOps (m1 ++ m2) = allOps m1 ++ allOps m2 := by
  unfold allOps
  induction m1 with
  | nil => rfl
  | cons p m ih =>
    obtain ⟨k, v⟩ := p
    cases v with
    | none => simpa [seqOps] using ih
    | some vec =>
      simp only [List.cons_append, List.map_cons, seqOps, List.append_assoc]
      exact congrArg (fun l => vec ++ l) ih

theorem initGroups_eq (l : List OpNode) :
    ∀ (m : List (OpNode × Option (List OpNode))),
      (∀ b, b ∈ l → b ∉ m.map Prod.fst) → l.Nodup →
      l.foldl (fun m b => hmSet m b (some [b])) m = m ++ l.map (fun b => (b, some [b])) := by
  induction l with
  | nil => intro m _ _; simp
  | cons b l ih =>
    intro m hm hnd
    rw [List.foldl_cons, hmSet_of_not_mem m b _ (hm b (List.mem_cons_self _ _))]
    rw [ih]
    · simp
    · intro x hx
      simp only [List.map_append, List.map_cons, List.map_nil, List.mem_append,
        List.mem_singleton, not_or]
      refine ⟨hm x (List.mem_cons_of_mem _ hx), ?_⟩
      intro hxb
      subst hxb
      exact (List.nodup_cons.1 hnd).1 hx
    · exact (List.nodup_cons.1 hnd).2

theorem allOps_init (l : List OpNode) :
    allOps (l.map (fun b => (b, some [b]))) = l := by
  unfold allOps
  induction l with
  | nil => rfl
  | cons b l ih => simp only [List.map_cons, seqOps, List.singleton_append]; rw [ih]

theorem allOps_hmSet_push (m : List (OpNode × Option (List OpNode))) (k x : OpNode)
    (vec : List OpNode) (h : hmFind m k = some (some vec)) :
    (allOps (hmSet m k (some (vec ++ [x])))).Perm (x :: allOps m) := by
  induction m with
  | nil => simp [hmFind] at h
  | cons p m ih =>
    obtain ⟨k1, v1⟩ := p
    by_cases hk : k1 = k
    · simp only [hmFind, if_pos hk] at h
      injection h with h
      subst h
      simp only [hmSet, if_pos hk, allOps, List.map_cons, seqOps, List.append_assoc]
      have : (vec ++ ([x] ++ seqOps (m.map Prod.snd))).Perm
          (vec ++ (x :: seqOps (m.map Prod.snd))) := by simp
      exact this.trans List.perm_middle
    · simp only [hmFind, if_neg hk] at h
      have := ih h
      simp only [hmSet, if_neg hk]
      unfold allOps at this ⊢
      cases v1 with
      | none => simpa [seqOps] using this
      | some vec1 =>
        simp only [List.map_cons, seqOps]
        exact (this.append_left vec1).trans List.perm_middle

theorem pushAllFused_spec (pairs : List (OpNode × OpNode)) :
    ∀ (m : List (OpNode × Option (List OpNode))), GroupsInv m →
      (∀ p, p ∈ pairs → p.2 ∈ m.map Prod.fst) →
      ∃ m1, pushAllFused m pairs = .ok m1 ∧ GroupsInv m1 ∧ m1.map Prod.fst = m.map Prod.fst ∧
        (allOps m1).Perm (allOps m ++ pairs.map Prod.fst) := by
  induction pairs with
  | nil =>
    intro m hm _
    exact ⟨m, rfl, hm, rfl, by simp⟩
  | cons pair rest ih =>
    intro m hm hkeys
    obtain ⟨x, b⟩ := pair
    have hb : b ∈ m.map Prod.fst := hkeys (x, b) (List.mem_cons_self _ _)
    obtain ⟨v, hv⟩ := Option.isSome_iff_exists.1 ((hmFind_isSome_iff m b).2 hb)
    obtain ⟨others, hothers⟩ := hm (b, v) (mem_of_hmFind m b v hv)
    simp only at hothers
    subst hothers
    have hkeys1 : (hmSet m b (some (b :: others ++ [x]))).map Prod.fst = m.map Prod.fst :=
      hmSet_keys_of_find m b _ _ hv
    have hinv1 : GroupsInv (hmSet m b (some (b :: others ++ [x]))) := by
      intro p hp
      rcases mem_hmSet _ _ _ p hp with hp | hp
      · exact hm p hp
      · rw [hp]; exact ⟨others ++ [x], rfl⟩
    obtain ⟨m1, hm1, hg1, hk1, hperm1⟩ := ih _ hinv1 (by
      intro p hp
      rw [hkeys1]
      exact hkeys p (List.mem_cons_of_mem _ hp))
    refine ⟨m1, ?_, hg1, hk1.trans hkeys1, ?_⟩
    · simp only [pushAllFused, pushFused, hv]
      exact hm1
    · refine hperm1.trans ?_
      have := allOps_hmSet_push m b x (b :: others) hv
      simp only [List.map_cons]
      exact (this.append_right _).trans (by simpa using List.perm_middle.symm)

theorem hmIter_mem {ν : Type} (ord : List OpNode → List OpNode) (m : List (OpNode × ν))
    (p : OpNode × ν) (h : p ∈ hmIter ord m) : p ∈ m := by
  unfold hmIter at h
  obtain ⟨k, _, hk⟩ := List.mem_filterMap.1 h
  cases hf : hmFind m k with
  | none => simp [hf] at hk
  | some v =>
    simp only [hf, Option.map_some', Option.some.injEq] at hk
    subst hk
    exact mem_of_hmFind m k v hf

theorem filterMap_keys {ν : Type} (m : List (OpNode × ν)) (l : List OpNode)
    (h : ∀ k, k ∈ l → k ∈ m.map Prod.fst) :
    (l.filterMap (fun k => (hmFind m k).map (fun v => (k, v)))).map Prod.fst = l := by
  induction l with
  | nil => rfl
  | cons k l ih =>
    obtain ⟨v, hv⟩ := Option.isSome_iff_exists.1
      ((hmFind_isSome_iff m k).2 (h k (List.mem_cons_self _ _)))
    rw [List.filterMap_cons]
    simp only [hv, Option.map_some', List.map_cons]
    rw [ih (fun k hk => h k (List.mem_cons_of_mem _ hk))]

theorem hmIter_keys {ν : Type} (ord : List OpNode → List OpNode) (m : List (OpNode × ν))
    (hord : ∀ l, (ord l).Perm l) : (hmIter ord m).map Prod.fst = ord (m.map Prod.fst) :=
  filterMap_keys m _ (fun _ hk => ((hord _).mem_iff).1 hk)

/-- The groups built from a duplicate-free backbone and a fusion map: one group per
backbone op, headed by it, and no op twice. -/
theorem buildFusedOps_spec (ord : List OpNode → List OpNode) (backbone : List OpNode)
    (other : List (OpNode × OpNode)) (hord : ∀ l, (ord l).Perm l) (hnd : backbone.Nodup)
    (hinv : FuseInv backbone other) :
    ∃ m, buildFusedOps ord backbone other = .ok m ∧ GroupsInv m ∧
      m.map Prod.fst = ord backbone ∧
      (allOps m).Perm (ord backbone ++ ord (other.map Prod.fst)) ∧ (allOps m).Nodup := by
  unfold buildFusedOps
  have hnd1 : (ord backbone).Nodup := (hord backbone).nodup_iff.2 hnd
  rw [initGroups_eq (ord backbone) [] (by simp) hnd1, List.nil_append]
  have hkeys0 : ((ord backbone).map (fun b => (b, some [b]))).map Prod.fst = ord backbone := by
    rw [List.map_map]
    exact List.map_id _
  obtain ⟨m, hm, hg, hk, hperm⟩ := pushAllFused_spec (hmIter ord other)
    ((ord backbone).map (fun b => (b, some [b])))
    (by
      intro p hp
      obtain ⟨b, _, hb⟩ := List.mem_map.1 hp
      subst hb
      exact ⟨[], rfl⟩)
    (by
      intro p hp
      rw [hkeys0]
      exact ((hord backbone).mem_iff).2 (hinv.target p (hmIter_mem ord other p hp)))
  rw [allOps_init, hmIter_keys ord other hord] at hperm
  refine ⟨m, hm, hg, hk.trans hkeys0, hperm, ?_⟩
  rw [hperm.nodup_iff, List.nodup_append]
  refine ⟨hnd1, (hord _).nodup_iff.2 hinv.keys, ?_⟩
  intro a h1 h2
  have h1' := ((hord backbone).mem_iff).1 h1
  have h2' := ((hord _).mem_iff).1 h2
  obtain ⟨p, hp, hpa⟩ := List.mem_map.1 h2'
  subst hpa
  exact hinv.other p hp h1'

theorem GetBackboneOp2FusedOps_spec (ord : List OpNode → List OpNode) (g : OpGraph)
    (NeedBackwardOp : OpNode → Bool) (hord : ∀ l, (ord l).Perm l) :
    ∃ backbone other m,
      GetBackBoneOps ord g (GetTrainableFwOps g NeedBackwardOp) = .ok backbone ∧
      FuseOtherFwOpsToBackboneOps ord g backbone = .ok other ∧ FuseInv backbone other ∧
      GetBackboneOp2FusedOps ord g NeedBackwardOp = .ok m ∧ GroupsInv m ∧
      m.map Prod.fst = ord backbone ∧
      (allOps m).Perm (ord backbone ++ ord (other.map Prod.fst)) ∧ (allOps m).Nodup := by
  obtain ⟨backbone, hb, _⟩ := GetBackBoneOps_spec ord g (GetTrainableFwOps g NeedBackwardOp) hord
  obtain ⟨other, ho, hinv⟩ := FuseOtherFwOpsToBackboneOps_spec ord g backbone hord
  obtain ⟨m, hm, hg, hk, hperm, hnd⟩ := buildFusedOps_spec ord backbone other hord
    (GetBackBoneOps_nodup ord g _ backbone hb) hinv
  refine ⟨backbone, other, m, hb, ho, hinv, ?_, hg, hk, hperm, hnd⟩
  unfold GetBackboneOp2FusedOps
  simp only [hb, ho]
  exact hm

/-! ## Sequential order and handler calls -/

theorem allOps_hmSet_none (m : List (OpNode × Option (List OpNode))) (k : OpNode)
    (v : Option (List OpNode)) (h : hmFind m k = some v) :
    (seqOps [v] ++ allOps (hmSet m k none)).Perm (allOps m) := by
  induction m with
  | nil => simp [hmFind] at h
  | cons p m ih =>
    obtain ⟨k1, v1⟩ := p
    by_cases hk : k1 = k
    · simp only [hmFind, if_pos hk] at h
      injection h with h
      subst h
      simp only [hmSet, if_pos hk, allOps, List.map_cons]
      cases v1 with
      | none => simp [seqOps]
      | some vec => simp [seqOps]
    · simp only [hmFind, if_neg hk] at h
      have := ih h
      simp only [hmSet, if_neg hk]
      unfold allOps at this ⊢
      cases v1 with
      | none => simpa [seqOps] using this
      | some vec1 =>
        simp only [List.map_cons, seqOps]
        refine List.Perm.trans ?_ (this.append_left vec1)
        rw [← List.append_assoc, ← List.append_assoc]
        exact List.Perm.append_right _ List.perm_append_comm

theorem moveToFront_perm (m0 : List (OpNode × Option (List OpNode))) (cur : OpNode)
    (s : Except PassError SeqState)
    (hs : ∀ st, s = .ok st →
      (seqOps st.sequantial_trainable_fw_ops ++ allOps st.backbone_op2fused_ops).Perm (allOps m0)) :
    ∀ st, moveToFront cur s = .ok st →
      (seqOps st.sequantial_trainable_fw_ops ++ allOps st.backbone_op2fused_ops).Perm
        (allOps m0) := by
  intro st hst
  unfold moveToFront at hst
  cases s with
  | error e => simp at hst
  | ok st0 =>
    simp only at hst
    cases hf : hmFind st0.backbone_op2fused_ops cur with
    | none => simp [hf] at hst
    | some vec =>
      simp only [hf] at hst
      injection hst with hst
      subst hst
      simp only
      refine List.Perm.trans ?_ (hs st0 rfl)
      have := allOps_hmSet_none st0.backbone_op2fused_ops cur vec hf
      have h2 : seqOps (vec :: st0.sequantial_trainable_fw_ops) =
          seqOps [vec] ++ seqOps st0.sequantial_trainable_fw_ops := by
        cases vec with
        | none => simp [seqOps]
        | some v => simp [seqOps]
      rw [h2, List.append_assoc]
      refine List.Perm.trans ?_ (List.Perm.append_left _ this)
      rw [← List.append_assoc, ← List.append_assoc]
      exact List.Perm.append_right _ List.perm_append_comm

/-- No op occurs twice in the sequential order when no op occurs twice in the groups. -/
theorem sequantialize_nodup (ord : List OpNode → List OpNode) (g : OpGraph)
    (m0 : List (OpNode × Option (List OpNode))) (seq : List (Option (List OpNode)))
    (h : sequantialize ord g m0 = .ok seq) (hnd : (allOps m0).Nodup) : (seqOps seq).Nodup := by
  unfold sequantialize at h
  split at h
  · cases h
  · cases h
  · rename_i st hbfs
    injection h with h
    subst h
    have := BfsForEachNode_state g _ _ _ _ _
      (fun s => ∀ st, s = .ok st →
        (seqOps st.sequantial_trainable_fw_ops ++ allOps st.backbone_op2fused_ops).Perm
          (allOps m0))
      (fun cur s hs => moveToFront_perm m0 cur s hs) hbfs
      (by
        intro st hst
        injection hst with hst
        subst hst
        simp [seqOps])
    have hperm := this st rfl
    have hnd2 := hperm.nodup_iff.2 hnd
    exact (List.nodup_append.1 hnd2).1

theorem groupSizes_some (seq : List (Option (List OpNode))) (sizes : List Nat)
    (h : groupSizes seq = some sizes) : ∃ groups : List (List OpNode), seq = groups.map some := by
  induction seq generalizing sizes with
  | nil => exact ⟨[], rfl⟩
  | cons v rest ih =>
    cases v with
    | none => simp [groupSizes] at h
    | some vec =>
      simp only [groupSizes] at h
      cases hr : groupSizes rest with
      | none => simp [hr] at h
      | some sizes1 =>
        obtain ⟨groups, hg⟩ := ih sizes1 hr
        exact ⟨vec :: groups, by simp [hg]⟩

theorem GetStageDepth2Stage_some (seq : List (Option (List OpNode))) (K : Nat)
    (tbl : List (Nat × Nat)) (h : GetStageDepth2Stage seq K = .ok tbl) :
    ∃ groups : List (List OpNode), seq = groups.map some := by
  unfold GetStageDepth2Stage at h
  cases hs : groupSizes seq with
  | none => simp [hs] at h
  | some sizes => exact groupSizes_some seq sizes hs

/-- After a successful `GetStageDepth2Stage` every depth below the number of groups has
a stage, and the stage is below the number of stages. -/
theorem Stage4Depth_defined (groups : List (List OpNode)) (K : Nat) (tbl : List (Nat × Nat))
    (hK : 1 ≤ K) (h : GetStageDepth2Stage (groups.map some) K = .ok tbl) :
    ∀ d, d < groups.length → ∃ s, Stage4Depth tbl d = .ok s ∧ s < K := by
  obtain ⟨st, hst, hlt, inv, hd⟩ := walk_run (groups.map List.length) K hK
  have heq := depth2stageOfSizes_eq _ K st hst hd
  rw [← GetStageDepth2Stage_eq, h] at heq
  have htbl : tbl = st.depth2stage := by
    by_cases hne : (st.stage : Int) ≠ (K : Int) - 1
    · rw [if_pos hne] at heq; cases heq
    · rw [if_neg hne] at heq
      injection heq
  subst htbl
  intro d hdlt
  simp only [List.length_map] at hd
  obtain ⟨s, hs⟩ := Option.isSome_iff_exists.1 ((inv.dom d).2 (by omega))
  refine ⟨s, (Stage4Depth_ok _ _ _).2 hs, ?_⟩
  have := inv.le_stage d s hs
  omega

theorem forEachOp_eq {τ : Type} (H : OpNode → Int → τ → Except PassError τ) (sc : Int)
    (vec : List OpNode) :
    ∀ (rest : List (OpNode × Int)) (t : τ),
      applyCalls H (vec.map (fun n => (n, sc)) ++ rest) t =
        match forEachOp H sc vec t with
        | .error e => .error e
        | .ok t1 => applyCalls H rest t1 := by
  induction vec with
  | nil => intro rest t; rfl
  | cons n vec ih =>
    intro rest t
    simp only [List.map_cons, List.cons_append, applyCalls, forEachOp]
    cases H n sc t with
    | error e => rfl
    | ok t1 => exact ih rest t1

theorem forEachFusedVec_eq (tbl : List (Nat × Nat)) (ids : List Int) (groups : List (List OpNode)) :
    ∀ d, (∀ i, i < groups.length → ∃ s, Stage4Depth tbl (d + i) = .ok s ∧ s < ids.length) →
      ∃ calls : List (OpNode × Int), calls.map Prod.fst = seqOps (groups.map some) ∧
        ∀ (τ : Type) (H : OpNode → Int → τ → Except PassError τ) (t : τ),
          forEachFusedVec tbl ids H (groups.map some) d t = applyCalls H calls t := by
  induction groups with
  | nil => intro d _; exact ⟨[], rfl, fun _ _ _ => rfl⟩
  | cons vec rest ih =>
    intro d hd
    obtain ⟨s, hs, hlt⟩ := hd 0 (by simp)
    rw [Nat.add_zero] at hs
    obtain ⟨calls, hc1, hc2⟩ := ih (d + 1) (by
      intro i hi
      have := hd (i + 1) (by simp; omega)
      rw [show d + 1 + i = d + (i + 1) by omega]
      exact this)
    refine ⟨vec.map (fun n => (n, ids[s])) ++ calls, ?_, ?_⟩
    · simp only [List.map_append, List.map_map, List.map_cons, seqOps, hc1]
      congr 1
      exact List.map_id _
    · intro τ H t
      rw [forEachOp_eq H ids[s] vec calls t]
      simp only [List.map_cons, forEachFusedVec, hs, VectorAt, List.getElem?_eq_getElem hlt]
      cases forEachOp H ids[s] vec t with
      | error e => rfl
      | ok t1 => exact hc2 τ H t1

/-! ## Stages along the sequential order -/

theorem Stage4Depth_mono (seq : List (Option (List OpNode))) (K : Nat) (tbl : List (Nat × Nat))
    (h : GetStageDepth2Stage seq K = .ok tbl) (d1 d2 s1 s2 : Nat) (hd : d1 ≤ d2)
    (h1 : Stage4Depth tbl d1 = .ok s1) (h2 : Stage4Depth tbl d2 = .ok s2) : s1 ≤ s2 := by
  unfold GetStageDepth2Stage at h
  cases hs : groupSizes seq with
  | none => simp [hs] at h
  | some sizes =>
    simp only [hs] at h
    unfold depth2stageOfSizes at h
    cases hw : walk (expectedTable sizes K) walkInit sizes with
    | error e => simp [hw] at h
    | ok st =>
      simp only [hw] at h
      obtain ⟨inv, _⟩ := walk_inv _ sizes walkInit st hw walkInv_init
      split at h
      · cases h
      · split at h
        · cases h
        · injection h with h
          subst h
          exact inv.mono d1 d2 s1 s2 hd ((Stage4Depth_ok _ _ _).1 h1) ((Stage4Depth_ok _ _ _).1 h2)

/-! ## The sequential order is total; handler calls -/

theorem enqueue_fold_added (l : List OpNode) :
    ∀ (acc : List OpNode × List OpNode),
      ∃ added, l.foldl enqueue acc = (acc.1 ++ added, acc.2 ++ added) ∧
        (∀ x, x ∈ added → x ∈ l ∧ x ∉ acc.2) ∧ (acc.2.Nodup → (acc.2 ++ added).Nodup) := by
  induction l with
  | nil => intro acc; exact ⟨[], by simp, by simp, by simp⟩
  | cons n l ih =>
    intro acc
    rw [List.foldl_cons]
    by_cases hn : n ∈ acc.2
    · obtain ⟨added, h1, h2, h3⟩ := ih acc
      refine ⟨added, ?_, ?_, h3⟩
      · simp only [enqueue, if_pos hn]; exact h1
      · intro x hx
        exact ⟨List.mem_cons_of_mem _ (h2 x hx).1, (h2 x hx).2⟩
    · obtain ⟨added, h1, h2, h3⟩ := ih (acc.1 ++ [n], acc.2 ++ [n])
      refine ⟨n :: added, ?_, ?_, ?_⟩
      · simp only [enqueue, if_neg hn]
        rw [h1]
        simp
      · intro x hx
        rcases List.mem_cons.1 hx with hx | hx
        · subst hx; exact ⟨List.mem_cons_self _ _, hn⟩
        · have := h2 x hx
          simp only [List.mem_append, List.mem_singleton, not_or] at this
          exact ⟨List.mem_cons_of_mem _ this.1, this.2.1⟩
      · intro hnd
        have : (acc.2 ++ [n]).Nodup := by
          rw [List.nodup_append]
          refine ⟨hnd, by simp, ?_⟩
          intro a ha1 ha2
          simp only [List.mem_singleton] at ha2
          subst ha2
          exact hn ha1
        have := h3 this
        simpa using this

theorem enqueue_starts_nodup (starts : List OpNode) :
    (starts.foldl enqueue ([], [])).1 = (starts.foldl enqueue ([], [])).2 ∧
    (starts.foldl enqueue ([], [])).2.Nodup := by
  obtain ⟨added, h1, _, h3⟩ := enqueue_fold_added starts ([], [])
  rw [h1]
  exact ⟨rfl, h3 List.nodup_nil⟩

theorem SeqInv_step (g : OpGraph) (m0 : List (OpNode × Option (List OpNode)))
    (cur : OpNode) (handled rest queued : List OpNode) (s : Except PassError SeqState)
    (h : SeqInv m0 handled (cur :: rest) queued s) :
    SeqInv m0 (handled ++ [cur])
      ((seqForEachIn g (moveToFront cur s) cur).foldl enqueue (rest, queued)).1
      ((seqForEachIn g (moveToFront cur s) cur).foldl enqueue (rest, queued)).2
      (moveToFront cur s) := by
  obtain ⟨st, hs, hperm, hnd, hkeys, hmk, hun, hord⟩ := h
  subst hs
  have hcurq : cur ∈ queued := hperm.mem_iff.2 (by simp)
  have hnd2 : (handled ++ cur :: rest).Nodup := hperm.nodup_iff.1 hnd
  have hcurh : cur ∉ handled := by
    intro hc
    exact (List.nodup_append.1 hnd2).2.2 hc (List.mem_cons_self _ _)
  obtain ⟨v, hv⟩ := Option.isSome_iff_exists.1 ((hmFind_isSome_iff m0 cur).2 (hkeys cur hcurq))
  have hv1 : hmFind st.backbone_op2fused_ops cur = some v := by rw [hun cur hcurh]; exact hv
  have hmove : moveToFront cur (.ok st) =
      .ok { backbone_op2fused_ops := hmSet st.backbone_op2fused_ops cur none
            sequantial_trainable_fw_ops := v :: st.sequantial_trainable_fw_ops } := by
    simp only [moveToFront, hv1]
  rw [hmove]
  obtain ⟨added, ha1, ha2, ha3⟩ := enqueue_fold_added
    (seqForEachIn g (.ok { backbone_op2fused_ops := hmSet st.backbone_op2fused_ops cur none
                           sequantial_trainable_fw_ops := v :: st.sequantial_trainable_fw_ops })
      cur) (rest, queued)
  rw [ha1]
  have hmk1 : (hmSet st.backbone_op2fused_ops cur none).map Prod.fst = m0.map Prod.fst := by
    rw [hmSet_keys_of_find _ cur none v hv1]; exact hmk
  refine ⟨_, rfl, ?_, ha3 hnd, ?_, hmk1, ?_, ?_⟩
  · have := hperm.append_right added
    simpa using this
  · intro x hx
    rcases List.mem_append.1 hx with hx | hx
    · exact hkeys x hx
    · have := (ha2 x hx).1
      simp only [seqForEachIn, List.mem_filter] at this
      rw [← hmk1]
      exact (hmFind_isSome_iff _ x).1 this.2
  · intro k hk
    simp only [List.mem_append, List.mem_singleton, not_or] at hk
    simp only
    rw [hmFind_hmSet, if_neg (fun e => hk.2 e.symm)]
    exact hun k hk.1
  · simp only [List.reverse_append, List.reverse_cons, List.reverse_nil, List.nil_append,
      List.singleton_append, List.filterMap_cons, hv]
    rw [hord]

/-- The traversal of `sequantialize` ends without a failed check; the list it builds
holds the vectors, as they were in the map, of pairwise distinct keys of the map, in
the reverse of the order in which the traversal popped them. -/
theorem sequantialize_spec (ord : List OpNode → List OpNode) (g : OpGraph)
    (m0 : List (OpNode × Option (List OpNode))) :
    ∃ handled : List OpNode, handled.Nodup ∧ (∀ k, k ∈ handled → k ∈ m0.map Prod.fst) ∧
      (∀ k, k ∈ sinkStarts ord g m0 → k ∈ handled) ∧
      sequantialize ord g m0 = .ok (handled.reverse.filterMap (fun k => hmFind m0 k)) := by
  obtain ⟨r, hr⟩ := BfsForEachNode_ok g (sinkStarts ord g m0) (seqForEachIn g) moveToFront
    (.ok { backbone_op2fused_ops := m0, sequantial_trainable_fw_ops := [] })
    (by
      intro s u v hv
      cases s with
      | error e => simp [seqForEachIn] at hv
      | ok st =>
        simp only [seqForEachIn, List.mem_filter] at hv
        exact (mem_endpoints_of_edge g v u ((mem_inNodes g v u).1 hv.1)).1)
  have hstarts : ∀ x, x ∈ sinkStarts ord g m0 → x ∈ m0.map Prod.fst := by
    intro x hx
    unfold sinkStarts at hx
    obtain ⟨p, hp, hpx⟩ := List.mem_map.1 (List.mem_filter.1 hx).1
    subst hpx
    exact List.mem_map.2 ⟨p, hmIter_mem ord m0 p hp, rfl⟩
  obtain ⟨queued1, ⟨handled, st, hs, hperm, hnd, hkeys, _, _, hord⟩, hst⟩ :=
    BfsForEachNode_inv g (sinkStarts ord g m0) (seqForEachIn g) moveToFront _ r
      (fun queue queued s => (∃ handled, SeqInv m0 handled queue queued s) ∧
        ∀ x, x ∈ sinkStarts ord g m0 → x ∈ queued)
      (by
        rintro cur rest queued s ⟨⟨handled, h⟩, hst⟩
        refine ⟨⟨_, SeqInv_step g m0 cur handled rest queued s h⟩, ?_⟩
        intro x hx
        rw [enqueue_fold_mem_queued]
        exact Or.inl (hst x hx))
      hr
      (by
        obtain ⟨h1, h2⟩ := enqueue_starts_nodup (sinkStarts ord g m0)
        refine ⟨⟨[], _, rfl, ?_, h2, ?_, rfl, fun _ _ => rfl, rfl⟩, ?_⟩
        · rw [h1]; simp
        · intro x hx
          rw [enqueue_starts_queued] at hx
          exact hstarts x hx
        · intro x hx
          rw [enqueue_starts_queued]
          exact hx)
  simp only [List.append_nil] at hperm
  refine ⟨handled, hperm.nodup_iff.1 hnd, fun k hk => hkeys k (hperm.mem_iff.2 hk),
    fun k hk => hperm.mem_iff.1 (hst k hk), ?_⟩
  unfold sequantialize
  rw [hr, hs]
  simp only [hord]

theorem filterMap_groups (m : List (OpNode × Option (List OpNode))) (hg : GroupsInv m)
    (l : List OpNode) (hl : ∀ k, k ∈ l → k ∈ m.map Prod.fst) :
    ∃ groups : List (List OpNode), l.filterMap (fun k => hmFind m k) = groups.map some ∧
      groups.length = l.length ∧
      ∀ grp, grp ∈ groups → ∃ b others, grp = b :: others ∧ b ∈ l ∧ (b, some grp) ∈ m := by
  induction l with
  | nil => exact ⟨[], rfl, rfl, by simp⟩
  | cons k l ih =>
    obtain ⟨groups, h1, h2, h3⟩ := ih (fun x hx => hl x (List.mem_cons_of_mem _ hx))
    obtain ⟨v, hv⟩ := Option.isSome_iff_exists.1
      ((hmFind_isSome_iff m k).2 (hl k (List.mem_cons_self _ _)))
    have hmem := mem_of_hmFind m k v hv
    obtain ⟨others, ho⟩ := hg (k, v) hmem
    simp only at ho
    subst ho
    refine ⟨(k :: others) :: groups, ?_, by simp [h2], ?_⟩
    · rw [List.filterMap_cons]
      simp only [hv, List.map_cons, h1]
    · intro grp hgrp
      rcases List.mem_cons.1 hgrp with hgrp | hgrp
      · subst hgrp
        exact ⟨k, others, rfl, List.mem_cons_self _ _, hmem⟩
      · obtain ⟨b, o, e1, e2, e3⟩ := h3 grp hgrp
        exact ⟨b, o, e1, List.mem_cons_of_mem _ e2, e3⟩

/-- Function `GetSequantialTrainableFwOps` succeeds; no group of its list is null, every group is
the group of its first op in `backbone_op2fused_ops`, and no op occurs twice in the
groups taken together. -/
theorem GetSequantialTrainableFwOps_spec (ord : List OpNode → List OpNode) (g : OpGraph)
    (NeedBackwardOp : OpNode → Bool) (hord : ∀ l, (ord l).Perm l) :
    ∃ (m : List (OpNode × Option (List OpNode))) (groups : List (List OpNode)),
      GetBackboneOp2FusedOps ord g NeedBackwardOp = .ok m ∧
      GetSequantialTrainableFwOps ord g NeedBackwardOp = .ok (groups.map some) ∧
      (seqOps (groups.map some)).Nodup ∧
      ∀ grp, grp ∈ groups → ∃ b others, grp = b :: others ∧ (b, some grp) ∈ m := by
  obtain ⟨backbone, other, m, _, _, _, hm, hg, _, _, hnd⟩ :=
    GetBackboneOp2FusedOps_spec ord g NeedBackwardOp hord
  obtain ⟨handled, _, hkeys, _, hseq⟩ := sequantialize_spec ord g m
  obtain ⟨groups, h1, _, h3⟩ := filterMap_groups m hg handled.reverse
    (fun k hk => hkeys k (List.mem_reverse.1 hk))
  rw [h1] at hseq
  refine ⟨m, groups, hm, ?_, sequantialize_nodup ord g m _ hseq hnd, ?_⟩
  · unfold GetSequantialTrainableFwOps
    simp only [hm]
    exact hseq
  · intro grp hgrp
    obtain ⟨b, o, e1, _, e3⟩ := h3 grp hgrp
    exact ⟨b, o, e1, e3⟩

theorem GetStageDepth2Stage_error (groups : List (List OpNode)) (K : Nat) (e : PassError)
    (hK : 1 ≤ K) (h : GetStageDepth2Stage (groups.map some) K = .error e) :
    e = .checkFailed 234 := by
  obtain ⟨st, hst, _, _, hd⟩ := walk_run (groups.map List.length) K hK
  have heq := depth2stageOfSizes_eq _ K st hst hd
  rw [← GetStageDepth2Stage_eq, h] at heq
  by_cases hne : (st.stage : Int) ≠ (K : Int) - 1
  · rw [if_pos hne] at heq
    injection heq
  · rw [if_neg hne] at heq
    cases heq

theorem applyCalls_recordCall (l : List (OpNode × Int)) :
    ∀ acc : List (OpNode × Int), applyCalls recordCall l acc = .ok (acc ++ l) := by
  induction l with
  | nil => intro acc; simp [applyCalls]
  | cons c l ih =>
    intro acc
    simp only [applyCalls, recordCall]
    rw [ih]
    simp

/-- C1. In one run of `ForEachStageScope4TrainableFwOp`, whatever the graph, the
iteration order of the hash containers and the stage configuration, the sequential
order is built and no op occurs twice in its groups. Then either the stage
configuration is empty and the run fails at line 361, or the run fails at the check
of line 234, in both cases before any call of the handler, or the run is, for every
handler, one call per op of the groups, in their order, up to the first failing call.
No op is passed to the handler twice. -/
theorem handler_called_at_most_once (ord : List OpNode → List OpNode) (g : OpGraph)
    (NeedBackwardOp : OpNode → Bool) (scope_ids : List Int) (hord : ∀ l, (ord l).Perm l) :
    ∃ groups : List (List OpNode),
      GetSequantialTrainableFwOps ord g NeedBackwardOp = .ok (groups.map some) ∧
      (seqOps (groups.map some)).Nodup ∧
      ((scope_ids = [] ∧
          ∀ (τ : Type) (H : OpNode → Int → τ → Except PassError τ) (t : τ),
            ForEachStageScope4TrainableFwOp ord g NeedBackwardOp scope_ids H t
              = .error (.checkFailed 361)) ∨
        (∀ (τ : Type) (H : OpNode → Int → τ → Except PassError τ) (t : τ),
            ForEachStageScope4TrainableFwOp ord g NeedBackwardOp scope_ids H t
              = .error (.checkFailed 234)) ∨
        (∃ calls : List (OpNode × Int),
          calls.map Prod.fst = seqOps (groups.map some) ∧ (calls.map Prod.fst).Nodup ∧
          ForEachStageScope4TrainableFwOp ord g NeedBackwardOp scope_ids recordCall []
            = .ok calls ∧
          ∀ (τ : Type) (H : OpNode → Int → τ → Except PassError τ) (t : τ),
            ForEachStageScope4TrainableFwOp ord g NeedBackwardOp scope_ids H t
              = applyCalls H calls t)) := by
  obtain ⟨m, groups, _, hseq, hnd, _⟩ := GetSequantialTrainableFwOps_spec ord g NeedBackwardOp hord
  refine ⟨groups, hseq, hnd, ?_⟩
  unfold ForEachStageScope4TrainableFwOp
  simp only [hseq]
  unfold GetStagePartitionScopeIds
  by_cases hK : scope_ids.length > 0
  · simp only [if_pos hK]
    refine Or.inr ?_
    cases htbl : GetStageDepth2Stage (groups.map some) scope_ids.length with
    | error e =>
      have := GetStageDepth2Stage_error groups _ e hK htbl
      subst this
      exact Or.inl (fun _ _ _ => rfl)
    | ok tbl =>
      obtain ⟨calls, hc1, hc2⟩ := forEachFusedVec_eq tbl scope_ids groups 0 (by
        intro i hi
        rw [Nat.zero_add]
        exact Stage4Depth_defined groups _ tbl hK htbl i hi)
      refine Or.inr ⟨calls, hc1, by rw [hc1]; exact hnd, ?_, fun τ H t => hc2 τ H t⟩
      simp only
      rw [hc2, applyCalls_recordCall]
      simp
  · simp only [if_neg hK]
    refine Or.inl ⟨?_, fun _ _ _ => trivial⟩
    exact List.length_eq_zero.1 (by omega)

theorem handler_called_at_most_once_witness :
    (∀ l : List OpNode, (id l).Perm l) ∧
    ForEachStageScope4TrainableFwOp id diamond (fun _ => true) [100, 101] recordCall []
      = .ok [(3, 100), (1, 100), (2, 100), (0, 100), (4, 101)] ∧
    ∃ groups : List (List OpNode),
      GetSequantialTrainableFwOps id diamond (fun _ => true) = .ok (groups.map some) ∧
      (seqOps (groups.map some)).Nodup ∧
      ((([100, 101] : List Int) = [] ∧
          ∀ (τ : Type) (H : OpNode → Int → τ → Except PassError τ) (t : τ),
            ForEachStageScope4TrainableFwOp id diamond (fun _ => true) [100, 101] H t
              = .error (.checkFailed 361)) ∨
        (∀ (τ : Type) (H : OpNode → Int → τ → Except PassError τ) (t : τ),
            ForEachStageScope4TrainableFwOp id diamond (fun _ => true) [100, 101] H t
              = .error (.checkFailed 234)) ∨
        (∃ calls : List (OpNode × Int),
          calls.map Prod.fst = seqOps (groups.map some) ∧ (calls.map Prod.fst).Nodup ∧
          ForEachStageScope4TrainableFwOp id diamond (fun _ => true) [100, 101] recordCall []
            = .ok calls ∧
          ∀ (τ : Type) (H : OpNode → Int → τ → Except PassError τ) (t : τ),
            ForEachStageScope4TrainableFwOp id diamond (fun _ => true) [100, 101] H t
              = applyCalls H calls t)) :=
  ⟨fun l => List.Perm.refl l, by decide,
    handler_called_at_most_once id diamond (fun _ => true) [100, 101]
      (fun l => List.Perm.refl l)⟩

/-! ## The scope ids of the stages -/

/-- C17. `GetStagePartitionScopeIds` fails exactly when the job's list
`"stage_partition_scope_ids"` is empty, and then through the check of line 361;
otherwise it returns the list as it is, so the number of stages is at least one. -/
theorem GetStagePartitionScopeIds_iff (scope_ids : List Int) :
    ((∃ e, GetStagePartitionScopeIds scope_ids = .error e) ↔ scope_ids = []) ∧
    (scope_ids = [] → GetStagePartitionScopeIds scope_ids = .error (.checkFailed 361)) ∧
    (scope_ids ≠ [] → GetStagePartitionScopeIds scope_ids = .ok scope_ids) ∧
    (∀ stage_partition_scope_ids,
      GetStagePartitionScopeIds scope_ids = .ok stage_partition_scope_ids →
        stage_partition_scope_ids = scope_ids ∧ 1 ≤ stage_partition_scope_ids.length) := by
  unfold GetStagePartitionScopeIds
  cases scope_ids with
  | nil => simp
  | cons x rest =>
    simp only [List.length_cons, gt_iff_lt, Nat.zero_lt_succ, if_true]
    refine ⟨?_, ?_, ?_, ?_⟩
    · constructor
      · rintro ⟨e, he⟩; cases he
      · intro h; cases h
    · intro h; cases h
    · intro _; trivial
    · intro ids h
      injection h with h
      subst h
      exact ⟨rfl, by simp⟩

theorem GetStagePartitionScopeIds_iff_witness :
    (([100, 101] : List Int) ≠ []) ∧
    GetStagePartitionScopeIds [100, 101] = .ok [100, 101] ∧
    GetStagePartitionScopeIds [] = .error (.checkFailed 361) :=
  ⟨by decide, (GetStagePartitionScopeIds_iff [100, 101]).2.2.1 (by decide),
    (GetStagePartitionScopeIds_iff []).2.1 rfl⟩

/-! ## The balanced split -/

theorem cumSize_eq_sum (bs : BalancedSplitter) (i : Nat) :
    cumSize bs i = ((List.range (i + 1)).map bs.AtSize).sum := by
  induction i with
  | zero => simp [cumSize, List.range_succ]
  | succ i ih =>
    rw [cumSize, ih, List.range_succ (n := i + 1), List.map_append, List.sum_append]
    simp

theorem cumSize_mono (bs : BalancedSplitter) (i j : Nat) (h : i ≤ j) :
    cumSize bs i ≤ cumSize bs j := by
  induction j with
  | zero =>
    have : i = 0 := by omega
    subst this
    exact Nat.le_refl _
  | succ j ih =>
    by_cases hij : i = j + 1
    · subst hij; exact Nat.le_refl _
    · have := ih (by omega)
      rw [cumSize]
      omega

theorem ceil_div_eq (N K : Nat) (hK : 1 ≤ K) (hr : 1 ≤ N % K) :
    (N + K - 1) / K = N / K + 1 := by
  have h1 : K * (N / K) + N % K = N := Nat.div_add_mod N K
  have h2 : N % K < K := Nat.mod_lt _ (by omega)
  have h3 : N + K - 1 = (N % K - 1) + K * (N / K + 1) := by
    rw [Nat.mul_add, Nat.mul_one]
    omega
  rw [h3, Nat.add_mul_div_left _ _ (by omega : 0 < K)]
  rw [Nat.div_eq_of_lt (by omega)]
  omega

/-- C14. For `N` ops and `K ≥ 1` stages every size taken from the splitter is `⌊N/K⌋` or
`⌈N/K⌉`, two sizes differ by at most one, and the `K` sizes add up to `N`; the table
`stage2expected_num_ops_from_start` has `K` entries, entry `i` is the sum of the sizes
`0 .. i`, the entries are non-decreasing, and the last entry is `N`. For the groups of
a sequential order, `N` is the total number of their ops. -/
theorem balanced_sizes_and_table (N K : Nat) (hK : 1 ≤ K) :
    (∀ i, i < K → (BalancedSplitter.new N K).AtSize i = N / K ∨
      (BalancedSplitter.new N K).AtSize i = (N + K - 1) / K) ∧
    (∀ i j, i < K → j < K →
      (BalancedSplitter.new N K).AtSize i ≤ (BalancedSplitter.new N K).AtSize j + 1) ∧
    ((List.range K).map (BalancedSplitter.new N K).AtSize).sum = N ∧
    (stage2expected_num_ops_from_start (BalancedSplitter.new N K) K).length = K ∧
    (∀ i, i < K → (stage2expected_num_ops_from_start (BalancedSplitter.new N K) K)[i]? =
      some (((List.range (i + 1)).map (BalancedSplitter.new N K).AtSize).sum)) ∧
    (∀ i j a b : Nat, i ≤ j →
      (stage2expected_num_ops_from_start (BalancedSplitter.new N K) K)[i]? = some a →
      (stage2expected_num_ops_from_start (BalancedSplitter.new N K) K)[j]? = some b → a ≤ b) ∧
    (stage2expected_num_ops_from_start (BalancedSplitter.new N K) K)[K - 1]? = some N ∧
    (∀ groups : List (List OpNode), (groups.map List.length).sum = N →
      (expectedTable (groups.map List.length) K)[K - 1]? = some N) := by
  have hsum : ((List.range K).map (BalancedSplitter.new N K).AtSize).sum = N := by
    have := cumSize_eq_sum (BalancedSplitter.new N K) (K - 1)
    rw [cumSize_last N K hK, show K - 1 + 1 = K by omega] at this
    exact this.symm
  have hlast : (stage2expected_num_ops_from_start (BalancedSplitter.new N K) K)[K - 1]? = some N := by
    rw [table_get _ K (K - 1) (by omega), cumSize_last N K hK]
  refine ⟨?_, ?_, hsum, table_length _ K, ?_, ?_, hlast, ?_⟩
  · intro i _
    simp only [BalancedSplitter.AtSize, BalancedSplitter.new]
    by_cases hi : i < N % K
    · rw [if_pos hi]
      exact Or.inr (ceil_div_eq N K hK (by omega)).symm
    · rw [if_neg hi]
      exact Or.inl rfl
  · intro i j _ _
    simp only [BalancedSplitter.AtSize, BalancedSplitter.new]
    split <;> split <;> omega
  · intro i hi
    rw [table_get _ K i hi, cumSize_eq_sum]
  · intro i j a b hij ha hb
    have hj : j < K := by
      by_contra hge
      have hlen := table_length (BalancedSplitter.new N K) K
      rw [List.getElem?_eq_none (by omega)] at hb
      cases hb
    rw [table_get _ K i (by omega)] at ha
    rw [table_get _ K j hj] at hb
    injection ha with ha
    injection hb with hb
    subst ha; subst hb
    exact cumSize_mono _ i j hij
  · intro groups hg
    unfold expectedTable
    rw [foldl_add_eq_sum, Nat.zero_add, hg]
    exact hlast

theorem balanced_sizes_and_table_witness :
    1 ≤ 3 ∧
    (List.range 3).map (BalancedSplitter.new 8 3).AtSize = [3, 3, 2] ∧
    stage2expected_num_ops_from_start (BalancedSplitter.new 8 3) 3 = [3, 6, 8] ∧
    (∀ i, i < 3 → (BalancedSplitter.new 8 3).AtSize i = 8 / 3 ∨
      (BalancedSplitter.new 8 3).AtSize i = (8 + 3 - 1) / 3) :=
  ⟨by decide, by decide, by decide, (balanced_sizes_and_table 8 3 (by decide)).1⟩

/-! ## The pass: enabling and the strategy registry -/

/-- C11. When the job is not a training job, or the flag `"enable_stage_partition"` is
false, `StagePartitionPass::Apply` succeeds without an event (no strategy is looked up,
no op graph is built, no job builder is made), asks no write of a job builder and
leaves the world as it was. -/
theorem Apply_disabled_is_noop (ord : List OpNode → List OpNode) (job : Job) (job_desc : JobDesc)
    (GetParallelDesc : ScopeProto → OperatorConf → Except PassError ParallelConf) (w : World)
    (h : job_desc.is_train = false ∨ job_desc.getBool "enable_stage_partition" = .ok false) :
    (StagePartitionPass.Apply ord job job_desc GetParallelDesc w).events = [] ∧
    (StagePartitionPass.Apply ord job job_desc GetParallelDesc w).result
      = .ok ({ mut_op_confs := [], mut_parallel_confs := [] }, w) := by
  have hen : IsEnabled job_desc = .ok false := by
    unfold IsEnabled
    rcases h with h | h
    · rw [h]; rfl
    · rw [h]; split <;> rfl
  unfold StagePartitionPass.Apply
  rw [hen]
  exact ⟨rfl, rfl⟩

theorem Apply_disabled_is_noop_witness :
    (evalJobDesc.is_train = false ∨ evalJobDesc.getBool "enable_stage_partition" = .ok false) ∧
    (StagePartitionPass.Apply id (diamondJob []) evalJobDesc (fun _ _ => .ok ⟨"gpu", []⟩)
      { storage := storage73, py_storage := [] }).events = [] ∧
    (StagePartitionPass.Apply id (diamondJob []) evalJobDesc (fun _ _ => .ok ⟨"gpu", []⟩)
      { storage := storage73, py_storage := [] }).result
      = .ok ({ mut_op_confs := [], mut_parallel_confs := [] },
          { storage := storage73, py_storage := [] }) :=
  ⟨Or.inl rfl,
    Apply_disabled_is_noop id (diamondJob []) evalJobDesc (fun _ _ => .ok ⟨"gpu", []⟩)
      { storage := storage73, py_storage := [] } (Or.inl rfl)⟩

theorem NewObj_ok_iff (strategy_name : String) :
    (∃ strategy, NewObj strategy_name = .ok strategy) ↔
      (strategy_name = "disable" ∨ strategy_name = "naive_sequantial") := by
  unfold NewObj registeredStrategies
  by_cases h1 : strategy_name = "disable"
  · subst h1; simp [hmFind]
  · by_cases h2 : strategy_name = "naive_sequantial"
    · subst h2; simp [hmFind]
    · have h1' : ¬ "disable" = strategy_name := fun e => h1 e.symm
      have h2' : ¬ "naive_sequantial" = strategy_name := fun e => h2 e.symm
      simp [hmFind, h1, h2, h1', h2']

/-- C12, as amended. The strategy registry resolves exactly the names `"disable"` and
`"naive_sequantial"`: the first to the strategy whose `Apply` succeeds for every job
without an event, a write or a change of the world, the second to the naive sequential
strategy, whose `Apply` is the algorithm of lines 79-106. -/
theorem registry_resolves_two_names (strategy_name : String) :
    ((∃ strategy, NewObj strategy_name = .ok strategy) ↔
      (strategy_name = "disable" ∨ strategy_name = "naive_sequantial")) ∧
    (strategy_name ≠ "disable" → strategy_name ≠ "naive_sequantial" →
      NewObj strategy_name = .error (.unknownStrategy strategy_name)) ∧
    NewObj "disable" = .ok .DisableStagePartitionStrategy ∧
    NewObj "naive_sequantial" = .ok .NaiveSequantialStagePartitionStrategy ∧
    (∀ (ord : List OpNode → List OpNode) (job : Job) (job_desc : JobDesc)
        (GetParallelDesc : ScopeProto → OperatorConf → Except PassError ParallelConf) (w : World),
      (StagePartitionStragety.DisableStagePartitionStrategy.Apply ord job job_desc
          GetParallelDesc w).events = [] ∧
      (StagePartitionStragety.DisableStagePartitionStrategy.Apply ord job job_desc
          GetParallelDesc w).result = .ok ({ mut_op_confs := [], mut_parallel_confs := [] }, w) ∧
      StagePartitionStragety.NaiveSequantialStagePartitionStrategy.Apply ord job job_desc
          GetParallelDesc w =
        NaiveSequantialStagePartitionStrategy.Apply ord job job_desc GetParallelDesc w) := by
  refine ⟨NewObj_ok_iff strategy_name, ?_, by decide, by decide, ?_⟩
  · intro h1 h2
    have h1' : ¬ "disable" = strategy_name := fun e => h1 e.symm
    have h2' : ¬ "naive_sequantial" = strategy_name := fun e => h2 e.symm
    simp [NewObj, registeredStrategies, hmFind, h1', h2']
  · intro ord job job_desc GetParallelDesc w
    exact ⟨rfl, rfl, rfl⟩

theorem registry_resolves_two_names_witness :
    ("bogus" ≠ "disable") ∧ ("bogus" ≠ "naive_sequantial") ∧
    NewObj "bogus" = .error (.unknownStrategy "bogus") :=
  ⟨by decide, by decide,
    (registry_resolves_two_names "bogus").2.1 (by decide) (by decide)⟩

/-- C12, counterexample to the name: the registry has no strategy under
`"naive_sequential"`; the name registered at line 366 is `"naive_sequantial"`. -/
theorem naive_sequential_is_not_registered :
    NewObj "naive_sequential" = .error (.unknownStrategy "naive_sequential") ∧
    NewObj "naive_sequantial" = .ok .NaiveSequantialStagePartitionStrategy := by
  exact ⟨by decide, by decide⟩

/-- C13. For a training job with the pass enabled whose strategy name is not registered,
`StagePartitionPass::Apply` fails with the error of the unknown strategy; the only
event is the lookup of the name: no op graph is built and no job builder, through
which alone writes are asked, is made. -/
theorem Apply_unknown_strategy (ord : List OpNode → List OpNode) (job : Job) (job_desc : JobDesc)
    (GetParallelDesc : ScopeProto → OperatorConf → Except PassError ParallelConf) (w : World)
    (strategy_name : String)
    (htrain : job_desc.is_train = true)
    (hflag : job_desc.getBool "enable_stage_partition" = .ok true)
    (hname : job_desc.getString "stage_partition_strategy" = .ok strategy_name)
    (hunknown : strategy_name ≠ "disable" ∧ strategy_name ≠ "naive_sequantial") :
    (StagePartitionPass.Apply ord job job_desc GetParallelDesc w).result
      = .error (.unknownStrategy strategy_name) ∧
    (StagePartitionPass.Apply ord job job_desc GetParallelDesc w).events
      = [.strategyLookup strategy_name] ∧
    PassEvent.opGraphNew ∉ (StagePartitionPass.Apply ord job job_desc GetParallelDesc w).events ∧
    PassEvent.jobBuilderNew ∉
      (StagePartitionPass.Apply ord job job_desc GetParallelDesc w).events := by
  have hen : IsEnabled job_desc = .ok true := by
    unfold IsEnabled
    rw [htrain, if_pos rfl, hflag]
  have hnew : NewObj strategy_name = .error (.unknownStrategy strategy_name) := by
    have h1' : ¬ "disable" = strategy_name := fun e => hunknown.1 e.symm
    have h2' : ¬ "naive_sequantial" = strategy_name := fun e => hunknown.2 e.symm
    simp [NewObj, registeredStrategies, hmFind, h1', h2']
  unfold StagePartitionPass.Apply
  simp only [hen, hname, hnew]
  refine ⟨trivial, trivial, ?_, ?_⟩ <;> simp

theorem Apply_unknown_strategy_witness :
    ((trainJobDesc "bogus").is_train = true) ∧
    ((trainJobDesc "bogus").getBool "enable_stage_partition" = .ok true) ∧
    ((trainJobDesc "bogus").getString "stage_partition_strategy" = .ok "bogus") ∧
    ("bogus" ≠ "disable" ∧ "bogus" ≠ "naive_sequantial") ∧
    (StagePartitionPass.Apply id (diamondJob []) (trainJobDesc "bogus") (fun _ _ => .ok ⟨"gpu", []⟩)
      { storage := storage73, py_storage := [] }).result = .error (.unknownStrategy "bogus") ∧
    (StagePartitionPass.Apply id (diamondJob []) (trainJobDesc "bogus") (fun _ _ => .ok ⟨"gpu", []⟩)
      { storage := storage73, py_storage := [] }).events = [.strategyLookup "bogus"] ∧
    PassEvent.opGraphNew ∉
      (StagePartitionPass.Apply id (diamondJob []) (trainJobDesc "bogus") (fun _ _ => .ok ⟨"gpu", []⟩)
        { storage := storage73, py_storage := [] }).events ∧
    PassEvent.jobBuilderNew ∉
      (StagePartitionPass.Apply id (diamondJob []) (trainJobDesc "bogus") (fun _ _ => .ok ⟨"gpu", []⟩)
        { storage := storage73, py_storage := [] }).events :=
  ⟨by decide, by decide, by decide, by decide,
    Apply_unknown_strategy id (diamondJob []) (trainJobDesc "bogus") (fun _ _ => .ok ⟨"gpu", []⟩)
      { storage := storage73, py_storage := [] } "bogus" (by decide) (by decide) (by decide)
      (by decide)⟩

/-! ## The rewrite of the ops -/

theorem mem_stageCalls (tbl : List (Nat × Nat)) (ids : List Int) (groups : List (List OpNode)) :
    ∀ (d0 : Nat) (call : OpNode × Int),
      call ∈ stageCalls tbl ids groups d0 ↔
        ∃ i vec, groups[i]? = some vec ∧ call.1 ∈ vec ∧
          call.2 = ids.getD ((hmFind tbl (d0 + i)).getD 0) 0 := by
  induction groups with
  | nil => intro d0 call; simp [stageCalls]
  | cons vec rest ih =>
    intro d0 call
    simp only [stageCalls, List.mem_append, List.mem_map, ih]
    constructor
    · rintro (⟨op, hop, hcall⟩ | ⟨i, v, hi, hmem, hsc⟩)
      · subst hcall
        exact ⟨0, vec, by simp, hop, by simp⟩
      · refine ⟨i + 1, v, by simpa using hi, hmem, ?_⟩
        rw [hsc, show d0 + 1 + i = d0 + (i + 1) by omega]
    · rintro ⟨i, v, hi, hmem, hsc⟩
      cases i with
      | zero =>
        simp only [List.getElem?_cons_zero, Option.some.injEq] at hi
        subst hi
        refine Or.inl ⟨call.1, hmem, ?_⟩
        rw [Nat.add_zero] at hsc
        rw [← hsc]
      | succ j =>
        refine Or.inr ⟨j, v, by simpa using hi, hmem, ?_⟩
        rw [hsc, show d0 + 1 + j = d0 + (j + 1) by omega]

theorem forEachFusedVec_calls (tbl : List (Nat × Nat)) (ids : List Int)
    (groups : List (List OpNode)) :
    ∀ d, (∀ i, i < groups.length → ∃ s, Stage4Depth tbl (d + i) = .ok s ∧ s < ids.length) →
      ∀ (τ : Type) (H : OpNode → Int → τ → Except PassError τ) (t : τ),
        forEachFusedVec tbl ids H (groups.map some) d t
          = applyCalls H (stageCalls tbl ids groups d) t := by
  induction groups with
  | nil => intro d _ τ H t; rfl
  | cons vec rest ih =>
    intro d hd τ H t
    obtain ⟨s, hs, hlt⟩ := hd 0 (by simp)
    rw [Nat.add_zero] at hs
    have hfind : hmFind tbl d = some s := (Stage4Depth_ok _ _ _).1 hs
    have hrest := ih (d + 1) (by
      intro i hi
      have := hd (i + 1) (by simp; omega)
      rw [show d + 1 + i = d + (i + 1) by omega]
      exact this)
    have hget : ids.getD s 0 = ids[s] := by
      rw [List.getD_eq_getElem?_getD, List.getElem?_eq_getElem hlt]
      rfl
    simp only [stageCalls, hfind, Option.getD_some, hget]
    rw [forEachOp_eq H ids[s] vec _ t]
    simp only [List.map_cons, forEachFusedVec, hs, VectorAt, List.getElem?_eq_getElem hlt]
    cases forEachOp H ids[s] vec t with
    | error e => rfl
    | ok t1 => exact hrest τ H t1

theorem applyCalls_ok_mem {τ : Type} (H : OpNode → Int → τ → Except PassError τ)
    (calls : List (OpNode × Int)) :
    ∀ (t t1 : τ), applyCalls H calls t = .ok t1 →
      ∀ call, call ∈ calls → ∃ t2 t3, H call.1 call.2 t2 = .ok t3 := by
  induction calls with
  | nil => intro t t1 _ call h; cases h
  | cons c rest ih =>
    intro t t1 h call hmem
    simp only [applyCalls] at h
    cases hc : H c.1 c.2 t with
    | error e => simp [hc] at h
    | ok t2 =>
      simp only [hc] at h
      rcases List.mem_cons.1 hmem with hm | hm
      · subst hm; exact ⟨t, t2, hc⟩
      · exact ih t2 t1 h call hm

theorem GetStageDepth2Stage_pos (seq : List (Option (List OpNode))) (K : Nat)
    (tbl : List (Nat × Nat)) (h : GetStageDepth2Stage seq K = .ok tbl) : 1 ≤ K := by
  by_contra hK
  have h0 : K = 0 := by omega
  subst h0
  unfold GetStageDepth2Stage at h
  cases hs : groupSizes seq with
  | none => simp [hs] at h
  | some sizes =>
    simp only [hs] at h
    unfold depth2stageOfSizes at h
    cases sizes with
    | nil => simp [walk, walkInit] at h
    | cons x rest =>
      have : walk (expectedTable (x :: rest) 0) walkInit (x :: rest) = .error .outOfRange := by
        simp [walk, walkStep, walkInit, expectedTable, stage2expected_num_ops_from_start]
      rw [this] at h
      cases h

theorem MutOpsOnlyOnce_single (job_builder job_builder1 : JobBuilder) (op_conf : OperatorConf)
    (h : job_builder.MutOpsOnlyOnce [op_conf] = .ok job_builder1) :
    job_builder1.mut_op_confs = job_builder.mut_op_confs ++ [op_conf] ∧
    job_builder1.mut_parallel_confs = job_builder.mut_parallel_confs := by
  simp only [JobBuilder.MutOpsOnlyOnce] at h
  split at h
  · cases h
  · injection h with h
    subst h
    exact ⟨rfl, rfl⟩

theorem MutParallelConfOnlyOnce_ok (job_builder job_builder1 : JobBuilder) (op_name : String)
    (parallel_conf : ParallelConf)
    (h : job_builder.MutParallelConfOnlyOnce op_name parallel_conf = .ok job_builder1) :
    job_builder1.mut_op_confs = job_builder.mut_op_confs ∧
    job_builder1.mut_parallel_confs = job_builder.mut_parallel_confs ++ [(op_name, parallel_conf)] := by
  unfold JobBuilder.MutParallelConfOnlyOnce at h
  split at h
  · cases h
  · injection h with h
    subst h
    exact ⟨rfl, rfl⟩

theorem rewriteOp_ok (job : Job)
    (GetParallelDesc : ScopeProto → OperatorConf → Except PassError ParallelConf)
    (op_node : OpNode) (stage_scope_symbol_id : Int) (st st1 : ApplyState) (old_scope : Int)
    (hscope : (job.op_conf op_node).scope_symbol_id = some old_scope)
    (h : rewriteOp job GetParallelDesc op_node stage_scope_symbol_id st = .ok st1) :
    ∃ merged merged_scope parallel_conf,
      GetMergedScopeSymbolId st.merger old_scope stage_scope_symbol_id = (.ok merged, st1.merger) ∧
      st1.merger.world.storage.MaybeGet merged = .ok merged_scope ∧
      GetParallelDesc merged_scope
        { job.op_conf op_node with scope_symbol_id := some merged } = .ok parallel_conf ∧
      st1.job_builder.mut_op_confs = st.job_builder.mut_op_confs ++
        [{ job.op_conf op_node with scope_symbol_id := some merged }] ∧
      st1.job_builder.mut_parallel_confs = st.job_builder.mut_parallel_confs ++
        [((job.op_conf op_node).name, parallel_conf)] := by
  unfold rewriteOp at h
  simp only [hscope] at h
  cases hm : GetMergedScopeSymbolId st.merger old_scope stage_scope_symbol_id with
  | mk res merger =>
    rw [hm] at h
    cases res with
    | error e => simp at h
    | ok merged =>
      simp only at h
      cases hget : merger.world.storage.MaybeGet merged with
      | error e => simp [hget] at h
      | ok merged_scope =>
        simp only [hget] at h
        cases hmut : st.job_builder.MutOpsOnlyOnce
            [{ job.op_conf op_node with scope_symbol_id := some merged }] with
        | error e => simp [hmut] at h
        | ok b1 =>
          simp only [hmut] at h
          cases hpd : GetParallelDesc merged_scope
              { job.op_conf op_node with scope_symbol_id := some merged } with
          | error e => simp [hpd] at h
          | ok parallel_conf =>
            simp only [hpd] at h
            cases hmp : b1.MutParallelConfOnlyOnce (job.op_conf op_node).name parallel_conf with
            | error e => simp [hmp] at h
            | ok b2 =>
              simp only [hmp] at h
              injection h with h
              subst h
              obtain ⟨h1, h2⟩ := MutOpsOnlyOnce_single _ _ _ hmut
              obtain ⟨h3, h4⟩ := MutParallelConfOnlyOnce_ok _ _ _ _ hmp
              exact ⟨merged, merged_scope, parallel_conf, rfl, hget, hpd, by rw [h3, h1],
                by rw [h4, h2]⟩

/-- C16. The handler of the naive sequential strategy fails for an op whose operator
configuration has no `scope_symbol_id`; when it succeeds for an op with scope `cur` and
stage scope `sc`, the getter has returned the merged id of `(cur, sc)` and the operator
configuration written is the old one with only `scope_symbol_id` replaced by that id.
When the sequential order and the depth table are built, the run of the strategy is
the sequence of handler calls `stageCalls`, in which an op of the group at depth `d` is
passed with the scope id `stage_partition_scope_ids[Stage4Depth(d)]`, the same for all
ops of the group; a run that handles an op without scope fails. -/
theorem Apply_rewrites_scope (ord : List OpNode → List OpNode) (job : Job) (job_desc : JobDesc)
    (GetParallelDesc : ScopeProto → OperatorConf → Except PassError ParallelConf) (w : World)
    (scope_ids : List Int) (groups : List (List OpNode)) (depth2stage : List (Nat × Nat))
    (hids : job_desc.getListInt64 "stage_partition_scope_ids" = .ok scope_ids)
    (hseq : GetSequantialTrainableFwOps ord job.op_graph job.NeedBackwardOp
      = .ok (groups.map some))
    (htbl : GetStageDepth2Stage (groups.map some) scope_ids.length = .ok depth2stage) :
    (∀ op_node stage_scope_symbol_id st,
      (job.op_conf op_node).scope_symbol_id = none →
        rewriteOp job GetParallelDesc op_node stage_scope_symbol_id st
          = .error (.checkFailed 88)) ∧
    (∀ op_node stage_scope_symbol_id st st1 cur,
      (job.op_conf op_node).scope_symbol_id = some cur →
      rewriteOp job GetParallelDesc op_node stage_scope_symbol_id st = .ok st1 →
        ∃ merged,
          GetMergedScopeSymbolId st.merger cur stage_scope_symbol_id = (.ok merged, st1.merger) ∧
          st1.job_builder.mut_op_confs = st.job_builder.mut_op_confs ++
            [{ job.op_conf op_node with scope_symbol_id := some merged }]) ∧
    (NaiveSequantialStagePartitionStrategy.Apply ord job job_desc GetParallelDesc w).result =
      (match applyCalls (rewriteOp job GetParallelDesc)
          (stageCalls depth2stage scope_ids groups 0) (applyInit w) with
        | .error e => .error e
        | .ok st => .ok (st.job_builder, st.merger.world)) ∧
    (∀ call, call ∈ stageCalls depth2stage scope_ids groups 0 ↔
      ∃ depth vec stage, groups[depth]? = some vec ∧ call.1 ∈ vec ∧
        Stage4Depth depth2stage depth = .ok stage ∧ VectorAt scope_ids stage = .ok call.2) ∧
    ((∃ call, call ∈ stageCalls depth2stage scope_ids groups 0 ∧
        (job.op_conf call.1).scope_symbol_id = none) →
      ∃ e, (NaiveSequantialStagePartitionStrategy.Apply ord job job_desc GetParallelDesc w).result
        = .error e) := by
  have hK : 1 ≤ scope_ids.length := GetStageDepth2Stage_pos _ _ _ htbl
  have hdef := Stage4Depth_defined groups _ depth2stage hK htbl
  have hnone : ∀ op_node stage_scope_symbol_id st,
      (job.op_conf op_node).scope_symbol_id = none →
        rewriteOp job GetParallelDesc op_node stage_scope_symbol_id st
          = .error (.checkFailed 88) := by
    intro op_node sc st h
    unfold rewriteOp
    simp only [h]
  have hrun : (NaiveSequantialStagePartitionStrategy.Apply ord job job_desc GetParallelDesc
      w).result =
      (match applyCalls (rewriteOp job GetParallelDesc)
          (stageCalls depth2stage scope_ids groups 0) (applyInit w) with
        | .error e => .error e
        | .ok st => .ok (st.job_builder, st.merger.world)) := by
    unfold NaiveSequantialStagePartitionStrategy.Apply ForEachStageScope4TrainableFwOp
      GetStagePartitionScopeIds
    simp only [hids, hseq, if_pos (show scope_ids.length > 0 from hK), htbl]
    rw [forEachFusedVec_calls depth2stage scope_ids groups 0 (by
      intro i hi
      rw [Nat.zero_add]
      exact hdef i hi)]
  refine ⟨hnone, ?_, hrun, ?_, ?_⟩
  · intro op_node sc st st1 cur hcur h
    obtain ⟨merged, _, _, h1, _, _, h2, _⟩ := rewriteOp_ok job GetParallelDesc op_node sc st st1
      cur hcur h
    exact ⟨merged, h1, h2⟩
  · intro call
    rw [mem_stageCalls]
    constructor
    · rintro ⟨i, vec, hi, hmem, hsc⟩
      have hlt : i < groups.length := by
        by_contra hge
        rw [List.getElem?_eq_none (by omega)] at hi
        cases hi
      obtain ⟨s, hs, hslt⟩ := hdef i hlt
      refine ⟨i, vec, s, hi, hmem, hs, ?_⟩
      rw [Nat.zero_add, (Stage4Depth_ok _ _ _).1 hs, Option.getD_some] at hsc
      rw [hsc]
      simp only [VectorAt, List.getElem?_eq_getElem hslt, List.getD_eq_getElem?_getD,
        Option.getD_some]
    · rintro ⟨i, vec, s, hi, hmem, hs, hv⟩
      refine ⟨i, vec, hi, hmem, ?_⟩
      rw [Nat.zero_add, (Stage4Depth_ok _ _ _).1 hs, Option.getD_some]
      unfold VectorAt at hv
      cases hget : scope_ids[s]? with
      | none => simp [hget] at hv
      | some x =>
        simp only [hget] at hv
        injection hv with hv
        rw [List.getD_eq_getElem?_getD, hget, Option.getD_some, hv]
  · rintro ⟨call, hmem, hno⟩
    rw [hrun]
    cases happ : applyCalls (rewriteOp job GetParallelDesc)
        (stageCalls depth2stage scope_ids groups 0) (applyInit w) with
    | error e => exact ⟨e, rfl⟩
    | ok st =>
      exfalso
      obtain ⟨t2, t3, h23⟩ := applyCalls_ok_mem _ _ _ _ happ call hmem
      rw [hnone call.1 call.2 t2 hno] at h23
      cases h23

theorem Apply_rewrites_scope_witness :
    ((trainJobDesc "naive_sequantial").getListInt64 "stage_partition_scope_ids" = .ok [3, 3]) ∧
    (GetSequantialTrainableFwOps id (diamondJob [4]).op_graph (diamondJob [4]).NeedBackwardOp
      = .ok ([[3, 1, 2, 0], [4]].map some)) ∧
    (GetStageDepth2Stage ([[3, 1, 2, 0], [4]].map some) ([3, 3] : List Int).length
      = .ok [(0, 0), (1, 1)]) ∧
    ((NaiveSequantialStagePartitionStrategy.Apply id (diamondJob [])
        (trainJobDesc "naive_sequantial") (fun _ _ => .ok ⟨"gpu", []⟩)
        { storage := storage73, py_storage := [] }).result.map (fun p => p.1.mut_op_confs)
      = .ok [⟨"op3", some 8, []⟩, ⟨"op1", some 8, []⟩, ⟨"op2", some 8, []⟩, ⟨"op0", some 8, []⟩,
             ⟨"op4", some 8, []⟩]) ∧
    (∃ call, call ∈ stageCalls [(0, 0), (1, 1)] [3, 3] [[3, 1, 2, 0], [4]] 0 ∧
      ((diamondJob [4]).op_conf call.1).scope_symbol_id = none) ∧
    (∃ e, (NaiveSequantialStagePartitionStrategy.Apply id (diamondJob [4])
        (trainJobDesc "naive_sequantial") (fun _ _ => .ok ⟨"gpu", []⟩)
        { storage := storage73, py_storage := [] }).result = .error e) :=
  ⟨by decide, by decide, by decide, by decide, ⟨(4, 3), by decide, by decide⟩,
    (Apply_rewrites_scope id (diamondJob [4]) (trainJobDesc "naive_sequantial")
      (fun _ _ => .ok ⟨"gpu", []⟩) { storage := storage73, py_storage := [] } [3, 3]
      [[3, 1, 2, 0], [4]] [(0, 0), (1, 1)] (by decide) (by decide) (by decide)).2.2.2.2
      ⟨(4, 3), by decide, by decide⟩⟩

/-! ## Fused ops and their backbone op -/

theorem GroupPath_mono (g : OpGraph) (m m1 : List (OpNode × OpNode)) (b x : OpNode)
    (hsub : ∀ k v, hmFind m k = some v → hmFind m1 k = some v) (h : GroupPath g m b x) :
    GroupPath g m1 b x := by
  induction h with
  | start => exact GroupPath.start
  | step u v _ hv hf ih => exact GroupPath.step u v ih hv (hsub v b hf)

theorem FusePathInv_step (g : OpGraph) (backbone : List OpNode) (b : OpNode) (hb : b ∈ backbone)
    (m0 : List (OpNode × OpNode)) (cur : OpNode) (rest queued : List OpNode)
    (m : List (OpNode × OpNode)) (h : FusePathInv g backbone b m0 (cur :: rest) queued m) :
    FusePathInv g backbone b m0
      ((ForEachOtherNext g backbone (if cur ∈ backbone then m else hmSet m cur b) cur).foldl
        enqueue (rest, queued)).1
      ((ForEachOtherNext g backbone (if cur ∈ backbone then m else hmSet m cur b) cur).foldl
        enqueue (rest, queued)).2
      (if cur ∈ backbone then m else hmSet m cur b) := by
  obtain ⟨hqd, hq, hsub, h0, hnew, hqueue⟩ := h
  have hcur_rest : cur ∉ rest := (List.nodup_cons.1 hq).1
  have hrest_nd : rest.Nodup := (List.nodup_cons.1 hq).2
  -- the map after the handler extends the map before it, and `cur` is linked to `b`
  have key : (∀ k v, hmFind m k = some v →
        hmFind (if cur ∈ backbone then m else hmSet m cur b) k = some v) ∧
      GroupPath g (if cur ∈ backbone then m else hmSet m cur b) b cur ∧
      (∀ k v, hmFind (if cur ∈ backbone then m else hmSet m cur b) k = some v →
        hmFind m k = some v ∨ (k = cur ∧ v = b)) := by
    by_cases hc : cur ∈ backbone
    · simp only [if_pos hc]
      refine ⟨fun _ _ h => h, ?_, fun _ _ h => Or.inl h⟩
      rcases hqueue cur (List.mem_cons_self _ _) with h | h
      · rw [h]; exact GroupPath.start
      · exact absurd hc h.1
    · simp only [if_neg hc]
      have hcb : cur ≠ b := fun e => hc (e ▸ hb)
      rcases hqueue cur (List.mem_cons_self _ _) with h | ⟨_, hnone, u, hu, huv⟩
      · exact absurd h hcb
      · have hext : ∀ k v, hmFind m k = some v → hmFind (hmSet m cur b) k = some v := by
          intro k v hk
          rw [hmFind_hmSet]
          by_cases hck : cur = k
          · subst hck; rw [hnone] at hk; cases hk
          · rw [if_neg hck]; exact hk
        refine ⟨hext, ?_, ?_⟩
        · exact GroupPath.step u cur (GroupPath_mono g m _ b u hext hu) huv
            (by rw [hmFind_hmSet, if_pos rfl])
        · intro k v hk
          rw [hmFind_hmSet] at hk
          by_cases hck : cur = k
          · rw [if_pos hck] at hk
            injection hk with hk
            exact Or.inr ⟨hck.symm, hk.symm⟩
          · rw [if_neg hck] at hk
            exact Or.inl hk
  obtain ⟨hext, hpath, hback⟩ := key
  generalize (if cur ∈ backbone then m else hmSet m cur b) = m1 at hext hpath hback ⊢
  obtain ⟨added, ha1, ha2, ha3⟩ := enqueue_fold_added (ForEachOtherNext g backbone m1 cur)
    (rest, queued)
  rw [ha1]
  have hnd2 := ha3 hqd
  refine ⟨hnd2, ?_, ?_, ?_, ?_, ?_⟩
  · rw [List.nodup_append]
    refine ⟨hrest_nd, (List.nodup_append.1 hnd2).2.1, ?_⟩
    intro a h1 h2
    exact (ha2 a h2).2 (hsub a (List.mem_cons_of_mem _ h1))
  · intro x hx
    rcases List.mem_append.1 hx with hx | hx
    · exact List.mem_append_left _ (hsub x (List.mem_cons_of_mem _ hx))
    · exact List.mem_append_right _ hx
  · intro k v hk
    exact hext k v (h0 k v hk)
  · intro k v hk
    rcases hback k v hk with hk | ⟨hk1, hk2⟩
    · rcases hnew k v hk with h | ⟨h1, h2⟩
      · exact Or.inl h
      · exact Or.inr ⟨h1, GroupPath_mono g m m1 b k hext h2⟩
    · subst hk1; subst hk2
      exact Or.inr ⟨rfl, hpath⟩
  · intro x hx
    rcases List.mem_append.1 hx with hx | hx
    · rcases hqueue x (List.mem_cons_of_mem _ hx) with h | ⟨h1, h2, u, hu, huv⟩
      · exact Or.inl h
      · refine Or.inr ⟨h1, ?_, u, GroupPath_mono g m m1 b u hext hu, huv⟩
        cases hf : hmFind m1 x with
        | none => rfl
        | some v =>
          rcases hback x v hf with h | ⟨h, _⟩
          · rw [h2] at h; cases h
          · subst h; exact absurd hx hcur_rest
    · have hx2 := (ha2 x hx).1
      unfold ForEachOtherNext at hx2
      simp only [List.mem_filter, Bool.and_eq_true, Bool.not_eq_true', decide_eq_false_iff_not,
        Option.isNone_iff_eq_none] at hx2
      exact Or.inr ⟨hx2.2.1, hx2.2.2, cur, hpath, hx2.1⟩

theorem fuseFrom_paths (g : OpGraph) (backbone : List OpNode) (b : OpNode) (hb : b ∈ backbone)
    (m m1 : List (OpNode × OpNode)) (h : fuseFrom g backbone b m = .ok m1)
    (inv : PathInv g m) : PathInv g m1 := by
  unfold fuseFrom at h
  obtain ⟨_, _, _, _, hsub, hnew, _⟩ := BfsForEachNode_inv g [b] (ForEachOtherNext g backbone)
    (fun other m => if other ∈ backbone then m else hmSet m other b) m m1
    (FusePathInv g backbone b m)
    (fun cur rest queued s hs => FusePathInv_step g backbone b hb m cur rest queued s hs)
    h
    (by
      have h1 : ([b].foldl enqueue ([], [])) = ([b], [b]) := by simp [enqueue]
      rw [h1]
      refine ⟨by simp, by simp, fun x hx => hx, fun _ _ h => h, fun _ _ h => Or.inl h, ?_⟩
      intro x hx
      exact Or.inl (List.mem_singleton.1 hx))
  intro k v hk
  rcases hnew k v hk with h0 | ⟨h1, h2⟩
  · exact GroupPath_mono g m m1 v k hsub (inv k v h0)
  · subst h1; exact h2

/-- The fusion links every op it claims to the backbone op it is mapped to by an
undirected path inside that op's group. -/
theorem FuseOtherFwOpsToBackboneOps_paths (ord : List OpNode → List OpNode) (g : OpGraph)
    (backbone : List OpNode) (other : List (OpNode × OpNode)) (hord : ∀ l, (ord l).Perm l)
    (h : FuseOtherFwOpsToBackboneOps ord g backbone = .ok other) : PathInv g other := by
  unfold FuseOtherFwOpsToBackboneOps BfsForEachBackboneOp at h
  simp only at h
  split at h
  · cases h
  · rename_i s hbfs
    subst h
    obtain ⟨_, _, m, hm, hinv⟩ := BfsForEachNode_inv g _ _ _ _ _
      (fun queue _ s => (∀ x, x ∈ queue → x ∈ backbone) ∧ ∃ m, s = .ok m ∧ PathInv g m)
      (by
        rintro cur rest queued s ⟨hq, m, hs, hinv⟩
        subst hs
        have hcur : cur ∈ backbone := hq cur (List.mem_cons_self _ _)
        refine ⟨?_, ?_⟩
        · intro x hx
          rcases (enqueue_fold_mem_queue _ _ _).1 hx with hx | hx
          · exact hq x (List.mem_cons_of_mem _ hx)
          · have := hx.1
            simp only [List.mem_filter, decide_eq_true_eq] at this
            exact this.2
        · obtain ⟨m1, hm1⟩ := fuseFrom_ok g backbone cur m
          exact ⟨m1, hm1, fuseFrom_paths g backbone cur hcur m m1 hm1 hinv⟩)
      hbfs
      (by
        refine ⟨?_, [], rfl, ?_⟩
        · intro x hx
          rw [enqueue_starts_queue] at hx
          exact ((hord backbone).mem_iff).1 (List.mem_filter.1 hx).1
        · intro k b hk
          simp [hmFind] at hk)
    injection hm with hm
    subst hm
    exact hinv

/-! ## The sequential order is the reversed visit order -/

/-- Two traversals that enumerate the same neighbours after every pop take the same
nodes out of the queue: a relation between their states that the handlers preserve
holds at the end, and the second traversal ends when the first one does. -/
theorem bfsLoop_sim {σ τ : Type} (next1 : σ → OpNode → List OpNode) (H1 : OpNode → σ → σ)
    (next2 : τ → OpNode → List OpNode) (H2 : OpNode → τ → τ)
    (P : List OpNode → List OpNode → σ → τ → Prop)
    (hstep : ∀ cur rest queued s t, P (cur :: rest) queued s t →
      next2 (H2 cur t) cur = next1 (H1 cur s) cur ∧
      P ((next1 (H1 cur s) cur).foldl enqueue (rest, queued)).1
        ((next1 (H1 cur s) cur).foldl enqueue (rest, queued)).2 (H1 cur s) (H2 cur t)) :
    ∀ fuel queue queued s t r, bfsLoop next1 H1 fuel queue queued s = .ok r →
      P queue queued s t →
      ∃ r2 queued1, bfsLoop next2 H2 fuel queue queued t = .ok r2 ∧ P [] queued1 r r2 := by
  intro fuel
  induction fuel with
  | zero =>
    intro queue queued s t r h hP
    cases queue with
    | nil =>
      simp only [bfsLoop] at h
      injection h with h
      subst h
      exact ⟨t, queued, by simp only [bfsLoop], hP⟩
    | cons cur rest => simp [bfsLoop] at h
  | succ fuel ih =>
    intro queue queued s t r h hP
    cases queue with
    | nil =>
      simp only [bfsLoop] at h
      injection h with h
      subst h
      exact ⟨t, queued, by simp only [bfsLoop], hP⟩
    | cons cur rest =>
      simp only [bfsLoop] at h
      obtain ⟨hn, hP1⟩ := hstep cur rest queued s t hP
      obtain ⟨r2, queued1, h2, hP2⟩ := ih _ _ _ (H2 cur t) r h hP1
      refine ⟨r2, queued1, ?_, hP2⟩
      simp only [bfsLoop]
      rw [hn]
      exact h2

theorem seqForEachIn_keys (g : OpGraph) (m0 : List (OpNode × Option (List OpNode)))
    (st : SeqState) (hk : st.backbone_op2fused_ops.map Prod.fst = m0.map Prod.fst)
    (node : OpNode) :
    seqForEachIn g (.ok st) node =
      seqForEachIn g (.ok { backbone_op2fused_ops := m0, sequantial_trainable_fw_ops := [] })
        node := by
  simp only [seqForEachIn]
  apply List.filter_congr
  intro x _
  have h1 := hmFind_isSome_iff st.backbone_op2fused_ops x
  have h2 := hmFind_isSome_iff m0 x
  rw [hk] at h1
  cases ha : (hmFind st.backbone_op2fused_ops x).isSome <;>
    cases hb : (hmFind m0 x).isSome <;> simp_all

theorem SeqOrderInv_step (g : OpGraph) (m0 : List (OpNode × Option (List OpNode)))
    (starts : List OpNode) (cur : OpNode) (rest queued : List OpNode)
    (s : Except PassError SeqState) (order : List OpNode)
    (h : SeqOrderInv g m0 starts (cur :: rest) queued s order) :
    seqForEachIn g (.ok { backbone_op2fused_ops := m0, sequantial_trainable_fw_ops := [] }) cur =
      seqForEachIn g (moveToFront cur s) cur ∧
    SeqOrderInv g m0 starts
      ((seqForEachIn g (moveToFront cur s) cur).foldl enqueue (rest, queued)).1
      ((seqForEachIn g (moveToFront cur s) cur).foldl enqueue (rest, queued)).2
      (moveToFront cur s) (order ++ [cur]) := by
  obtain ⟨hinv, hst, hcl, hhead, hfirst⟩ := h
  have hstep := SeqInv_step g m0 cur order rest queued s hinv
  have hstep2 := hstep
  obtain ⟨st1, hs1, _, _, _, hk1, _, _⟩ := hstep2
  have hnext := seqForEachIn_keys g m0 st1 hk1 cur
  rw [← hs1] at hnext
  refine ⟨hnext.symm, hstep, ?_, ?_, ?_, ?_⟩
  · intro x hx
    rw [enqueue_fold_mem_queued]
    exact Or.inl (hst x hx)
  · intro u v hu hvu hv
    rw [enqueue_fold_mem_queued]
    rcases List.mem_append.1 hu with hu | hu
    · exact Or.inl (hcl u v hu hvu hv)
    · simp only [List.mem_singleton] at hu
      subst hu
      right
      rw [hnext]
      simp only [seqForEachIn, List.mem_filter]
      exact ⟨(mem_inNodes g v u).2 hvu, (hmFind_isSome_iff m0 v).2 hv⟩
  · intro b0 hb0
    cases order with
    | nil =>
      simp only [List.nil_append, List.head?_cons, Option.mem_def, Option.some.injEq] at hb0
      subst hb0
      exact hfirst rfl _ (List.mem_cons_self _ _)
    | cons a l =>
      simp only [List.cons_append, List.head?_cons, Option.mem_def, Option.some.injEq] at hb0
      subst hb0
      exact hhead _ (by simp)
  · intro he
    simp at he

theorem mem_le_sum (l : List Nat) (x : Nat) (h : x ∈ l) : x ≤ l.sum := by
  induction l with
  | nil => cases h
  | cons a l ih =>
    rw [List.sum_cons]
    rcases List.mem_cons.1 h with h | h
    · subst h; omega
    · have := ih h; omega

theorem mem_sinkStarts (ord : List OpNode → List OpNode) (g : OpGraph)
    (m0 : List (OpNode × Option (List OpNode))) (hord : ∀ l, (ord l).Perm l) (k : OpNode) :
    k ∈ sinkStarts ord g m0 ↔
      k ∈ m0.map Prod.fst ∧ ∀ v, (k, v) ∈ g.edges → v ∉ m0.map Prod.fst := by
  unfold sinkStarts
  simp only [hmIter_keys ord m0 hord, List.mem_filter, (hord _).mem_iff, decide_eq_true_eq,
    List.length_eq_zero, List.filter_eq_nil_iff, mem_outNodes]
  constructor
  · rintro ⟨h1, h2⟩
    refine ⟨h1, fun v hv hk => ?_⟩
    exact h2 v hv ((hmFind_isSome_iff m0 v).2 hk)
  · rintro ⟨h1, h2⟩
    refine ⟨h1, fun v hv hk => ?_⟩
    exact h2 v hv ((hmFind_isSome_iff m0 v).1 hk)

/-- In a graph whose edges go up along `rank`, a set of keys that holds the keys
without an edge to a key, and with a key every key that has an edge to it, holds all
the keys. -/
theorem closed_covers (g : OpGraph) (keys order : List OpNode) (rank : OpNode → Nat)
    (hacyclic : ∀ e, e ∈ g.edges → rank e.1 < rank e.2)
    (hsink : ∀ k, k ∈ keys → (∀ v, (k, v) ∈ g.edges → v ∉ keys) → k ∈ order)
    (hcl : ∀ u v, u ∈ order → (v, u) ∈ g.edges → v ∈ keys → v ∈ order) :
    ∀ k, k ∈ keys → k ∈ order := by
  have key : ∀ n k, k ∈ keys → (g.edges.map (fun e => rank e.2)).sum + 1 - rank k ≤ n →
      k ∈ order := by
    intro n
    induction n with
    | zero =>
      intro k hk hn
      apply hsink k hk
      intro v hv _
      have h1 := hacyclic (k, v) hv
      have h2 := mem_le_sum (g.edges.map (fun e => rank e.2)) (rank v)
        (List.mem_map.2 ⟨(k, v), hv, rfl⟩)
      simp only at h1
      omega
    | succ n ih =>
      intro k hk hn
      by_cases hs : ∀ v, (k, v) ∈ g.edges → v ∉ keys
      · exact hsink k hk hs
      · push_neg at hs
        obtain ⟨v, hv, hvk⟩ := hs
        have h1 := hacyclic (k, v) hv
        have h2 := mem_le_sum (g.edges.map (fun e => rank e.2)) (rank v)
          (List.mem_map.2 ⟨(k, v), hv, rfl⟩)
        simp only at h1
        exact hcl v k (ih v hvk (by omega)) hv hk
  intro k hk
  exact key _ k hk (le_refl _)

theorem filterMap_hmFind_keys {ν : Type} (m : List (OpNode × ν))
    (hnd : (m.map Prod.fst).Nodup) :
    (m.map Prod.fst).filterMap (fun k => hmFind m k) = m.map Prod.snd := by
  have key : ∀ l : List (OpNode × ν), (∀ p, p ∈ l → p ∈ m) →
      (l.map Prod.fst).filterMap (fun k => hmFind m k) = l.map Prod.snd := by
    intro l
    induction l with
    | nil => intro _; rfl
    | cons p l ih =>
      intro hl
      obtain ⟨k, v⟩ := p
      have := hmFind_of_mem m k v (hl _ (List.mem_cons_self _ _)) hnd
      simp only [List.map_cons, List.filterMap_cons, this]
      rw [ih (fun p hp => hl p (List.mem_cons_of_mem _ hp))]
  exact key m (fun _ hp => hp)

/-- With edges that go up along `rank`, the traversal of `sequantialize` pops every key
of the map exactly once, in the order of the recording traversal from the same starts,
and its list holds the vectors of the keys in the reverse of that order. -/
theorem sequantialize_order (ord : List OpNode → List OpNode) (g : OpGraph)
    (m0 : List (OpNode × Option (List OpNode))) (hord : ∀ l, (ord l).Perm l)
    (hnd : (m0.map Prod.fst).Nodup) (rank : OpNode → Nat)
    (hacyclic : ∀ e, e ∈ g.edges → rank e.1 < rank e.2) :
    ∃ order : List OpNode,
      visitOrder g (sinkStarts ord g m0)
        (seqForEachIn g (.ok { backbone_op2fused_ops := m0
                               sequantial_trainable_fw_ops := [] })) = .ok order ∧
      order.Perm (m0.map Prod.fst) ∧
      sequantialize ord g m0 = .ok (order.reverse.filterMap (fun k => hmFind m0 k)) ∧
      ∀ b0, b0 ∈ order.head? → b0 ∈ sinkStarts ord g m0 := by
  obtain ⟨r, hr⟩ := BfsForEachNode_ok g (sinkStarts ord g m0) (seqForEachIn g) moveToFront
    (.ok { backbone_op2fused_ops := m0, sequantial_trainable_fw_ops := [] })
    (by
      intro s u v hv
      cases s with
      | error e => simp [seqForEachIn] at hv
      | ok st =>
        simp only [seqForEachIn, List.mem_filter] at hv
        exact (mem_endpoints_of_edge g v u ((mem_inNodes g v u).1 hv.1)).1)
  have hr0 := hr
  unfold OpGraph.BfsForEachNode at hr0
  obtain ⟨order, queued1, hvis, ⟨st, hs, hperm, hnq, hkeys, _, _, hseq⟩, hst, hcl, hhead, _⟩ :=
    bfsLoop_sim (seqForEachIn g) moveToFront
      (fun (_ : List OpNode) node =>
        seqForEachIn g (.ok { backbone_op2fused_ops := m0, sequantial_trainable_fw_ops := [] })
          node)
      (fun node visited => visited ++ [node])
      (fun queue queued s order => SeqOrderInv g m0 (sinkStarts ord g m0) queue queued s order)
      (fun cur rest queued s order h =>
        SeqOrderInv_step g m0 (sinkStarts ord g m0) cur rest queued s order h)
      _ _ _ _ [] r hr0
      (by
        obtain ⟨h1, h2⟩ := enqueue_starts_nodup (sinkStarts ord g m0)
        refine ⟨⟨_, rfl, ?_, h2, ?_, rfl, fun _ _ => rfl, rfl⟩, ?_, ?_, ?_, ?_⟩
        · rw [h1]; simp
        · intro x hx
          rw [enqueue_starts_queued] at hx
          exact ((mem_sinkStarts ord g m0 hord x).1 hx).1
        · intro x hx
          rw [enqueue_starts_queued]
          exact hx
        · intro u v hu
          cases hu
        · intro b0 hb0
          simp at hb0
        · intro _ x hx
          rw [enqueue_starts_queue] at hx
          exact hx)
  simp only [List.append_nil] at hperm
  have hmem : ∀ x, x ∈ queued1 ↔ x ∈ order := fun x => hperm.mem_iff
  have hall : ∀ k, k ∈ m0.map Prod.fst → k ∈ order :=
    closed_covers g (m0.map Prod.fst) order rank hacyclic
      (fun k hk hsink =>
        (hmem k).1 (hst k ((mem_sinkStarts ord g m0 hord k).2 ⟨hk, hsink⟩)))
      (fun u v hu hvu hv => (hmem v).1 (hcl u v hu hvu hv))
  refine ⟨order, hvis, ?_, ?_, hhead⟩
  · rw [List.perm_ext_iff_of_nodup (hperm.nodup_iff.1 hnq) hnd]
    intro a
    exact ⟨fun ha => hkeys a ((hmem a).2 ha), hall a⟩
  · unfold sequantialize
    rw [hr, hs]
    simp only [hseq]

/-- C20. For an op graph whose edges go up along a rank (an acyclic graph),
`GetSequantialTrainableFwOps` succeeds, and its list is the exact reverse of the order in
which the traversal from the backbone ops without a backbone successor, along the
in-edges from backbone ops, visits the nodes: the group of every visited node, the last
visited first. The traversal visits every backbone op exactly once, so the list has as
many elements as there are backbone ops and is a rearrangement of the groups of
`backbone_op2fused_ops`, each taken once; no element is a moved-from (null) group; and
the last element, when there is one, is the group of the first visited node, a backbone
op without an edge to a backbone op. -/
theorem sequential_order_is_reversed_visit_order (ord : List OpNode → List OpNode)
    (g : OpGraph) (NeedBackwardOp : OpNode → Bool) (rank : OpNode → Nat)
    (hord : ∀ l, (ord l).Perm l) (hacyclic : ∀ e, e ∈ g.edges → rank e.1 < rank e.2) :
    ∃ (backbone : List OpNode) (m : List (OpNode × Option (List OpNode)))
      (order : List OpNode) (seq : List (Option (List OpNode))),
      GetBackBoneOps ord g (GetTrainableFwOps g NeedBackwardOp) = .ok backbone ∧
      GetBackboneOp2FusedOps ord g NeedBackwardOp = .ok m ∧
      visitOrder g (sinkStarts ord g m)
        (seqForEachIn g (.ok { backbone_op2fused_ops := m
                               sequantial_trainable_fw_ops := [] })) = .ok order ∧
      order.Perm backbone ∧
      GetSequantialTrainableFwOps ord g NeedBackwardOp = .ok seq ∧
      seq = order.reverse.filterMap (fun b => hmFind m b) ∧
      seq.length = backbone.length ∧
      seq.Perm (m.map Prod.snd) ∧
      (∀ fused, fused ∈ seq → fused ≠ none) ∧
      ∀ b0, b0 ∈ order.head? →
        b0 ∈ backbone ∧ (∀ v, (b0, v) ∈ g.edges → v ∉ backbone) ∧
        seq.getLast? = hmFind m b0 := by
  obtain ⟨backbone, other, m, hb, _, _, hm, hg, hk, _, _⟩ :=
    GetBackboneOp2FusedOps_spec ord g NeedBackwardOp hord
  have hbnd := GetBackBoneOps_nodup ord g _ backbone hb
  have hnd : (m.map Prod.fst).Nodup := by
    rw [hk]; exact (hord backbone).nodup_iff.2 hbnd
  obtain ⟨order, hvis, hperm, hseq, hhead⟩ := sequantialize_order ord g m hord hnd rank hacyclic
  have hpb : order.Perm backbone := by
    rw [hk] at hperm
    exact hperm.trans (hord backbone)
  have hsp : (order.reverse.filterMap (fun b => hmFind m b)).Perm (m.map Prod.snd) := by
    rw [← filterMap_hmFind_keys m hnd]
    exact ((List.reverse_perm order).trans hperm).filterMap _
  have hsome : ∀ fused, fused ∈ order.reverse.filterMap (fun b => hmFind m b) →
      fused ≠ none := by
    intro fused hf
    obtain ⟨p, hp, hpf⟩ := List.mem_map.1 (hsp.mem_iff.1 hf)
    obtain ⟨others, ho⟩ := hg p hp
    rw [← hpf, ho]
    simp
  refine ⟨backbone, m, order, _, hb, hm, hvis, hpb, ?_, rfl, ?_, hsp, hsome, ?_⟩
  · unfold GetSequantialTrainableFwOps
    simp only [hm]
    exact hseq
  · rw [hsp.length_eq, List.length_map, ← List.length_map m Prod.fst, hk,
      (hord backbone).length_eq]
  · intro b0 hb0
    have hs := (mem_sinkStarts ord g m hord b0).1 (hhead b0 hb0)
    have hmb : ∀ x, x ∈ m.map Prod.fst ↔ x ∈ backbone := by
      intro x
      rw [hk]
      exact (hord backbone).mem_iff
    refine ⟨(hmb b0).1 hs.1, fun v hv hvb => hs.2 v hv ((hmb v).2 hvb), ?_⟩
    cases order with
    | nil => simp at hb0
    | cons a l =>
      simp only [List.head?_cons, Option.mem_def, Option.some.injEq] at hb0
      subst hb0
      obtain ⟨v, hv⟩ := Option.isSome_iff_exists.1 ((hmFind_isSome_iff m a).2 hs.1)
      simp only [List.reverse_cons, List.filterMap_append, List.filterMap_cons, hv,
        List.filterMap_nil, List.getLast?_append, List.getLast?_singleton, Option.or_some]

theorem sequential_order_is_reversed_visit_order_witness :
    (∀ l : List OpNode, (id l).Perm l) ∧
    (∀ e, e ∈ diamond.edges → id e.1 < id e.2) ∧
    ∃ (backbone : List OpNode) (m : List (OpNode × Option (List OpNode)))
      (order : List OpNode) (seq : List (Option (List OpNode))),
      GetBackBoneOps id diamond (GetTrainableFwOps diamond (fun _ => true)) = .ok backbone ∧
      GetBackboneOp2FusedOps id diamond (fun _ => true) = .ok m ∧
      visitOrder diamond (sinkStarts id diamond m)
        (seqForEachIn diamond (.ok { backbone_op2fused_ops := m
                                     sequantial_trainable_fw_ops := [] })) = .ok order ∧
      order.Perm backbone ∧
      GetSequantialTrainableFwOps id diamond (fun _ => true) = .ok seq ∧
      seq = order.reverse.filterMap (fun b => hmFind m b) ∧
      seq.length = backbone.length ∧
      seq.Perm (m.map Prod.snd) ∧
      (∀ fused, fused ∈ seq → fused ≠ none) ∧
      ∀ b0, b0 ∈ order.head? →
        b0 ∈ backbone ∧ (∀ v, (b0, v) ∈ diamond.edges → v ∉ backbone) ∧
        seq.getLast? = hmFind m b0 :=
  ⟨fun l => List.Perm.refl l, by decide,
    sequential_order_is_reversed_visit_order id diamond (fun _ => true) id
      (fun l => List.Perm.refl l) (by decide)⟩

/-! ## The diamond -/

theorem perm_34 (l : List OpNode) (h : l.Perm [3, 4]) : l = [3, 4] ∨ l = [4, 3] := by
  obtain ⟨x, y, rfl⟩ := List.length_eq_two.1 h.length_eq
  have hx : x ∈ ([3, 4] : List OpNode) := h.mem_iff.1 (by simp)
  have hy : y ∈ ([3, 4] : List OpNode) := h.mem_iff.1 (by simp)
  have hnd : [x, y].Nodup := h.nodup_iff.2 (by decide)
  simp only [List.mem_cons, List.mem_singleton, List.not_mem_nil, or_false] at hx hy
  rcases hx with rfl | rfl <;> rcases hy with rfl | rfl <;> simp_all

theorem perm_43 (l : List OpNode) (h : l.Perm [4, 3]) : l = [3, 4] ∨ l = [4, 3] :=
  perm_34 l (h.trans (List.Perm.swap 3 4 []))

theorem perm_120 (l : List OpNode) (h : l.Perm [1, 2, 0]) :
    l = [1, 2, 0] ∨ l = [2, 1, 0] ∨ l = [0, 2, 1] ∨ l = [2, 0, 1] ∨ l = [0, 1, 2] ∨
      l = [1, 0, 2] := by
  obtain ⟨x, y, z, rfl⟩ := List.length_eq_three.1 h.length_eq
  have hx : x ∈ ([1, 2, 0] : List OpNode) := h.mem_iff.1 (by simp)
  have hy : y ∈ ([1, 2, 0] : List OpNode) := h.mem_iff.1 (by simp)
  have hz : z ∈ ([1, 2, 0] : List OpNode) := h.mem_iff.1 (by simp)
  have hnd : [x, y, z].Nodup := h.nodup_iff.2 (by decide)
  simp only [List.mem_cons, List.mem_singleton, List.not_mem_nil, or_false] at hx hy hz
  rcases hx with rfl | rfl | rfl <;> rcases hy with rfl | rfl | rfl <;>
    rcases hz with rfl | rfl | rfl <;> simp_all

theorem diamond_backbone (ord : List OpNode → List OpNode) (hord : ∀ l, (ord l).Perm l) :
    GetBackBoneOps ord diamond (GetTrainableFwOps diamond (fun _ => true)) = .ok [3, 4] := by
  have hT : GetTrainableFwOps diamond (fun _ => true) = [0, 1, 2, 3, 4] := by decide
  rw [hT]
  have hs : (ord [0, 1, 2, 3, 4]).filter
      (fun op_node => decide (GetInputSize diamond [0, 1, 2, 3, 4] op_node > 1)) = [3] := by
    apply List.perm_singleton.1
    have e : ([0, 1, 2, 3, 4] : List OpNode).filter
        (fun op_node => decide (GetInputSize diamond [0, 1, 2, 3, 4] op_node > 1)) = [3] := by
      decide
    rw [← e]
    exact (hord _).filter _
  simp only [GetBackBoneOps, hs]
  decide

theorem diamond_fuse (ord : List OpNode → List OpNode) (hord : ∀ l, (ord l).Perm l) :
    FuseOtherFwOpsToBackboneOps ord diamond [3, 4] = .ok [(1, 3), (2, 3), (0, 3)] := by
  have hs : (ord [3, 4]).filter (fun node => decide (((diamond.inNodes node).filter
      (fun in_node => decide (in_node ∈ ([3, 4] : List OpNode)))).length = 0)) = [3] := by
    apply List.perm_singleton.1
    have e : ([3, 4] : List OpNode).filter (fun node => decide (((diamond.inNodes node).filter
        (fun in_node => decide (in_node ∈ ([3, 4] : List OpNode)))).length = 0)) = [3] := by
      decide
    rw [← e]
    exact (hord _).filter _
  simp only [FuseOtherFwOpsToBackboneOps, BfsForEachBackboneOp, hs]
  decide

theorem diamond_groups (ord : List OpNode → List OpNode) (hord : ∀ l, (ord l).Perm l) :
    GetBackboneOp2FusedOps ord diamond (fun _ => true) =
        .ok [(3, some (3 :: ord [1, 2, 0])), (4, some [4])] ∨
      GetBackboneOp2FusedOps ord diamond (fun _ => true) =
        .ok [(4, some [4]), (3, some (3 :: ord [1, 2, 0]))] := by
  simp only [GetBackboneOp2FusedOps, diamond_backbone ord hord, diamond_fuse ord hord,
    buildFusedOps, hmIter, List.map_cons, List.map_nil]
  rcases perm_34 _ (hord [3, 4]) with h | h <;>
    rcases perm_120 _ (hord [1, 2, 0]) with k | k | k | k | k | k <;>
    simp only [h, k] <;> decide

theorem diamond_sequantial (ord : List OpNode → List OpNode) (hord : ∀ l, (ord l).Perm l) :
    GetSequantialTrainableFwOps ord diamond (fun _ => true) =
      .ok [some (3 :: ord [1, 2, 0]), some [4]] := by
  unfold GetSequantialTrainableFwOps
  rcases diamond_groups ord hord with hm | hm <;>
    simp only [hm, sequantialize, sinkStarts, hmIter, List.map_cons, List.map_nil]
  · rcases perm_34 _ (hord [3, 4]) with h | h <;>
      rcases perm_120 _ (hord [1, 2, 0]) with k | k | k | k | k | k <;>
      simp only [h, k] <;> decide
  · rcases perm_43 _ (hord [4, 3]) with h | h <;>
      rcases perm_120 _ (hord [1, 2, 0]) with k | k | k | k | k | k <;>
      simp only [h, k] <;> decide

/-- C15. The diamond `A → B, A → C, B → D, C → D, D → loss` (ops `0` to `4`) with
every op trainable-forward, whatever the iteration order of the hash containers:
`GetBackBoneOps` yields `D` and `loss`; the map of `GetBackboneOp2FusedOps` has two
groups, the one of `D`, which is `D` followed by `A`, `B` and `C` in some order, and
the one of `loss`, which is `loss` alone; the sequential order is the group of `D`, then
the group of `loss`; and with two stages the first group is of stage `0` and the second
of stage `1`. -/
theorem diamond_scenario (ord : List OpNode → List OpNode) (hord : ∀ l, (ord l).Perm l) :
    ∃ (others : List OpNode) (m : List (OpNode × Option (List OpNode))),
      others.Perm [0, 1, 2] ∧
      GetBackBoneOps ord diamond (GetTrainableFwOps diamond (fun _ => true)) = .ok [3, 4] ∧
      GetBackboneOp2FusedOps ord diamond (fun _ => true) = .ok m ∧
      m.Perm [(3, some (3 :: others)), (4, some [4])] ∧
      GetSequantialTrainableFwOps ord diamond (fun _ => true) =
        .ok [some (3 :: others), some [4]] ∧
      GetStageDepth2Stage [some (3 :: others), some [4]] 2 = .ok [(0, 0), (1, 1)] ∧
      Stage4Depth [(0, 0), (1, 1)] 0 = .ok 0 ∧ Stage4Depth [(0, 0), (1, 1)] 1 = .ok 1 ∧
      (∀ op, op ∈ 3 :: others → stageOfOp ord diamond (fun _ => true) 2 op = some 0) ∧
      stageOfOp ord diamond (fun _ => true) 2 4 = some 1 := by
  have hperm : (ord [1, 2, 0]).Perm [0, 1, 2] :=
    (hord [1, 2, 0]).trans (by decide)
  have hseq := diamond_sequantial ord hord
  have htab : GetStageDepth2Stage [some (3 :: ord [1, 2, 0]), some [4]] 2 =
      .ok [(0, 0), (1, 1)] := by
    rcases perm_120 _ (hord [1, 2, 0]) with k | k | k | k | k | k <;> simp only [k] <;> decide
  have hgroups : ∃ m, GetBackboneOp2FusedOps ord diamond (fun _ => true) = .ok m ∧
      m.Perm [(3, some (3 :: ord [1, 2, 0])), (4, some [4])] := by
    rcases diamond_groups ord hord with hm | hm
    · exact ⟨_, hm, List.Perm.refl _⟩
    · exact ⟨_, hm, List.Perm.swap _ _ _⟩
  obtain ⟨m, hm, hmp⟩ := hgroups
  refine ⟨ord [1, 2, 0], m, hperm, diamond_backbone ord hord, hm, hmp, hseq, htab,
    by decide, by decide, ?_, ?_⟩
  · intro op hop
    simp only [stageOfOp, hseq, htab]
    simp only [groupDepth, if_pos hop]
    decide
  · simp only [stageOfOp, hseq, htab]
    have h4 : 4 ∉ 3 :: ord [1, 2, 0] := by
      intro h
      rcases List.mem_cons.1 h with h | h
      · exact absurd h (by decide)
      · have := (hord [1, 2, 0]).mem_iff.1 h
        simp at this
    simp only [groupDepth, if_neg h4]
    decide

theorem diamond_scenario_witness :
    (∀ l : List OpNode, (id l).Perm l) ∧
    ∃ (others : List OpNode) (m : List (OpNode × Option (List OpNode))),
      others.Perm [0, 1, 2] ∧
      GetBackBoneOps id diamond (GetTrainableFwOps diamond (fun _ => true)) = .ok [3, 4] ∧
      GetBackboneOp2FusedOps id diamond (fun _ => true) = .ok m ∧
      m.Perm [(3, some (3 :: others)), (4, some [4])] ∧
      GetSequantialTrainableFwOps id diamond (fun _ => true) =
        .ok [some (3 :: others), some [4]] ∧
      GetStageDepth2Stage [some (3 :: others), some [4]] 2 = .ok [(0, 0), (1, 1)] ∧
      Stage4Depth [(0, 0), (1, 1)] 0 = .ok 0 ∧ Stage4Depth [(0, 0), (1, 1)] 1 = .ok 1 ∧
      (∀ op, op ∈ 3 :: others → stageOfOp id diamond (fun _ => true) 2 op = some 0) ∧
      stageOfOp id diamond (fun _ => true) 2 4 = some 1 :=
  ⟨fun l => List.Perm.refl l, diamond_scenario id (fun l => List.Perm.refl l)⟩

/-! ## The stage index of the walk stays in range -/

theorem walk_append (tbl : List Nat) (pre post : List Nat) :
    ∀ st, walk tbl st (pre ++ post) =
      match walk tbl st pre with
      | .error e => .error e
      | .ok st1 => walk tbl st1 post := by
  induction pre with
  | nil => intro st; rfl
  | cons size rest ih =>
    intro st
    simp only [List.cons_append, walk]
    cases walkStep tbl st size with
    | error e => rfl
    | ok st1 => exact ih st1

/-- C22. For every sequence of group sizes and `K ≥ 1` stages: after any number of groups
the walk of `GetStageDepth2Stage` has run without a failed read, its stage is at most
`K - 1`, the next read `stage2expected_num_ops_from_start.at(stage)` is in range, and
every stage stored in `depth2stage` so far is below `K`; one more group leaves the
stage as it is or raises it by one; the function never fails through a read out of
range; and every stage that `Stage4Depth` returns from the final table is below `K`,
so that `VectorAt` on a list of `K` stage scopes succeeds for it. -/
theorem walk_stage_in_range (sizes : List Nat) (K : Nat) (hK : 1 ≤ K) :
    (∀ pre post, sizes = pre ++ post →
      ∃ st expected, walk (expectedTable sizes K) walkInit pre = .ok st ∧
        st.depth = pre.length ∧ st.stage ≤ K - 1 ∧
        (expectedTable sizes K)[st.stage]? = some expected ∧
        ∀ d s, hmFind st.depth2stage d = some s → s < K) ∧
    (∀ pre size post st, sizes = pre ++ size :: post →
      walk (expectedTable sizes K) walkInit pre = .ok st →
      ∃ st1, walkStep (expectedTable sizes K) st size = .ok st1 ∧
        walk (expectedTable sizes K) walkInit (pre ++ [size]) = .ok st1 ∧
        st.stage ≤ st1.stage ∧ st1.stage ≤ st.stage + 1 ∧
        hmFind st1.depth2stage pre.length = some st1.stage) ∧
    depth2stageOfSizes sizes K ≠ .error .outOfRange ∧
    (∀ seq, groupSizes seq = some sizes →
      GetStageDepth2Stage seq K = depth2stageOfSizes sizes K) ∧
    (∀ depth2stage, depth2stageOfSizes sizes K = .ok depth2stage →
      ∀ (stage_partition_scope_ids : List Int), stage_partition_scope_ids.length = K →
      ∀ depth stage, Stage4Depth depth2stage depth = .ok stage →
        stage < K ∧ ∃ scope_symbol_id,
          VectorAt stage_partition_scope_ids stage = .ok scope_symbol_id) := by
  have hlen : (expectedTable sizes K).length = K := table_length _ K
  have hlast : (expectedTable sizes K)[K - 1]? = some (sizes.foldl (fun acc n => acc + n) 0) := by
    unfold expectedTable
    rw [table_get _ K (K - 1) (by omega), cumSize_last _ K hK]
  have hpre : ∀ pre post, sizes = pre ++ post →
      ∃ st, walk (expectedTable sizes K) walkInit pre = .ok st ∧ st.stage < K ∧ WalkInv st ∧
        st.depth = pre.length := by
    intro pre post hs
    obtain ⟨st, hst, hlt⟩ := walk_ok (expectedTable sizes K) K _ hlen hlast pre walkInit
      (by simp [walkInit]; omega)
      (by
        rw [foldl_add_eq_sum, hs]
        simp [walkInit])
    obtain ⟨inv, hd⟩ := walk_inv _ pre walkInit st hst walkInv_init
    exact ⟨st, hst, hlt, inv, by simpa [walkInit] using hd⟩
  obtain ⟨stN, hN, hltN, invN, hdN⟩ := hpre sizes [] (by simp)
  refine ⟨?_, ?_, ?_, ?_, ?_⟩
  · intro pre post hs
    obtain ⟨st, hst, hlt, inv, hd⟩ := hpre pre post hs
    refine ⟨st, _, hst, hd, by omega,
      List.getElem?_eq_getElem (by omega), ?_⟩
    intro d s hds
    have := inv.le_stage d s hds
    omega
  · intro pre size post st hs hst
    obtain ⟨st1, hst1, _, inv1, hd1⟩ := hpre (pre ++ [size]) post (by simp [hs])
    have happ := walk_append (expectedTable sizes K) pre [size] walkInit
    rw [hst1, hst] at happ
    simp only [walk] at happ
    cases hstep : walkStep (expectedTable sizes K) st size with
    | error e => simp [hstep] at happ
    | ok st2 =>
      simp only [hstep] at happ
      injection happ with happ
      subst happ
      obtain ⟨ns, hge, hle, _, heq⟩ := walkStep_eq _ st st1 size hstep
      have hs1 : st1.stage = ns := by rw [heq]
      refine ⟨st1, rfl, hst1, by omega, by omega, ?_⟩
      have := inv1.last (by rw [hd1]; simp)
      rw [hd1] at this
      simpa using this
  · rw [depth2stageOfSizes_eq sizes K stN hN hdN]
    split <;> simp
  · intro seq hseq
    simp only [GetStageDepth2Stage, hseq]
  · intro depth2stage htbl ids hids depth stage hst
    rw [depth2stageOfSizes_eq sizes K stN hN hdN] at htbl
    have htbl2 : depth2stage = stN.depth2stage := by
      by_cases hne : (stN.stage : Int) ≠ (K : Int) - 1
      · rw [if_pos hne] at htbl; cases htbl
      · rw [if_neg hne] at htbl
        injection htbl with htbl
        exact htbl.symm
    subst htbl2
    have hle := invN.le_stage depth stage ((Stage4Depth_ok _ _ _).1 hst)
    have hlt : stage < K := by omega
    refine ⟨hlt, ids.get ⟨stage, by omega⟩, ?_⟩
    simp only [VectorAt, List.getElem?_eq_getElem (show stage < ids.length by omega)]
    rfl

theorem walk_stage_in_range_witness :
    1 ≤ 2 ∧
    walk (expectedTable [4, 1] 2) walkInit [4, 1] =
      .ok { stage := 1, depth := 2, num_ops_from_start := 5, depth2stage := [(0, 0), (1, 1)] } ∧
    depth2stageOfSizes [4, 1] 2 = .ok [(0, 0), (1, 1)] ∧
    depth2stageOfSizes [4, 1] 2 ≠ .error .outOfRange ∧
    ∃ st expected, walk (expectedTable [4, 1] 2) walkInit [4] = .ok st ∧
      st.depth = [4].length ∧ st.stage ≤ 2 - 1 ∧
      (expectedTable [4, 1] 2)[st.stage]? = some expected ∧
      ∀ d s, hmFind st.depth2stage d = some s → s < 2 :=
  ⟨by decide, by decide, by decide, (walk_stage_in_range [4, 1] 2 (by decide)).2.2.1,
    (walk_stage_in_range [4, 1] 2 (by decide)).1 [4] [1] rfl⟩

/-! ## Graphs without a backbone op -/

theorem bfsLoop_nil {σ : Type} (next : σ → OpNode → List OpNode) (H : OpNode → σ → σ)
    (fuel : Nat) (queued : List OpNode) (s : σ) : bfsLoop next H fuel [] queued s = .ok s := by
  cases fuel <;> simp only [bfsLoop]

theorem BfsForEachNode_nil {σ : Type} (g : OpGraph) (next : σ → OpNode → List OpNode)
    (H : OpNode → σ → σ) (s : σ) : g.BfsForEachNode [] next H s = .ok s := by
  unfold OpGraph.BfsForEachNode
  exact bfsLoop_nil next H _ _ s

theorem ord_nil (ord : List OpNode → List OpNode) (hord : ∀ l, (ord l).Perm l) : ord [] = [] :=
  List.perm_nil.1 (hord [])

/-- Without a backbone op there is no fused op, no group and no element of the
sequential order. -/
theorem no_backbone_no_groups (ord : List OpNode → List OpNode) (g : OpGraph)
    (NeedBackwardOp : OpNode → Bool) (hord : ∀ l, (ord l).Perm l)
    (hb : GetBackBoneOps ord g (GetTrainableFwOps g NeedBackwardOp) = .ok []) :
    FuseOtherFwOpsToBackboneOps ord g [] = .ok [] ∧
    GetBackboneOp2FusedOps ord g NeedBackwardOp = .ok [] ∧
    GetSequantialTrainableFwOps ord g NeedBackwardOp = .ok [] := by
  have h0 := ord_nil ord hord
  have hf : FuseOtherFwOpsToBackboneOps ord g [] = .ok [] := by
    simp only [FuseOtherFwOpsToBackboneOps, BfsForEachBackboneOp, h0, List.filter_nil,
      BfsForEachNode_nil]
  have hm : GetBackboneOp2FusedOps ord g NeedBackwardOp = .ok [] := by
    simp only [GetBackboneOp2FusedOps, hb, hf, buildFusedOps, hmIter, h0, List.map_nil,
      List.foldl_nil, List.filterMap_nil, pushAllFused]
  refine ⟨hf, hm, ?_⟩
  simp only [GetSequantialTrainableFwOps, hm, sequantialize, sinkStarts, hmIter, h0,
    List.map_nil, List.filterMap_nil, List.filter_nil, BfsForEachNode_nil]

theorem GetStageDepth2Stage_nil (K : Nat) :
    GetStageDepth2Stage [] K = if K = 1 then .ok [] else .error (.checkFailed 234) := by
  simp only [GetStageDepth2Stage, groupSizes, depth2stageOfSizes, walk, walkInit]
  by_cases hK : K = 1
  · subst hK; simp
  · have : ¬ (0 : Int) = (K : Int) - 1 := by omega
    simp [hK, this]

/-- C21. In an op graph (one edge per producer and consumer) in which no trainable
forward op has more than one trainable forward predecessor, `GetBackBoneOps` yields no
backbone op, `GetBackboneOp2FusedOps` no group, and the sequential order is empty.
`GetStageDepth2Stage` then succeeds exactly for `K = 1` and fails for every other `K` at
the check of line 234; `ForEachStageScope4TrainableFwOp` fails at line 361 without
stage scopes, succeeds with one, leaving the state of the handler as it was for every
handler (called for no op: also for a handler that fails on every call), and fails
at line 234 with more than one. -/
theorem empty_backbone (ord : List OpNode → List OpNode) (g : OpGraph)
    (NeedBackwardOp : OpNode → Bool) (hord : ∀ l, (ord l).Perm l) (hnd : g.edges.Nodup)
    (hsingle : ∀ v, v ∈ GetTrainableFwOps g NeedBackwardOp →
      ¬ MultiInput g (GetTrainableFwOps g NeedBackwardOp) v) :
    GetBackBoneOps ord g (GetTrainableFwOps g NeedBackwardOp) = .ok [] ∧
    FuseOtherFwOpsToBackboneOps ord g [] = .ok [] ∧
    GetBackboneOp2FusedOps ord g NeedBackwardOp = .ok [] ∧
    GetSequantialTrainableFwOps ord g NeedBackwardOp = .ok [] ∧
    (∀ K, (∃ depth2stage, GetStageDepth2Stage [] K = .ok depth2stage) ↔ K = 1) ∧
    (∀ K, K ≠ 1 → GetStageDepth2Stage [] K = .error (.checkFailed 234)) ∧
    (∀ (scope_ids : List Int) (calls : List (OpNode × Int)),
      ForEachStageScope4TrainableFwOp ord g NeedBackwardOp scope_ids recordCall []
        = .ok calls → calls = []) ∧
    (∀ (τ : Type) (Handler : OpNode → Int → τ → Except PassError τ) (t : τ)
        (scope_ids : List Int),
      ForEachStageScope4TrainableFwOp ord g NeedBackwardOp scope_ids Handler t =
        if scope_ids.length = 0 then .error (.checkFailed 361)
        else if scope_ids.length = 1 then .ok t
        else .error (.checkFailed 234)) := by
  have hs : (ord (GetTrainableFwOps g NeedBackwardOp)).filter
      (fun op_node => decide (GetInputSize g (GetTrainableFwOps g NeedBackwardOp) op_node > 1))
      = [] := by
    rw [List.filter_eq_nil_iff]
    intro x hx
    have hxT := (hord _).mem_iff.1 hx
    simp only [decide_eq_true_eq]
    rw [GetInputSize_gt_one g _ hnd x]
    exact hsingle x hxT
  have hb : GetBackBoneOps ord g (GetTrainableFwOps g NeedBackwardOp) = .ok [] := by
    simp only [GetBackBoneOps, hs, BfsForEachNode_nil]
  obtain ⟨hf, hm, hseq⟩ := no_backbone_no_groups ord g NeedBackwardOp hord hb
  have hrun : ∀ (τ : Type) (Handler : OpNode → Int → τ → Except PassError τ) (t : τ)
      (scope_ids : List Int),
      ForEachStageScope4TrainableFwOp ord g NeedBackwardOp scope_ids Handler t =
        if scope_ids.length = 0 then .error (.checkFailed 361)
        else if scope_ids.length = 1 then .ok t
        else .error (.checkFailed 234) := by
    intro τ Handler t scope_ids
    simp only [ForEachStageScope4TrainableFwOp, hseq, GetStagePartitionScopeIds]
    by_cases h0 : scope_ids.length = 0
    · simp [h0]
    · have hpos : scope_ids.length > 0 := by omega
      simp only [hpos, if_true, h0, if_false, GetStageDepth2Stage_nil]
      by_cases h1 : scope_ids.length = 1
      · simp [h1, forEachFusedVec]
      · simp [h1]
  refine ⟨hb, hf, hm, hseq, ?_, ?_, ?_, hrun⟩
  · intro K
    rw [GetStageDepth2Stage_nil]
    by_cases hK : K = 1
    · simp [hK]
    · simp [hK]
  · intro K hK
    rw [GetStageDepth2Stage_nil, if_neg hK]
  · intro scope_ids calls h
    rw [hrun] at h
    by_cases h0 : scope_ids.length = 0
    · simp [h0] at h
    · by_cases h1 : scope_ids.length = 1
      · simp only [h0, h1, if_false, if_true] at h
        injection h with h
        exact h.symm
      · simp [h0, h1] at h

theorem chain_single_input (v : OpNode)
    (hv : v ∈ GetTrainableFwOps chain (fun _ => true)) :
    ¬ MultiInput chain (GetTrainableFwOps chain (fun _ => true)) v := by
  intro h
  have h1 := (GetInputSize_gt_one chain (GetTrainableFwOps chain (fun _ => true))
    (by decide) v).2 h
  have h2 : ∀ u, u ∈ GetTrainableFwOps chain (fun _ => true) →
      ¬ GetInputSize chain (GetTrainableFwOps chain (fun _ => true)) u > 1 := by decide
  exact h2 v hv h1

theorem empty_backbone_witness :
    (∀ l : List OpNode, (id l).Perm l) ∧ chain.edges.Nodup ∧
    (∀ v, v ∈ GetTrainableFwOps chain (fun _ => true) →
      ¬ MultiInput chain (GetTrainableFwOps chain (fun _ => true)) v) ∧
    GetTrainableFwOps chain (fun _ => true) = [0, 1, 2, 3, 4] ∧
    GetBackBoneOps id chain (GetTrainableFwOps chain (fun _ => true)) = .ok [] ∧
    GetSequantialTrainableFwOps id chain (fun _ => true) = .ok [] ∧
    ForEachStageScope4TrainableFwOp id chain (fun _ => true) [100] recordCall [] = .ok [] ∧
    ForEachStageScope4TrainableFwOp id chain (fun _ => true) [100, 101] recordCall []
      = .error (.checkFailed 234) :=
  ⟨fun l => List.Perm.refl l, by decide, chain_single_input, by decide,
    (empty_backbone id chain (fun _ => true) (fun l => List.Perm.refl l) (by decide)
      chain_single_input).1,
    by decide, by decide, by decide⟩

/-! ## Traversals whose neighbours do not depend on the state -/

theorem VisitInv_step {σ : Type} (starts : List OpNode) (nx : OpNode → List OpNode)
    (H : OpNode → σ → σ) (s0 : σ) (cur : OpNode) (rest queued : List OpNode) (s : σ)
    (visited : List OpNode) (h : VisitInv starts nx H s0 (cur :: rest) queued s visited) :
    VisitInv starts nx H s0 ((nx cur).foldl enqueue (rest, queued)).1
      ((nx cur).foldl enqueue (rest, queued)).2 (H cur s) (visited ++ [cur]) := by
  obtain ⟨hs, hq, hnd, hst, hcl, hsrc⟩ := h
  obtain ⟨added, ha1, ha2, ha3⟩ := enqueue_fold_added (nx cur) (rest, queued)
  have hmemq : ∀ x, x ∈ ((nx cur).foldl enqueue (rest, queued)).2 ↔ x ∈ queued ∨ x ∈ nx cur :=
    fun x => enqueue_fold_mem_queued (nx cur) (rest, queued) x
  refine ⟨?_, ?_, ?_, ?_, ?_, ?_⟩
  · rw [List.foldl_append, ← hs]; rfl
  · rw [ha1]
    simp [hq]
  · rw [ha1]; exact ha3 hnd
  · intro x hx
    exact (hmemq x).2 (Or.inl (hst x hx))
  · intro u v hu hv
    rcases List.mem_append.1 hu with hu | hu
    · exact (hmemq v).2 (Or.inl (hcl u v hu hv))
    · simp only [List.mem_singleton] at hu
      subst hu
      exact (hmemq v).2 (Or.inr hv)
  · intro x hx
    rcases (hmemq x).1 hx with hx | hx
    · rcases hsrc x hx with h | ⟨u, hu, hxu⟩
      · exact Or.inl h
      · exact Or.inr ⟨u, List.mem_append_left _ hu, hxu⟩
    · exact Or.inr ⟨cur, by simp, hx⟩

/-- A traversal whose neighbours do not depend on the state calls its handler on the
nodes of the recording traversal, in the order of the pops. The popped nodes are
pairwise distinct; they are the starts and the neighbours of popped nodes. -/
theorem BfsForEachNode_visit {σ : Type} (g : OpGraph) (starts : List OpNode)
    (nx : OpNode → List OpNode) (H : OpNode → σ → σ) (s r : σ)
    (h : g.BfsForEachNode starts (fun _ => nx) H s = .ok r) :
    ∃ order, visitOrder g starts nx = .ok order ∧ r = order.foldl (fun s b => H b s) s ∧
      order.Nodup ∧ (∀ x, x ∈ starts → x ∈ order) ∧
      (∀ u v, u ∈ order → v ∈ nx u → v ∈ order) ∧
      (∀ x, x ∈ order → x ∈ starts ∨ ∃ u, u ∈ order ∧ x ∈ nx u) := by
  unfold OpGraph.BfsForEachNode at h
  obtain ⟨order, queued1, hvis, hr, hq, hnd, hst, hcl, hsrc⟩ :=
    bfsLoop_sim (fun (_ : σ) => nx) H (fun (_ : List OpNode) node => nx node)
      (fun node visited => visited ++ [node])
      (fun queue queued t visited => VisitInv starts nx H s queue queued t visited)
      (fun cur rest queued t visited hinv =>
        ⟨rfl, VisitInv_step starts nx H s cur rest queued t visited hinv⟩)
      _ _ _ s [] r h
      (by
        obtain ⟨h1, h2⟩ := enqueue_starts_nodup starts
        refine ⟨rfl, ?_, h2, ?_, ?_, ?_⟩
        · rw [h1]; simp
        · intro x hx; exact (enqueue_starts_queued starts x).2 hx
        · intro u v hu; cases hu
        · intro x hx; exact Or.inl ((enqueue_starts_queued starts x).1 hx))
  simp only [List.append_nil] at hq
  subst hq
  exact ⟨queued1, hvis, hr, hnd, hst, hcl, hsrc⟩

/-! ## The fusion: every linked op is claimed, the first claim stands -/

theorem FuseClosedInv_step (g : OpGraph) (backbone : List OpNode) (b : OpNode)
    (hb : b ∈ backbone) (m0 : List (OpNode × OpNode)) (cur : OpNode) (rest queued : List OpNode)
    (m : List (OpNode × OpNode)) (h : FuseClosedInv g backbone b m0 (cur :: rest) queued m) :
    FuseClosedInv g backbone b m0
      ((ForEachOtherNext g backbone (if cur ∈ backbone then m else hmSet m cur b) cur).foldl
        enqueue (rest, queued)).1
      ((ForEachOtherNext g backbone (if cur ∈ backbone then m else hmSet m cur b) cur).foldl
        enqueue (rest, queued)).2
      (if cur ∈ backbone then m else hmSet m cur b) := by
  obtain ⟨hpath, hbq, hpop, hcl, hnew⟩ := h
  have hstep := FusePathInv_step g backbone b hb m0 cur rest queued m hpath
  obtain ⟨hqd, hq, hsub, h0, _, hqueue⟩ := hpath
  have hcur_rest : cur ∉ rest := (List.nodup_cons.1 hq).1
  have hcurq : cur ∈ queued := hsub cur (List.mem_cons_self _ _)
  have key : (∀ k v, hmFind m k = some v →
        hmFind (if cur ∈ backbone then m else hmSet m cur b) k = some v) ∧
      (cur ∈ backbone ∨ (hmFind (if cur ∈ backbone then m else hmSet m cur b) cur).isSome) ∧
      (∀ k v, hmFind (if cur ∈ backbone then m else hmSet m cur b) k = some v →
        hmFind m k = some v ∨ k = cur) := by
    by_cases hc : cur ∈ backbone
    · simp only [if_pos hc]
      exact ⟨fun _ _ h => h, Or.inl hc, fun _ _ h => Or.inl h⟩
    · simp only [if_neg hc]
      have hcb : cur ≠ b := fun e => hc (e ▸ hb)
      rcases hqueue cur (List.mem_cons_self _ _) with h | ⟨_, hnone, _⟩
      · exact absurd h hcb
      · refine ⟨?_, Or.inr (by rw [hmFind_hmSet, if_pos rfl]; rfl), ?_⟩
        · intro k v hk
          rw [hmFind_hmSet]
          by_cases hck : cur = k
          · subst hck; rw [hnone] at hk; cases hk
          · rw [if_neg hck]; exact hk
        · intro k v hk
          rw [hmFind_hmSet] at hk
          by_cases hck : cur = k
          · exact Or.inr hck.symm
          · rw [if_neg hck] at hk
            exact Or.inl hk
  obtain ⟨hext, hcur, hback⟩ := key
  generalize (if cur ∈ backbone then m else hmSet m cur b) = m1 at hext hcur hback hstep ⊢
  have hsome : ∀ k, (hmFind m k).isSome → (hmFind m1 k).isSome := by
    intro k hk
    obtain ⟨v, hv⟩ := Option.isSome_iff_exists.1 hk
    rw [hext k v hv]; rfl
  obtain ⟨added, ha1, ha2, _⟩ := enqueue_fold_added (ForEachOtherNext g backbone m1 cur)
    (rest, queued)
  have hmemq : ∀ x, x ∈ ((ForEachOtherNext g backbone m1 cur).foldl enqueue (rest, queued)).2 ↔
      x ∈ queued ∨ x ∈ ForEachOtherNext g backbone m1 cur :=
    fun x => enqueue_fold_mem_queued _ (rest, queued) x
  have hq1 : ((ForEachOtherNext g backbone m1 cur).foldl enqueue (rest, queued)).1
      = rest ++ added := by rw [ha1]
  have hq2 : ((ForEachOtherNext g backbone m1 cur).foldl enqueue (rest, queued)).2
      = queued ++ added := by rw [ha1]
  -- a node popped after this step was popped before it, or is `cur`
  have hpopped : ∀ p, p ∈ ((ForEachOtherNext g backbone m1 cur).foldl enqueue (rest, queued)).2 →
      p ∉ ((ForEachOtherNext g backbone m1 cur).foldl enqueue (rest, queued)).1 →
      p = cur ∨ (p ∈ queued ∧ p ∉ cur :: rest) := by
    intro p hp hnp
    rw [hq2] at hp
    rw [hq1] at hnp
    simp only [List.mem_append, not_or] at hnp
    rcases List.mem_append.1 hp with hp | hp
    · by_cases hpc : p = cur
      · exact Or.inl hpc
      · refine Or.inr ⟨hp, ?_⟩
        simp only [List.mem_cons, not_or]
        exact ⟨hpc, hnp.1⟩
    · exact absurd hp hnp.2
  refine ⟨hstep, (hmemq b).2 (Or.inl hbq), ?_, ?_, ?_⟩
  · intro p hp hnp
    rcases hpopped p hp hnp with h | ⟨h1, h2⟩
    · subst h; exact hcur
    · rcases hpop p h1 h2 with h | h
      · exact Or.inl h
      · exact Or.inr (hsome p h)
  · intro p y hp hnp hy
    rcases hpopped p hp hnp with h | ⟨h1, h2⟩
    · subst h
      by_cases hyb : y ∈ backbone
      · exact Or.inl hyb
      · cases hf : hmFind m1 y with
        | some v => exact Or.inr (Or.inl rfl)
        | none =>
          refine Or.inr (Or.inr ((hmemq y).2 (Or.inr ?_)))
          unfold ForEachOtherNext
          simp only [List.mem_filter, Bool.and_eq_true, Bool.not_eq_true',
            decide_eq_false_iff_not, Option.isNone_iff_eq_none]
          exact ⟨hy, hyb, hf⟩
    · rcases hcl p y h1 h2 hy with h | h | h
      · exact Or.inl h
      · exact Or.inr (Or.inl (hsome y h))
      · exact Or.inr (Or.inr ((hmemq y).2 (Or.inl h)))
  · intro k v hk
    have hcur_added : cur ∉ added := fun hc => (ha2 cur hc).2 hcurq
    rcases hback k v hk with hk | hk
    · rcases hnew k v hk with h | ⟨h1, h2⟩
      · exact Or.inl h
      · refine Or.inr ⟨(hmemq k).2 (Or.inl h1), ?_⟩
        rw [hq1]
        simp only [List.mem_append, not_or]
        refine ⟨fun hr => h2 (List.mem_cons_of_mem _ hr), fun ha => (ha2 k ha).2 h1⟩
    · subst hk
      refine Or.inr ⟨(hmemq k).2 (Or.inl hcurq), ?_⟩
      rw [hq1]
      simp only [List.mem_append, not_or]
      exact ⟨hcur_rest, hcur_added⟩

/-- The traversal started at the backbone op `b` keeps the entries of the map, maps the
ops it adds to `b`, each linked to `b` inside the group of `b`, and leaves no
neighbour of `b` or of an op it adds outside the backbone and the map. -/
theorem fuseFrom_closed (g : OpGraph) (backbone : List OpNode) (b : OpNode) (hb : b ∈ backbone)
    (m0 m1 : List (OpNode × OpNode)) (h : fuseFrom g backbone b m0 = .ok m1) :
    (∀ k v, hmFind m0 k = some v → hmFind m1 k = some v) ∧
    (∀ k v, hmFind m1 k = some v → hmFind m0 k = some v ∨ (v = b ∧ GroupPath g m1 b k)) ∧
    (∀ y, y ∈ g.inOutNodes b → y ∈ backbone ∨ (hmFind m1 y).isSome) ∧
    (∀ k, (hmFind m1 k).isSome → (hmFind m0 k).isSome ∨
      ∀ y, y ∈ g.inOutNodes k → y ∈ backbone ∨ (hmFind m1 y).isSome) := by
  unfold fuseFrom at h
  obtain ⟨queued1, ⟨_, _, _, hsub, hnewp, _⟩, hbq, hpop, hcl, hnew⟩ :=
    BfsForEachNode_inv g [b] (ForEachOtherNext g backbone)
      (fun other m => if other ∈ backbone then m else hmSet m other b) m0 m1
      (FuseClosedInv g backbone b m0)
      (fun cur rest queued s hs => FuseClosedInv_step g backbone b hb m0 cur rest queued s hs)
      h
      (by
        have h1 : ([b].foldl enqueue ([], [])) = ([b], [b]) := by simp [enqueue]
        rw [h1]
        refine ⟨⟨by simp, by simp, fun x hx => hx, fun _ _ h => h, fun _ _ h => Or.inl h, ?_⟩,
          by simp, ?_, ?_, fun _ _ h => Or.inl h⟩
        · intro x hx
          exact Or.inl (List.mem_singleton.1 hx)
        · intro p hp hnp; exact absurd hp hnp
        · intro p y hp hnp; exact absurd hp hnp)
  have hclosed : ∀ p, p ∈ queued1 → ∀ y, y ∈ g.inOutNodes p →
      y ∈ backbone ∨ (hmFind m1 y).isSome := by
    intro p hp y hy
    rcases hcl p y hp (List.not_mem_nil _) hy with h | h | h
    · exact Or.inl h
    · exact Or.inr h
    · exact hpop y h (List.not_mem_nil _)
  refine ⟨hsub, hnewp, hclosed b hbq, ?_⟩
  intro k hk
  obtain ⟨v, hv⟩ := Option.isSome_iff_exists.1 hk
  rcases hnew k v hv with h | ⟨h, _⟩
  · exact Or.inl (by rw [h]; rfl)
  · exact Or.inr (hclosed k h)

theorem NBPath_covered (g : OpGraph) (backbone : List OpNode) (m : List (OpNode × OpNode))
    (b : OpNode)
    (hb : ∀ y, y ∈ g.inOutNodes b → y ∈ backbone ∨ (hmFind m y).isSome)
    (hk : ∀ k y, (hmFind m k).isSome → y ∈ g.inOutNodes k → y ∈ backbone ∨ (hmFind m y).isSome)
    (x : OpNode) (h : NBPath g backbone b x) : x = b ∨ (hmFind m x).isSome := by
  induction h with
  | start => exact Or.inl rfl
  | step u v _ hv hnb ih =>
    rcases ih with ih | ih
    · subst ih
      rcases hb v hv with h | h
      · exact absurd h hnb
      · exact Or.inr h
    · rcases hk u v ih hv with h | h
      · exact absurd h hnb
      · exact Or.inr h

theorem GroupPath_NBPath (g : OpGraph) (backbone : List OpNode) (m : List (OpNode × OpNode))
    (hinv : FuseInv backbone m) (b x : OpNode) (h : GroupPath g m b x) :
    NBPath g backbone b x := by
  induction h with
  | start => exact NBPath.start
  | step u v _ hv hf ih =>
    exact NBPath.step u v ih hv (hinv.other (v, b) (mem_of_hmFind m v b hf))

theorem NBPath_Linked (g : OpGraph) (backbone : List OpNode) (b x : OpNode) (hb : b ∈ backbone)
    (h : NBPath g backbone b x) : Linked g backbone x := by
  induction h with
  | start => exact Linked.start b hb
  | step u v _ hv _ ih => exact Linked.step u v ih hv

theorem FirstWinsInv_step (g : OpGraph) (backbone done : List OpNode)
    (m m1 : List (OpNode × OpNode)) (b : OpNode) (hb : b ∈ backbone)
    (hdone : ∀ b0, b0 ∈ done → b0 ∈ backbone)
    (inv : FirstWinsInv g backbone done m) (h : fuseFrom g backbone b m = .ok m1) :
    FirstWinsInv g backbone (done ++ [b]) m1 := by
  obtain ⟨hfuse, hpath, hfirst, hdcl, hkcl⟩ := inv
  obtain ⟨hsub, hnew, hbcl, hncl⟩ := fuseFrom_closed g backbone b hb m m1 h
  have hfuse1 := fuseFrom_inv g backbone b hb m m1 h hfuse
  have hsome : ∀ k, (hmFind m k).isSome → (hmFind m1 k).isSome := by
    intro k hk
    obtain ⟨v, hv⟩ := Option.isSome_iff_exists.1 hk
    rw [hsub k v hv]; rfl
  refine ⟨hfuse1, fuseFrom_paths g backbone b hb m m1 h hpath, ?_, ?_, ?_⟩
  · intro k v hk
    cases hold : hmFind m k with
    | some v0 =>
      have := hsub k v0 hold
      rw [hk] at this
      injection this with this
      subst this
      obtain ⟨l1, l2, hl, hno⟩ := hfirst k v hold
      exact ⟨l1, l2 ++ [b], by rw [hl]; simp, hno⟩
    | none =>
      rcases hnew k v hk with h0 | ⟨hv, _⟩
      · rw [hold] at h0; cases h0
      · subst hv
        refine ⟨done, [], rfl, ?_⟩
        intro b0 hb0 hnb
        rcases NBPath_covered g backbone m b0 (fun y hy => hdcl b0 y hb0 hy) hkcl k hnb with e | e
        · have hkb : k ∉ backbone := hfuse1.other (k, v) (mem_of_hmFind m1 k v hk)
          exact hkb (e ▸ hdone b0 hb0)
        · rw [hold] at e; cases e
  · intro b0 y hb0 hy
    rcases List.mem_append.1 hb0 with hb0 | hb0
    · rcases hdcl b0 y hb0 hy with h | h
      · exact Or.inl h
      · exact Or.inr (hsome y h)
    · simp only [List.mem_singleton] at hb0
      subst hb0
      exact hbcl y hy
  · intro k y hk hy
    rcases hncl k hk with h0 | h0
    · rcases hkcl k y h0 hy with h | h
      · exact Or.inl h
      · exact Or.inr (hsome y h)
    · exact h0 y hy

theorem FirstWinsInv_fold (g : OpGraph) (backbone : List OpNode) (rest : List OpNode) :
    ∀ (done : List OpNode) (m : List (OpNode × OpNode)),
      (∀ b, b ∈ done → b ∈ backbone) → (∀ b, b ∈ rest → b ∈ backbone) →
      FirstWinsInv g backbone done m →
      ∃ m1, rest.foldl
          (fun (s : Except PassError (List (OpNode × OpNode))) backbone_op_node =>
            match s with
            | .error e => .error e
            | .ok m => fuseFrom g backbone backbone_op_node m) (.ok m) = .ok m1 ∧
        FirstWinsInv g backbone (done ++ rest) m1 := by
  induction rest with
  | nil =>
    intro done m _ _ inv
    exact ⟨m, rfl, by simpa using inv⟩
  | cons b rest ih =>
    intro done m hdone hrest inv
    have hb : b ∈ backbone := hrest b (List.mem_cons_self _ _)
    obtain ⟨m1, hm1⟩ := fuseFrom_ok g backbone b m
    obtain ⟨m2, hm2, inv2⟩ := ih (done ++ [b]) m1
      (by
        intro x hx
        rcases List.mem_append.1 hx with hx | hx
        · exact hdone x hx
        · simp only [List.mem_singleton] at hx; subst hx; exact hb)
      (fun x hx => hrest x (List.mem_cons_of_mem _ hx))
      (FirstWinsInv_step g backbone done m m1 b hb hdone inv hm1)
    refine ⟨m2, ?_, by simpa using inv2⟩
    rw [List.foldl_cons]
    simp only [hm1]
    exact hm2

/-- The fusion is the traversals `fuseFrom`, run one after the other from the backbone
ops in the order in which `BfsForEachBackboneOp` visits them; at its end `FirstWinsInv`
holds of the visited backbone ops, which are all the backbone ops when the edges go up
along a rank. -/
theorem FuseOtherFwOpsToBackboneOps_first (ord : List OpNode → List OpNode) (g : OpGraph)
    (backbone : List OpNode) (hord : ∀ l, (ord l).Perm l) :
    ∃ order other,
      visitOrder g
        ((ord backbone).filter (fun node => decide
          (((g.inNodes node).filter (fun in_node => decide (in_node ∈ backbone))).length = 0)))
        (fun node => (g.outNodes node).filter (fun out_node => decide (out_node ∈ backbone)))
        = .ok order ∧
      FuseOtherFwOpsToBackboneOps ord g backbone = .ok other ∧
      order.Nodup ∧ (∀ b, b ∈ order → b ∈ backbone) ∧
      FirstWinsInv g backbone order other ∧
      (∀ rank : OpNode → Nat, (∀ e, e ∈ g.edges → rank e.1 < rank e.2) →
        ∀ b, b ∈ backbone → b ∈ order) := by
  obtain ⟨other, ho, _⟩ := FuseOtherFwOpsToBackboneOps_spec ord g backbone hord
  have ho2 := ho
  unfold FuseOtherFwOpsToBackboneOps BfsForEachBackboneOp at ho2
  simp only at ho2
  split at ho2
  · cases ho2
  rename_i s hbfs
  subst ho2
  obtain ⟨order, hvis, hfold, hnd, hstarts, hcl, hsrc⟩ := BfsForEachNode_visit g _ _ _ _ _ hbfs
  have hback : ∀ b, b ∈ order → b ∈ backbone := by
    intro b hb
    rcases hsrc b hb with h | ⟨u, _, h⟩
    · exact ((hord backbone).mem_iff).1 (List.mem_filter.1 h).1
    · simp only [List.mem_filter, decide_eq_true_eq] at h
      exact h.2
  obtain ⟨other1, hother1, hinv⟩ := FirstWinsInv_fold g backbone order [] []
    (fun _ h => absurd h (List.not_mem_nil _)) hback
    ⟨⟨by simp, by simp, by simp⟩, fun k b hk => by simp [hmFind] at hk,
      fun k v hk => by simp [hmFind] at hk, fun b y hb => absurd hb (List.not_mem_nil _),
      fun k y hk => by simp [hmFind] at hk⟩
  rw [List.nil_append] at hinv
  have heq : (Except.ok other : Except PassError (List (OpNode × OpNode))) = .ok other1 :=
    hfold.trans hother1
  injection heq with heq
  subst heq
  refine ⟨order, other, hvis, ho, hnd, hback, hinv, ?_⟩
  · intro rank hacyclic
    have key : ∀ n b, rank b ≤ n → b ∈ backbone → b ∈ order := by
      intro n
      induction n with
      | zero =>
        intro b hn hb
        apply hstarts
        simp only [List.mem_filter, (hord backbone).mem_iff, decide_eq_true_eq,
          List.length_eq_zero, List.filter_eq_nil_iff, mem_inNodes]
        refine ⟨hb, fun u hu _ => ?_⟩
        have := hacyclic (u, b) hu
        simp only at this
        omega
      | succ n ih =>
        intro b hn hb
        by_cases hs : ∀ u, (u, b) ∈ g.edges → u ∉ backbone
        · apply hstarts
          simp only [List.mem_filter, (hord backbone).mem_iff, decide_eq_true_eq,
            List.length_eq_zero, List.filter_eq_nil_iff, mem_inNodes]
          exact ⟨hb, fun u hu => by simpa using hs u hu⟩
        · push_neg at hs
          obtain ⟨u, hu, hub⟩ := hs
          have := hacyclic (u, b) hu
          simp only at this
          apply hcl u b (ih u (by omega) hub)
          simp only [List.mem_filter, mem_outNodes, decide_eq_true_eq]
          exact ⟨hu, hb⟩
    intro b hb
    exact key (rank b) b (le_refl _) hb

/-! ## The contents of the groups -/

theorem pushAllFused_content (pairs : List (OpNode × OpNode)) :
    ∀ (m m1 : List (OpNode × Option (List OpNode))), pushAllFused m pairs = .ok m1 →
      ∀ b vec, hmFind m b = some (some vec) →
        hmFind m1 b = some (some
          (vec ++ (pairs.filter (fun pair => decide (pair.2 = b))).map Prod.fst)) := by
  induction pairs with
  | nil =>
    intro m m1 h b vec hb
    simp only [pushAllFused] at h
    injection h with h
    subst h
    simpa using hb
  | cons pair rest ih =>
    intro m m1 h b vec hb
    obtain ⟨x, b0⟩ := pair
    simp only [pushAllFused, pushFused] at h
    cases hf : hmFind m b0 with
    | none => simp [hf] at h
    | some o =>
      cases o with
      | none => simp [hf] at h
      | some vec0 =>
        simp only [hf] at h
        by_cases hbb : b0 = b
        · subst hbb
          rw [hf] at hb
          injection hb with hb
          injection hb with hb
          subst hb
          have := ih _ m1 h b0 (vec0 ++ [x]) (by rw [hmFind_hmSet, if_pos rfl])
          rw [this]
          simp
        · have := ih _ m1 h b vec (by rw [hmFind_hmSet, if_neg hbb]; exact hb)
          rw [this]
          simp [hbb]

theorem mem_hmIter_iff {ν : Type} (ord : List OpNode → List OpNode) (m : List (OpNode × ν))
    (hord : ∀ l, (ord l).Perm l) (k : OpNode) (v : ν) :
    (k, v) ∈ hmIter ord m ↔ hmFind m k = some v := by
  unfold hmIter
  simp only [List.mem_filterMap, (hord _).mem_iff, Option.map_eq_some', Prod.mk.injEq]
  constructor
  · rintro ⟨a, _, w, hw, rfl, rfl⟩
    exact hw
  · intro h
    refine ⟨k, ?_, v, h, rfl, rfl⟩
    exact (hmFind_isSome_iff m k).1 (by rw [h]; rfl)

/-- The groups of `buildFusedOps`, one by one: the group of a backbone op `b` is `b`
followed by the ops that the fusion map sends to `b`, and by no other op. -/
theorem buildFusedOps_content (ord : List OpNode → List OpNode) (backbone : List OpNode)
    (other : List (OpNode × OpNode)) (m : List (OpNode × Option (List OpNode)))
    (hord : ∀ l, (ord l).Perm l) (hnd : backbone.Nodup)
    (h : buildFusedOps ord backbone other = .ok m) (b : OpNode) (hb : b ∈ backbone) :
    ∃ others, hmFind m b = some (some (b :: others)) ∧
      ∀ x, x ∈ others ↔ hmFind other x = some b := by
  unfold buildFusedOps at h
  have hnd1 : (ord backbone).Nodup := (hord backbone).nodup_iff.2 hnd
  rw [initGroups_eq (ord backbone) [] (by simp) hnd1, List.nil_append] at h
  have hinit : hmFind ((ord backbone).map (fun b => (b, some [b]))) b = some (some [b]) := by
    apply hmFind_of_mem
    · exact List.mem_map.2 ⟨b, (hord backbone).mem_iff.2 hb, rfl⟩
    · rw [List.map_map]
      exact (List.map_id _).symm ▸ hnd1
  have := pushAllFused_content _ _ m h b [b] hinit
  rw [List.singleton_append] at this
  refine ⟨_, this, ?_⟩
  intro x
  simp only [List.mem_map, List.mem_filter, decide_eq_true_eq]
  constructor
  · rintro ⟨p, ⟨hp, hpb⟩, rfl⟩
    obtain ⟨k, v⟩ := p
    simp only at hpb
    subst hpb
    exact (mem_hmIter_iff ord other hord k v).1 hp
  · intro hx
    exact ⟨(x, b), ⟨(mem_hmIter_iff ord other hord x b).2 hx, rfl⟩, rfl⟩

theorem GroupPath_PathIn (g : OpGraph) (m : List (OpNode × OpNode)) (grp : List OpNode)
    (b x : OpNode) (hgrp : ∀ y, hmFind m y = some b → y ∈ grp) (h : GroupPath g m b x) :
    PathIn g grp b x := by
  induction h with
  | start => exact PathIn.start
  | step u v _ hv hf ih => exact PathIn.step u v ih hv (hgrp v hf)

theorem GroupPath_Linked (g : OpGraph) (backbone : List OpNode) (m : List (OpNode × OpNode))
    (b x : OpNode) (hb : b ∈ backbone) (h : GroupPath g m b x) : Linked g backbone x := by
  induction h with
  | start => exact Linked.start b hb
  | step u v _ hv _ ih => exact Linked.step u v ih hv

/-- The pieces of `GetBackboneOp2FusedOps` with what holds of each: the backbone, the
fusion map with the order of its traversals, and the groups with their contents. -/
theorem GetBackboneOp2FusedOps_content (ord : List OpNode → List OpNode) (g : OpGraph)
    (NeedBackwardOp : OpNode → Bool) (hord : ∀ l, (ord l).Perm l) :
    ∃ backbone order other m,
      GetBackBoneOps ord g (GetTrainableFwOps g NeedBackwardOp) = .ok backbone ∧
      FuseOtherFwOpsToBackboneOps ord g backbone = .ok other ∧
      GetBackboneOp2FusedOps ord g NeedBackwardOp = .ok m ∧
      backbone.Nodup ∧ (∀ b, b ∈ backbone → b ∈ GetTrainableFwOps g NeedBackwardOp) ∧
      (∀ b, b ∈ order → b ∈ backbone) ∧ FirstWinsInv g backbone order other ∧
      (∀ rank : OpNode → Nat, (∀ e, e ∈ g.edges → rank e.1 < rank e.2) →
        ∀ b, b ∈ backbone → b ∈ order) ∧
      GroupsInv m ∧ m.map Prod.fst = ord backbone ∧
      (allOps m).Perm (ord backbone ++ ord (other.map Prod.fst)) ∧ (allOps m).Nodup ∧
      (∀ b, b ∈ backbone → ∃ others, hmFind m b = some (some (b :: others)) ∧
        ∀ x, x ∈ others ↔ hmFind other x = some b) := by
  obtain ⟨backbone, hb, hspec⟩ := GetBackBoneOps_spec ord g (GetTrainableFwOps g NeedBackwardOp) hord
  obtain ⟨order, other, _, ho, _, hback, hinv, hall⟩ :=
    FuseOtherFwOpsToBackboneOps_first ord g backbone hord
  have hbnd := GetBackBoneOps_nodup ord g _ backbone hb
  obtain ⟨m, hm, hg, hk, hperm, hnd⟩ := buildFusedOps_spec ord backbone other hord hbnd hinv.1
  refine ⟨backbone, order, other, m, hb, ho, ?_, hbnd, ?_, hback, hinv, hall, hg, hk, hperm, hnd,
    ?_⟩
  · unfold GetBackboneOp2FusedOps
    simp only [hb, ho]
    exact hm
  · intro b hbb
    exact ReachThrough_mem g _ _ (fun _ h => h.1) b ((hspec b).1 hbb)
  · intro b hbb
    exact buildFusedOps_content ord backbone other m hord hbnd hm b hbb

/-- C7, as amended. `GetBackboneOp2FusedOps` succeeds; its map has exactly one group
per backbone op, no group is null, every backbone op is the first element of its own
group, and no op occurs twice in the groups taken together. The ops of the groups are
the backbone ops and the ops claimed by `FuseOtherFwOpsToBackboneOps`; each of them is
linked to a backbone op by an undirected path. When the edges go up along a rank (an
acyclic graph), every op that an undirected path links to a backbone op, trainable
forward or not, is in the groups, exactly once. -/
theorem GetBackboneOp2FusedOps_groups (ord : List OpNode → List OpNode) (g : OpGraph)
    (NeedBackwardOp : OpNode → Bool) (hord : ∀ l, (ord l).Perm l) :
    ∃ backbone_op_nodes other_fw_op2backbone_op backbone_op2fused_ops,
      GetBackBoneOps ord g (GetTrainableFwOps g NeedBackwardOp) = .ok backbone_op_nodes ∧
      FuseOtherFwOpsToBackboneOps ord g backbone_op_nodes = .ok other_fw_op2backbone_op ∧
      GetBackboneOp2FusedOps ord g NeedBackwardOp = .ok backbone_op2fused_ops ∧
      (backbone_op2fused_ops.map Prod.fst).Perm backbone_op_nodes ∧
      (backbone_op2fused_ops.map Prod.fst).Nodup ∧
      (∀ b fused, (b, fused) ∈ backbone_op2fused_ops → ∃ others, fused = some (b :: others)) ∧
      (allOps backbone_op2fused_ops).Nodup ∧
      (∀ x, x ∈ allOps backbone_op2fused_ops ↔
        (x ∈ backbone_op_nodes ∨ x ∈ other_fw_op2backbone_op.map Prod.fst)) ∧
      (∀ x, x ∈ allOps backbone_op2fused_ops → Linked g backbone_op_nodes x) ∧
      (∀ rank : OpNode → Nat, (∀ e, e ∈ g.edges → rank e.1 < rank e.2) →
        ∀ x, Linked g backbone_op_nodes x →
          x ∈ allOps backbone_op2fused_ops ∧ (allOps backbone_op2fused_ops).count x = 1) := by
  obtain ⟨backbone, order, other, m, hb, ho, hm, hbnd, _, _, hinv, hall, hg, hk, hperm, hnd, _⟩ :=
    GetBackboneOp2FusedOps_content ord g NeedBackwardOp hord
  obtain ⟨hfuse, hpath, _, hdcl, hkcl⟩ := hinv
  have hmem : ∀ x, x ∈ allOps m ↔ (x ∈ backbone ∨ x ∈ other.map Prod.fst) := by
    intro x
    rw [hperm.mem_iff, List.mem_append, (hord backbone).mem_iff, (hord _).mem_iff]
  refine ⟨backbone, other, m, hb, ho, hm, ?_, ?_, ?_, hnd, hmem, ?_, ?_⟩
  · rw [hk]; exact hord backbone
  · rw [hk]; exact (hord backbone).nodup_iff.2 hbnd
  · intro b fused hmem
    exact hg (b, fused) hmem
  · intro x hx
    rcases (hmem x).1 hx with hx | hx
    · exact Linked.start x hx
    · obtain ⟨p, hp, hpx⟩ := List.mem_map.1 hx
      obtain ⟨k, b⟩ := p
      simp only at hpx
      subst hpx
      have hf : hmFind other k = some b := hmFind_of_mem other k b hp hfuse.keys
      exact GroupPath_Linked g backbone other b k (hfuse.target (k, b) hp) (hpath k b hf)
  · intro rank hacyclic x hx
    have hcov : x ∈ backbone ∨ (hmFind other x).isSome := by
      induction hx with
      | start b hb => exact Or.inl hb
      | step u v _ hv ih =>
        rcases ih with ih | ih
        · exact hdcl u v (hall rank hacyclic u ih) hv
        · exact hkcl u v ih hv
    have hin : x ∈ allOps m := by
      rw [hmem]
      rcases hcov with h | h
      · exact Or.inl h
      · exact Or.inr ((hmFind_isSome_iff other x).1 h)
    exact ⟨hin, List.count_eq_one_of_mem hnd hin⟩

theorem GetBackboneOp2FusedOps_groups_witness :
    (∀ l : List OpNode, (id l).Perm l) ∧
    GetBackboneOp2FusedOps id diamond (fun _ => true)
      = .ok [(3, some [3, 1, 2, 0]), (4, some [4])] ∧
    (∀ e, e ∈ diamond.edges → id e.1 < id e.2) ∧
    (∃ backbone_op_nodes other_fw_op2backbone_op backbone_op2fused_ops,
      GetBackBoneOps id diamond (GetTrainableFwOps diamond (fun _ => true))
        = .ok backbone_op_nodes ∧
      FuseOtherFwOpsToBackboneOps id diamond backbone_op_nodes = .ok other_fw_op2backbone_op ∧
      GetBackboneOp2FusedOps id diamond (fun _ => true) = .ok backbone_op2fused_ops ∧
      (backbone_op2fused_ops.map Prod.fst).Perm backbone_op_nodes ∧
      (backbone_op2fused_ops.map Prod.fst).Nodup ∧
      (∀ b fused, (b, fused) ∈ backbone_op2fused_ops → ∃ others, fused = some (b :: others)) ∧
      (allOps backbone_op2fused_ops).Nodup ∧
      (∀ x, x ∈ allOps backbone_op2fused_ops ↔
        (x ∈ backbone_op_nodes ∨ x ∈ other_fw_op2backbone_op.map Prod.fst)) ∧
      (∀ x, x ∈ allOps backbone_op2fused_ops → Linked diamond backbone_op_nodes x) ∧
      (∀ rank : OpNode → Nat, (∀ e, e ∈ diamond.edges → rank e.1 < rank e.2) →
        ∀ x, Linked diamond backbone_op_nodes x →
          x ∈ allOps backbone_op2fused_ops ∧ (allOps backbone_op2fused_ops).count x = 1)) ∧
    Linked diamond [3, 4] 0 ∧
    (allOps [(3, some [3, 1, 2, 0]), (4, some [4])]).count 0 = 1 := by
  have hthm := GetBackboneOp2FusedOps_groups id diamond (fun _ => true)
    (fun l => List.Perm.refl l)
  have hlinked : Linked diamond [3, 4] 0 :=
    Linked.step 1 0 (Linked.step 3 1 (Linked.start 3 (by decide)) (by decide)) (by decide)
  refine ⟨fun l => List.Perm.refl l, by decide, by decide, hthm, hlinked, ?_⟩
  obtain ⟨backbone, other, m, hb, _, hm, _, _, _, _, _, _, hcover⟩ := hthm
  have hb1 : GetBackBoneOps id diamond (GetTrainableFwOps diamond (fun _ => true))
      = .ok [3, 4] := by decide
  have hm1 : GetBackboneOp2FusedOps id diamond (fun _ => true)
      = .ok [(3, some [3, 1, 2, 0]), (4, some [4])] := by decide
  rw [hb1] at hb
  rw [hm1] at hm
  injection hb with hb
  injection hm with hm
  subst hb
  subst hm
  exact (hcover id (by decide) 0 hlinked).2

/-- C7, counterexample to the partition property: in the chain with every op trainable
forward there is no backbone op and no group, so the trainable forward op `0` is in no
group. -/
theorem chain_has_no_group :
    (0 : OpNode) ∈ GetTrainableFwOps chain (fun _ => true) ∧
    GetBackboneOp2FusedOps id chain (fun _ => true) = .ok [] ∧
    (0 : OpNode) ∉ allOps [] := by
  refine ⟨by decide, by decide, by decide⟩

/-- C18, as amended. Every group built by `GetBackboneOp2FusedOps` is the group of a
backbone op `b`, which is trainable forward and the first op of the group; the other
ops of the group are exactly the ops that `FuseOtherFwOpsToBackboneOps` maps to `b`,
they are outside the backbone, and each is linked to `b` by an undirected path all of
whose nodes are in the group. -/
theorem fused_ops_are_backbone_or_linked (ord : List OpNode → List OpNode) (g : OpGraph)
    (NeedBackwardOp : OpNode → Bool) (hord : ∀ l, (ord l).Perm l) :
    ∃ backbone_op_nodes other_fw_op2backbone_op backbone_op2fused_ops,
      GetBackBoneOps ord g (GetTrainableFwOps g NeedBackwardOp) = .ok backbone_op_nodes ∧
      FuseOtherFwOpsToBackboneOps ord g backbone_op_nodes = .ok other_fw_op2backbone_op ∧
      GetBackboneOp2FusedOps ord g NeedBackwardOp = .ok backbone_op2fused_ops ∧
      ∀ b fused, (b, fused) ∈ backbone_op2fused_ops →
        b ∈ backbone_op_nodes ∧ b ∈ GetTrainableFwOps g NeedBackwardOp ∧
        ∃ others, fused = some (b :: others) ∧
          (∀ x, x ∈ others ↔ hmFind other_fw_op2backbone_op x = some b) ∧
          ∀ x, x ∈ others → x ∉ backbone_op_nodes ∧ PathIn g (b :: others) b x := by
  obtain ⟨backbone, order, other, m, hb, ho, hm, hbnd, htr, _, hinv, _, _, hk, _, _, hcont⟩ :=
    GetBackboneOp2FusedOps_content ord g NeedBackwardOp hord
  obtain ⟨hfuse, hpath, _, _, _⟩ := hinv
  refine ⟨backbone, other, m, hb, ho, hm, ?_⟩
  intro b fused hmem
  have hkeys : (m.map Prod.fst).Nodup := by
    rw [hk]; exact (hord backbone).nodup_iff.2 hbnd
  have hbb : b ∈ backbone := by
    have : b ∈ m.map Prod.fst := List.mem_map.2 ⟨(b, fused), hmem, rfl⟩
    rw [hk] at this
    exact (hord backbone).mem_iff.1 this
  obtain ⟨others, hfind, hiff⟩ := hcont b hbb
  have hfused : fused = some (b :: others) := by
    have := hmFind_of_mem m b fused hmem hkeys
    rw [hfind] at this
    injection this with this
    exact this.symm
  refine ⟨hbb, htr b hbb, others, hfused, hiff, ?_⟩
  intro x hx
  have hf := (hiff x).1 hx
  refine ⟨hfuse.other (x, b) (mem_of_hmFind other x b hf), ?_⟩
  exact GroupPath_PathIn g other (b :: others) b x
    (fun y hy => List.mem_cons_of_mem _ ((hiff y).2 hy)) (hpath x b hf)

theorem fused_ops_are_backbone_or_linked_witness :
    (∀ l : List OpNode, (id l).Perm l) ∧
    GetBackboneOp2FusedOps id labelled (fun op_node => decide (op_node ≠ 3))
      = .ok [(2, some [2, 0, 1, 3])] ∧
    ∃ backbone_op_nodes other_fw_op2backbone_op backbone_op2fused_ops,
      GetBackBoneOps id labelled
        (GetTrainableFwOps labelled (fun op_node => decide (op_node ≠ 3)))
        = .ok backbone_op_nodes ∧
      FuseOtherFwOpsToBackboneOps id labelled backbone_op_nodes = .ok other_fw_op2backbone_op ∧
      GetBackboneOp2FusedOps id labelled (fun op_node => decide (op_node ≠ 3))
        = .ok backbone_op2fused_ops ∧
      ∀ b fused, (b, fused) ∈ backbone_op2fused_ops →
        b ∈ backbone_op_nodes ∧
        b ∈ GetTrainableFwOps labelled (fun op_node => decide (op_node ≠ 3)) ∧
        ∃ others, fused = some (b :: others) ∧
          (∀ x, x ∈ others ↔ hmFind other_fw_op2backbone_op x = some b) ∧
          ∀ x, x ∈ others → x ∉ backbone_op_nodes ∧ PathIn labelled (b :: others) b x :=
  ⟨fun l => List.Perm.refl l, by decide,
    fused_ops_are_backbone_or_linked id labelled (fun op_node => decide (op_node ≠ 3))
      (fun l => List.Perm.refl l)⟩

/-- C18, counterexample: in `labelled` op `3` is not trainable forward, yet it is in the
group of the backbone op `2`, and the handler is called for it. -/
theorem labelled_group_has_untrainable_op :
    (3 : OpNode) ∉ GetTrainableFwOps labelled (fun op_node => decide (op_node ≠ 3)) ∧
    GetBackboneOp2FusedOps id labelled (fun op_node => decide (op_node ≠ 3))
      = .ok [(2, some [2, 0, 1, 3])] ∧
    ForEachStageScope4TrainableFwOp id labelled (fun op_node => decide (op_node ≠ 3)) [100]
        recordCall []
      = .ok [(2, 100), (0, 100), (1, 100), (3, 100)] := by
  refine ⟨by decide, by decide, by decide⟩

/-- C19, as amended. The fusion runs one traversal from every backbone op that
`BfsForEachBackboneOp` visits, in the order of the visits. An op of the fusion map is
outside the backbone and is mapped to one backbone op `b`, to which an undirected path
through ops mapped to `b` links it; `b` is the first visited backbone op from which an
undirected path through ops outside the backbone leads to the op: no backbone op
visited before `b` is linked to it in this way (first-claimed wins). Every op outside
the backbone that such a path links to a visited backbone op is in the map. When the
edges go up along a rank, every backbone op is visited. -/
theorem fused_op_goes_to_first_linked_backbone_op (ord : List OpNode → List OpNode)
    (g : OpGraph) (backbone_op_nodes : List OpNode) (hord : ∀ l, (ord l).Perm l) :
    ∃ order other_fw_op2backbone_op,
      BfsForEachBackboneOp ord g backbone_op_nodes (fun node visited => visited ++ [node]) []
        = .ok order ∧
      FuseOtherFwOpsToBackboneOps ord g backbone_op_nodes = .ok other_fw_op2backbone_op ∧
      order.Nodup ∧ (∀ b, b ∈ order → b ∈ backbone_op_nodes) ∧
      (other_fw_op2backbone_op.map Prod.fst).Nodup ∧
      (∀ x b, (x, b) ∈ other_fw_op2backbone_op →
        x ∉ backbone_op_nodes ∧ b ∈ backbone_op_nodes ∧
        GroupPath g other_fw_op2backbone_op b x ∧ NBPath g backbone_op_nodes b x ∧
        ∃ l1 l2, order = l1 ++ b :: l2 ∧
          ∀ b1, b1 ∈ l1 → ¬ NBPath g backbone_op_nodes b1 x) ∧
      (∀ b x, b ∈ order → NBPath g backbone_op_nodes b x →
        x = b ∨ x ∈ other_fw_op2backbone_op.map Prod.fst) ∧
      (∀ rank : OpNode → Nat, (∀ e, e ∈ g.edges → rank e.1 < rank e.2) →
        ∀ b, b ∈ backbone_op_nodes → b ∈ order) := by
  obtain ⟨order, other, hvis, ho, hnd, hback, hinv, hall⟩ :=
    FuseOtherFwOpsToBackboneOps_first ord g backbone_op_nodes hord
  obtain ⟨hfuse, hpath, hfirst, hdcl, hkcl⟩ := hinv
  refine ⟨order, other, hvis, ho, hnd, hback, hfuse.keys, ?_, ?_, hall⟩
  · intro x b hmem
    have hf : hmFind other x = some b := hmFind_of_mem other x b hmem hfuse.keys
    have hgp := hpath x b hf
    exact ⟨hfuse.other (x, b) hmem, hfuse.target (x, b) hmem, hgp,
      GroupPath_NBPath g backbone_op_nodes other hfuse b x hgp, hfirst x b hf⟩
  · intro b x hb hnb
    rcases NBPath_covered g backbone_op_nodes other b (fun y hy => hdcl b y hb hy) hkcl x hnb
      with h | h
    · exact Or.inl h
    · exact Or.inr ((hmFind_isSome_iff other x).1 h)

theorem fused_op_goes_to_first_linked_backbone_op_witness :
    (∀ l : List OpNode, (id l).Perm l) ∧
    BfsForEachBackboneOp id detour [2, 4] (fun node visited => visited ++ [node]) []
      = .ok [2, 4] ∧
    FuseOtherFwOpsToBackboneOps id detour [2, 4] = .ok [(0, 2), (1, 2), (3, 2)] ∧
    ∃ order other_fw_op2backbone_op,
      BfsForEachBackboneOp id detour [2, 4] (fun node visited => visited ++ [node]) []
        = .ok order ∧
      FuseOtherFwOpsToBackboneOps id detour [2, 4] = .ok other_fw_op2backbone_op ∧
      order.Nodup ∧ (∀ b, b ∈ order → b ∈ [2, 4]) ∧
      (other_fw_op2backbone_op.map Prod.fst).Nodup ∧
      (∀ x b, (x, b) ∈ other_fw_op2backbone_op →
        x ∉ [2, 4] ∧ b ∈ [2, 4] ∧
        GroupPath detour other_fw_op2backbone_op b x ∧ NBPath detour [2, 4] b x ∧
        ∃ l1 l2, order = l1 ++ b :: l2 ∧
          ∀ b1, b1 ∈ l1 → ¬ NBPath detour [2, 4] b1 x) ∧
      (∀ b x, b ∈ order → NBPath detour [2, 4] b x →
        x = b ∨ x ∈ other_fw_op2backbone_op.map Prod.fst) ∧
      (∀ rank : OpNode → Nat, (∀ e, e ∈ detour.edges → rank e.1 < rank e.2) →
        ∀ b, b ∈ [2, 4] → b ∈ order) :=
  ⟨fun l => List.Perm.refl l, by decide, by decide,
    fused_op_goes_to_first_linked_backbone_op id detour [2, 4] (fun l => List.Perm.refl l)⟩

/-- C19, counterexample: in `detour` with every op trainable forward the backbone ops
are `2` and `4`; op `3` is mapped to `2`, which is not within one edge of it, although
the backbone op `4` is. -/
theorem detour_op_not_nearest :
    (∀ e, e ∈ detour.edges → e.1 < e.2) ∧
    GetBackBoneOps id detour (GetTrainableFwOps detour (fun _ => true)) = .ok [2, 4] ∧
    FuseOtherFwOpsToBackboneOps id detour [2, 4] = .ok [(0, 2), (1, 2), (3, 2)] ∧
    withinDist detour 1 4 3 = true ∧ withinDist detour 1 2 3 = false ∧
    withinDist detour 2 2 3 = true := by
  refine ⟨by decide, by decide, by decide, by decide, by decide, by decide⟩

/-! ## The traversal from the sinks goes level by level -/

theorem level_le (lv : Nat → OpNode → Prop) (hmono : ∀ n x, lv n x → lv (n + 1) x)
    (x : OpNode) (n : Nat) (h : lv n x) : ∀ k, n ≤ k → lv k x := by
  intro k hk
  induction k with
  | zero =>
    have : n = 0 := by omega
    subst this; exact h
  | succ k ih =>
    by_cases hn : n = k + 1
    · subst hn; exact h
    · exact hmono k x (ih (by omega))

theorem LevelInv_step (starts : List OpNode) (nx : OpNode → List OpNode)
    (lv : Nat → OpNode → Prop) (h0 : ∀ x, lv 0 x ↔ x ∈ starts)
    (hs : ∀ n x, lv (n + 1) x ↔ (lv n x ∨ ∃ y, lv n y ∧ x ∈ nx y))
    (cur : OpNode) (rest queued visited : List OpNode)
    (h : LevelInv starts nx lv (cur :: rest) queued visited) :
    LevelInv starts nx lv ((nx cur).foldl enqueue (rest, queued)).1
      ((nx cur).foldl enqueue (rest, queued)).2 (visited ++ [cur]) := by
  obtain ⟨hq, hst, hcl, hlv, hpw, hbound⟩ := h
  have hmono : ∀ n x, lv n x → lv (n + 1) x := fun n x hx => (hs n x).2 (Or.inl hx)
  have hchild : ∀ n c, lv n cur → c ∈ nx cur → lv (n + 1) c :=
    fun n c hc hcn => (hs n c).2 (Or.inr ⟨cur, hc, hcn⟩)
  have hpw2 := hpw
  rw [hq, List.pairwise_append] at hpw2
  have hcur_le : ∀ y, y ∈ cur :: rest → ∀ n, lv n y → lv n cur := by
    intro y hy n hn
    rcases List.mem_cons.1 hy with hy | hy
    · subst hy; exact hn
    · exact (List.pairwise_cons.1 hpw2.2.1).1 y hy n hn
  -- a node that is not queued is at a level beyond the level of `cur`
  have hfar : ∀ n x, lv n x → x ∉ queued → ∃ k, k < n ∧ lv k cur := by
    intro n
    induction n with
    | zero =>
      intro x hx hnq
      exact absurd (hst x ((h0 x).1 hx)) hnq
    | succ n ih =>
      intro x hx hnq
      rcases (hs n x).1 hx with hx | ⟨y, hy, hxy⟩
      · obtain ⟨k, hk, hkc⟩ := ih x hx hnq
        exact ⟨k, by omega, hkc⟩
      · by_cases hyq : y ∈ queued
        · rw [hq] at hyq
          rcases List.mem_append.1 hyq with hyv | hyc
          · exact absurd (hcl y x hyv hxy) hnq
          · exact ⟨n, by omega, hcur_le y hyc n hy⟩
        · obtain ⟨k, hk, hkc⟩ := ih y hy hyq
          exact ⟨k, by omega, hkc⟩
  obtain ⟨added, ha1, ha2, _⟩ := enqueue_fold_added (nx cur) (rest, queued)
  have hmemq : ∀ x, x ∈ ((nx cur).foldl enqueue (rest, queued)).2 ↔ x ∈ queued ∨ x ∈ nx cur :=
    fun x => enqueue_fold_mem_queued (nx cur) (rest, queued) x
  have hq1 : ((nx cur).foldl enqueue (rest, queued)).1 = rest ++ added := by rw [ha1]
  have hq2 : ((nx cur).foldl enqueue (rest, queued)).2 = queued ++ added := by rw [ha1]
  have hcurq : cur ∈ queued := by rw [hq]; simp
  obtain ⟨ncur, hncur⟩ := hlv cur hcurq
  -- the level of an added node is beyond the level of `cur`
  have hadded : ∀ c, c ∈ added → ∀ n, lv n c → ∃ k, k < n ∧ lv k cur :=
    fun c hc n hn => hfar n c hn (ha2 c hc).2
  have hle_added : ∀ x, x ∈ queued → ∀ c, c ∈ added → ∀ n, lv n c → lv n x := by
    intro x hx c hc n hn
    obtain ⟨k, hk, hkc⟩ := hadded c hc n hn
    exact level_le lv hmono x (k + 1) (hbound cur (by simp) x hx k hkc) n (by omega)
  refine ⟨?_, ?_, ?_, ?_, ?_, ?_⟩
  · rw [hq2, hq1, hq]; simp
  · intro x hx
    exact (hmemq x).2 (Or.inl (hst x hx))
  · intro u v hu hv
    rcases List.mem_append.1 hu with hu | hu
    · exact (hmemq v).2 (Or.inl (hcl u v hu hv))
    · simp only [List.mem_singleton] at hu
      subst hu
      exact (hmemq v).2 (Or.inr hv)
  · intro x hx
    rcases (hmemq x).1 hx with hx | hx
    · exact hlv x hx
    · exact ⟨ncur + 1, hchild ncur x hncur hx⟩
  · rw [hq2, List.pairwise_append]
    refine ⟨hpw, ?_, hle_added⟩
    rw [List.pairwise_iff_forall_sublist]
    intro a c hsub n hn
    have hc : c ∈ added := hsub.subset (by simp)
    have ha : a ∈ added := hsub.subset (by simp)
    obtain ⟨k, hk, hkc⟩ := hadded c hc n hn
    exact level_le lv hmono a (k + 1) (hchild k a hkc (ha2 a ha).1) n (by omega)
  · intro cur1 hcur1 x hx n hn
    rw [hq1] at hcur1
    rw [hq2] at hx
    -- the level of the new head is not below the level of `cur`
    have hhead : (∃ k, k ≤ n ∧ lv k cur) := by
      cases rest with
      | nil =>
        simp only [List.nil_append] at hcur1
        have hc : cur1 ∈ added := List.mem_of_mem_head? hcur1
        obtain ⟨k, hk, hkc⟩ := hadded cur1 hc n hn
        exact ⟨k, by omega, hkc⟩
      | cons r rs =>
        simp only [List.cons_append, List.head?_cons, Option.mem_def, Option.some.injEq]
          at hcur1
        subst hcur1
        exact ⟨n, le_refl _, hcur_le _ (by simp) n hn⟩
    obtain ⟨k, hk, hkc⟩ := hhead
    rcases List.mem_append.1 hx with hx | hx
    · exact level_le lv hmono x (k + 1) (hbound cur (by simp) x hx k hkc) (n + 1) (by omega)
    · exact level_le lv hmono x (k + 1) (hchild k x hkc (ha2 x hx).1) (n + 1) (by omega)

/-- The recording traversal pops the nodes level by level: no popped node has a smaller
level than a node popped before it, and every popped node has a level. -/
theorem visitOrder_sorted (g : OpGraph) (starts : List OpNode) (nx : OpNode → List OpNode)
    (lv : Nat → OpNode → Prop) (h0 : ∀ x, lv 0 x ↔ x ∈ starts)
    (hs : ∀ n x, lv (n + 1) x ↔ (lv n x ∨ ∃ y, lv n y ∧ x ∈ nx y))
    (order : List OpNode) (h : visitOrder g starts nx = .ok order) :
    order.Pairwise (fun x y => ∀ n, lv n y → lv n x) ∧ ∀ x, x ∈ order → ∃ n, lv n x := by
  unfold visitOrder at h
  obtain ⟨queued1, hq, _, _, hlv, hpw, _⟩ := BfsForEachNode_inv g starts
    (fun (_ : List OpNode) node => nx node) (fun node visited => visited ++ [node]) [] order
    (LevelInv starts nx lv)
    (fun cur rest queued s hinv => LevelInv_step starts nx lv h0 hs cur rest queued s hinv)
    h
    (by
      obtain ⟨h1, _⟩ := enqueue_starts_nodup starts
      refine ⟨by rw [h1]; simp, ?_, ?_, ?_, ?_, ?_⟩
      · intro x hx; exact (enqueue_starts_queued starts x).2 hx
      · intro u v hu; cases hu
      · intro x hx
        exact ⟨0, (h0 x).2 ((enqueue_starts_queued starts x).1 hx)⟩
      · rw [List.pairwise_iff_forall_sublist]
        intro a c hsub n _
        have ha : a ∈ (starts.foldl enqueue ([], [])).2 := hsub.subset (by simp)
        have hmono : ∀ n x, lv n x → lv (n + 1) x := fun n x hx => (hs n x).2 (Or.inl hx)
        exact level_le lv hmono a 0 ((h0 a).2 ((enqueue_starts_queued starts a).1 ha)) n
          (by omega)
      · intro cur _ x hx n _
        have hmono : ∀ n x, lv n x → lv (n + 1) x := fun n x hx => (hs n x).2 (Or.inl hx)
        exact level_le lv hmono x 0 ((h0 x).2 ((enqueue_starts_queued starts x).1 hx)) (n + 1)
          (by omega))
  simp only [List.append_nil] at hq
  subst hq
  exact ⟨hpw, hlv⟩

theorem sinkWithin_mem (g : OpGraph) (backbone : List OpNode) (n : Nat) (x : OpNode)
    (h : sinkWithin g backbone n x = true) : x ∈ backbone := by
  induction n with
  | zero =>
    simp only [sinkWithin, Bool.and_eq_true, decide_eq_true_eq] at h
    exact h.1
  | succ n ih =>
    simp only [sinkWithin, Bool.or_eq_true, Bool.and_eq_true, decide_eq_true_eq] at h
    rcases h with h | h
    · exact ih h
    · exact h.1

theorem sinkWithin_zero (g : OpGraph) (backbone : List OpNode) (x : OpNode) :
    sinkWithin g backbone 0 x = true ↔
      (x ∈ backbone ∧ ∀ v, (x, v) ∈ g.edges → v ∉ backbone) := by
  simp only [sinkWithin, Bool.and_eq_true, decide_eq_true_eq, List.all_eq_true,
    Bool.not_eq_true', decide_eq_false_iff_not, mem_outNodes]

theorem sinkWithin_succ (g : OpGraph) (backbone : List OpNode) (n : Nat) (x : OpNode) :
    sinkWithin g backbone (n + 1) x = true ↔
      (sinkWithin g backbone n x = true ∨
        ∃ y, sinkWithin g backbone n y = true ∧ (x, y) ∈ g.edges ∧ x ∈ backbone) := by
  simp only [sinkWithin, Bool.or_eq_true, Bool.and_eq_true, decide_eq_true_eq, List.any_eq_true,
    mem_outNodes]
  constructor
  · rintro (h | ⟨hx, y, hy, _, hn⟩)
    · exact Or.inl h
    · exact Or.inr ⟨y, hn, hy, hx⟩
  · rintro (h | ⟨y, hn, hy, hx⟩)
    · exact Or.inl h
    · exact Or.inr ⟨hx, y, hy, sinkWithin_mem g backbone n y hn, hn⟩

theorem seqOps_append (s1 s2 : List (Option (List OpNode))) :
    seqOps (s1 ++ s2) = seqOps s1 ++ seqOps s2 := by
  induction s1 with
  | nil => rfl
  | cons a s ih =>
    cases a with
    | none => simpa [seqOps] using ih
    | some vec => simp [seqOps, ih]

theorem groupDepth_split (s1 : List (Option (List OpNode))) :
    ∀ (vec : List OpNode) (s2 : List (Option (List OpNode))) (x : OpNode),
      (seqOps (s1 ++ some vec :: s2)).Nodup → x ∈ vec →
      groupDepth (s1 ++ some vec :: s2) x = some s1.length := by
  induction s1 with
  | nil =>
    intro vec s2 x _ hx
    simp [groupDepth, hx]
  | cons a s ih =>
    intro vec s2 x hnd hx
    cases a with
    | none =>
      have hnd1 : (seqOps (s ++ some vec :: s2)).Nodup := hnd
      have e : groupDepth (none :: s ++ some vec :: s2) x =
          (groupDepth (s ++ some vec :: s2) x).map (fun d => d + 1) := rfl
      rw [e, ih vec s2 x hnd1 hx]
      rfl
    | some w =>
      have hnd1 : (w ++ seqOps (s ++ some vec :: s2)).Nodup := hnd
      have hxw : x ∉ w := by
        intro hw
        have hin : x ∈ seqOps (s ++ some vec :: s2) := by
          rw [seqOps_append]
          simp [seqOps, hx]
        exact (List.nodup_append.1 hnd1).2.2 hw hin
      have e : groupDepth (some w :: s ++ some vec :: s2) x =
          if x ∈ w then some 0 else
            (groupDepth (s ++ some vec :: s2) x).map (fun d => d + 1) := rfl
      rw [e, if_neg hxw, ih vec s2 x (List.nodup_append.1 hnd1).2.1 hx]
      rfl

/-- After a successful `GetStageDepth2Stage` an op whose group is at depth `d` of the
sequential order has the stage `Stage4Depth d`. -/
theorem stageOfOp_of_depth (ord : List OpNode → List OpNode) (g : OpGraph)
    (NeedBackwardOp : OpNode → Bool) (K : Nat) (seq : List (Option (List OpNode)))
    (tbl : List (Nat × Nat))
    (hseq : GetSequantialTrainableFwOps ord g NeedBackwardOp = .ok seq)
    (htbl : GetStageDepth2Stage seq K = .ok tbl) (x : OpNode) (d : Nat) (hlt : d < seq.length)
    (hd : groupDepth seq x = some d) :
    ∃ s, Stage4Depth tbl d = .ok s ∧ stageOfOp ord g NeedBackwardOp K x = some s := by
  obtain ⟨groups, hg⟩ := GetStageDepth2Stage_some seq K tbl htbl
  subst hg
  have hK := GetStageDepth2Stage_pos _ K tbl htbl
  obtain ⟨s, hs, _⟩ := Stage4Depth_defined groups K tbl hK htbl d (by simpa using hlt)
  refine ⟨s, hs, ?_⟩
  simp only [stageOfOp, hseq, htbl, hd, hs]

/-- The backbone ops of the sequential order, with what holds of their positions: the
groups of the order are the groups of the map taken along the reverse of the order in
which the traversal pops the backbone ops, and a backbone op nearer to the backbone ops
without backbone successor is popped before one farther from them. -/
theorem sequential_order_levels (ord : List OpNode → List OpNode) (g : OpGraph)
    (NeedBackwardOp : OpNode → Bool) (rank : OpNode → Nat) (hord : ∀ l, (ord l).Perm l)
    (hacyclic : ∀ e, e ∈ g.edges → rank e.1 < rank e.2) :
    ∃ (backbone : List OpNode) (m : List (OpNode × Option (List OpNode)))
      (order : List OpNode),
      GetBackBoneOps ord g (GetTrainableFwOps g NeedBackwardOp) = .ok backbone ∧
      GetBackboneOp2FusedOps ord g NeedBackwardOp = .ok m ∧
      (∀ x, x ∈ m.map Prod.fst ↔ x ∈ backbone) ∧
      (∀ x, x ∈ order ↔ x ∈ backbone) ∧
      GetSequantialTrainableFwOps ord g NeedBackwardOp
        = .ok (order.reverse.filterMap (fun k => hmFind m k)) ∧
      (seqOps (order.reverse.filterMap (fun k => hmFind m k))).Nodup ∧
      order.Pairwise (fun x y => ∀ n, sinkWithin g backbone n y = true →
        sinkWithin g backbone n x = true) ∧
      (∀ x, x ∈ order → ∃ n, sinkWithin g backbone n x = true) := by
  obtain ⟨backbone, other, m, hb, _, _, hm, _, hk, _, hndall⟩ :=
    GetBackboneOp2FusedOps_spec ord g NeedBackwardOp hord
  have hbnd := GetBackBoneOps_nodup ord g _ backbone hb
  have hnd : (m.map Prod.fst).Nodup := by
    rw [hk]; exact (hord backbone).nodup_iff.2 hbnd
  have hkeys : ∀ x, x ∈ m.map Prod.fst ↔ x ∈ backbone := by
    intro x; rw [hk]; exact (hord backbone).mem_iff
  obtain ⟨order, hvis, hperm, hseq, _⟩ := sequantialize_order ord g m hord hnd rank hacyclic
  have hseq1 : GetSequantialTrainableFwOps ord g NeedBackwardOp
      = .ok (order.reverse.filterMap (fun k => hmFind m k)) := by
    unfold GetSequantialTrainableFwOps
    simp only [hm]
    exact hseq
  obtain ⟨hpw, hlv⟩ := visitOrder_sorted g (sinkStarts ord g m)
    (seqForEachIn g (.ok { backbone_op2fused_ops := m, sequantial_trainable_fw_ops := [] }))
    (fun n x => sinkWithin g backbone n x = true)
    (by
      intro x
      show sinkWithin g backbone 0 x = true ↔ _
      rw [sinkWithin_zero, mem_sinkStarts ord g m hord x, hkeys]
      constructor
      · rintro ⟨h1, h2⟩
        exact ⟨h1, fun v hv hvk => h2 v hv ((hkeys v).1 hvk)⟩
      · rintro ⟨h1, h2⟩
        exact ⟨h1, fun v hv hvb => h2 v hv ((hkeys v).2 hvb)⟩)
    (by
      intro n x
      show sinkWithin g backbone (n + 1) x = true ↔ _
      rw [sinkWithin_succ]
      simp only [seqForEachIn, List.mem_filter, mem_inNodes]
      constructor
      · rintro (h | ⟨y, hy, he, hx⟩)
        · exact Or.inl h
        · exact Or.inr ⟨y, hy, he, (hmFind_isSome_iff m x).2 ((hkeys x).2 hx)⟩
      · rintro (h | ⟨y, hy, he, hx⟩)
        · exact Or.inl h
        · exact Or.inr ⟨y, hy, he, (hkeys x).1 ((hmFind_isSome_iff m x).1 hx)⟩)
    order hvis
  refine ⟨backbone, m, order, hb, hm, hkeys, ?_, hseq1, ?_, hpw, hlv⟩
  · intro x
    rw [hperm.mem_iff, hkeys]
  · exact sequantialize_nodup ord g m _ hseq hndall

theorem filterMap_length_keys (m : List (OpNode × Option (List OpNode))) (l : List OpNode)
    (hl : ∀ k, k ∈ l → k ∈ m.map Prod.fst) :
    (l.filterMap (fun k => hmFind m k)).length = l.length := by
  induction l with
  | nil => rfl
  | cons k l ih =>
    obtain ⟨v, hv⟩ := Option.isSome_iff_exists.1
      ((hmFind_isSome_iff m k).2 (hl k (List.mem_cons_self _ _)))
    rw [List.filterMap_cons]
    simp only [hv, List.length_cons]
    rw [ih (fun k hk => hl k (List.mem_cons_of_mem _ hk))]

/-- C2, as amended. In an op graph whose edges go up along a rank (an acyclic graph),
when the stage assignment succeeds with `num_stages` stages: if the backbone op `v` is
nearer than the backbone op `u` to the backbone ops without backbone successor, along
edges between backbone ops, every op of the group of `u` has a stage, every op of the
group of `v` has a stage, and the first stage is at most the second; this is so for
every edge `u → v` between backbone ops for which `v` is, among the backbone
successors of `u`, one nearest to the backbone ops without backbone successor; and the
ops of one group have the same stage. -/
theorem stage_respects_backbone_levels (ord : List OpNode → List OpNode) (g : OpGraph)
    (NeedBackwardOp : OpNode → Bool) (num_stages : Nat) (rank : OpNode → Nat)
    (hord : ∀ l, (ord l).Perm l) (hacyclic : ∀ e, e ∈ g.edges → rank e.1 < rank e.2)
    (hok : ∃ seq depth2stage, GetSequantialTrainableFwOps ord g NeedBackwardOp = .ok seq ∧
      GetStageDepth2Stage seq num_stages = .ok depth2stage) :
    ∃ backbone_op_nodes backbone_op2fused_ops,
      GetBackBoneOps ord g (GetTrainableFwOps g NeedBackwardOp) = .ok backbone_op_nodes ∧
      GetBackboneOp2FusedOps ord g NeedBackwardOp = .ok backbone_op2fused_ops ∧
      (∀ u v fused_u fused_v n,
        hmFind backbone_op2fused_ops u = some (some fused_u) →
        hmFind backbone_op2fused_ops v = some (some fused_v) →
        sinkWithin g backbone_op_nodes n v = true →
        sinkWithin g backbone_op_nodes n u = false →
        ∀ x y, x ∈ fused_u → y ∈ fused_v →
          ∃ sx sy, stageOfOp ord g NeedBackwardOp num_stages x = some sx ∧
            stageOfOp ord g NeedBackwardOp num_stages y = some sy ∧ sx ≤ sy) ∧
      (∀ u v fused_u fused_v, (u, v) ∈ g.edges →
        hmFind backbone_op2fused_ops u = some (some fused_u) →
        hmFind backbone_op2fused_ops v = some (some fused_v) →
        (∀ w n, (u, w) ∈ g.edges → sinkWithin g backbone_op_nodes n w = true →
          sinkWithin g backbone_op_nodes n v = true) →
        ∀ x y, x ∈ fused_u → y ∈ fused_v →
          ∃ sx sy, stageOfOp ord g NeedBackwardOp num_stages x = some sx ∧
            stageOfOp ord g NeedBackwardOp num_stages y = some sy ∧ sx ≤ sy) ∧
      (∀ b fused, hmFind backbone_op2fused_ops b = some (some fused) →
        ∀ x y, x ∈ fused → y ∈ fused →
          ∃ s, stageOfOp ord g NeedBackwardOp num_stages x = some s ∧
            stageOfOp ord g NeedBackwardOp num_stages y = some s) := by
  obtain ⟨backbone, m, order, hb, hm, hkeys, horder, hseq, hnd, hpw, hlv⟩ :=
    sequential_order_levels ord g NeedBackwardOp rank hord hacyclic
  obtain ⟨seq, tbl, hseq0, htbl⟩ := hok
  rw [hseq] at hseq0
  injection hseq0 with hseq0
  subst hseq0
  have hin : ∀ k v, hmFind m k = some v → k ∈ order := by
    intro k v hk
    rw [horder, ← hkeys]
    exact (hmFind_isSome_iff m k).1 (by rw [hk]; rfl)
  have hlen : ∀ l : List OpNode, (∀ k, k ∈ l → k ∈ order) →
      (l.filterMap (fun k => hmFind m k)).length = l.length := by
    intro l hl
    apply filterMap_length_keys
    intro k hk
    rw [hkeys, ← horder]
    exact hl k hk
  -- the stage of the ops of a group whose backbone op splits the order
  have hstage : ∀ l1 l2 b fused x, order.reverse = l1 ++ b :: l2 →
      hmFind m b = some (some fused) → x ∈ fused →
      ∃ s, Stage4Depth tbl l1.length = .ok s ∧
        stageOfOp ord g NeedBackwardOp num_stages x = some s := by
    intro l1 l2 b fused x hsplit hf hx
    have hl1 : ∀ k, k ∈ l1 → k ∈ order := by
      intro k hk
      rw [← List.mem_reverse, hsplit]
      simp [hk]
    have hseqsplit : order.reverse.filterMap (fun k => hmFind m k) =
        l1.filterMap (fun k => hmFind m k) ++ some fused ::
          l2.filterMap (fun k => hmFind m k) := by
      rw [hsplit, List.filterMap_append, List.filterMap_cons]
      simp only [hf]
    have hd := groupDepth_split (l1.filterMap (fun k => hmFind m k)) fused
      (l2.filterMap (fun k => hmFind m k)) x (by rw [← hseqsplit]; exact hnd) hx
    rw [← hseqsplit, hlen l1 hl1] at hd
    refine stageOfOp_of_depth ord g NeedBackwardOp num_stages _ tbl hseq htbl x l1.length ?_ hd
    rw [hseqsplit]
    simp only [List.length_append, List.length_cons, hlen l1 hl1]
    omega
  have hlevel : ∀ u v fused_u fused_v n,
      hmFind m u = some (some fused_u) → hmFind m v = some (some fused_v) →
      sinkWithin g backbone n v = true → sinkWithin g backbone n u = false →
      ∀ x y, x ∈ fused_u → y ∈ fused_v →
        ∃ sx sy, stageOfOp ord g NeedBackwardOp num_stages x = some sx ∧
          stageOfOp ord g NeedBackwardOp num_stages y = some sy ∧ sx ≤ sy := by
    intro u v gu gv n hu hv hnv hnu x y hx hy
    obtain ⟨l1, l2, hl⟩ := List.append_of_mem (hin v _ hv)
    have hul2 : u ∈ l2 := by
      have hu_in := hin u _ hu
      rw [hl] at hu_in
      rcases List.mem_append.1 hu_in with h | h
      · rw [hl, List.pairwise_append] at hpw
        have := hpw.2.2 u h v (List.mem_cons_self _ _) n hnv
        rw [hnu] at this
        cases this
      · rcases List.mem_cons.1 h with h | h
        · subst h
          rw [hnu] at hnv
          cases hnv
        · exact h
    obtain ⟨l3, l4, hl2⟩ := List.append_of_mem hul2
    have hrev1 : order.reverse = l4.reverse ++ u :: (l3.reverse ++ v :: l1.reverse) := by
      rw [hl, hl2]; simp
    have hrev2 : order.reverse = (l4.reverse ++ u :: l3.reverse) ++ v :: l1.reverse := by
      rw [hl, hl2]; simp
    obtain ⟨sx, hsx, hstx⟩ := hstage _ _ u gu x hrev1 hu hx
    obtain ⟨sy, hsy, hsty⟩ := hstage _ _ v gv y hrev2 hv hy
    refine ⟨sx, sy, hstx, hsty, ?_⟩
    exact Stage4Depth_mono _ num_stages tbl htbl _ _ sx sy
      (by simp only [List.length_append, List.length_cons]; omega) hsx hsy
  refine ⟨backbone, m, hb, hm, hlevel, ?_, ?_⟩
  · intro u v gu gv hedge hu hv hnear x y hx hy
    have hvb : v ∈ backbone := by
      rw [← hkeys]; exact (hmFind_isSome_iff m v).1 (by rw [hv]; rfl)
    -- `v` is strictly nearer than `u`
    have hfar : ∀ n, sinkWithin g backbone n u = true →
        ∃ k, k < n ∧ sinkWithin g backbone k v = true := by
      intro n
      induction n with
      | zero =>
        intro h0
        exact absurd hvb (((sinkWithin_zero g backbone u).1 h0).2 v hedge)
      | succ n ih =>
        intro hn
        rcases (sinkWithin_succ g backbone n u).1 hn with h | ⟨w, hw, he, _⟩
        · obtain ⟨k, hk, hkv⟩ := ih h
          exact ⟨k, by omega, hkv⟩
        · exact ⟨n, by omega, hnear w n he hw⟩
    have hex : ∃ n, sinkWithin g backbone n v = true := hlv v (hin v _ hv)
    have hmin : ∀ k, k < Nat.find hex → ¬ sinkWithin g backbone k v = true :=
      fun k hk => Nat.find_min hex hk
    have hu0 : sinkWithin g backbone (Nat.find hex) u = false := by
      cases hc : sinkWithin g backbone (Nat.find hex) u with
      | false => rfl
      | true =>
        obtain ⟨k, hk, hkv⟩ := hfar _ hc
        exact absurd hkv (hmin k hk)
    exact hlevel u v gu gv (Nat.find hex) hu hv (Nat.find_spec hex) hu0 x y hx hy
  · intro b fused hf x y hx hy
    obtain ⟨l1, l2, hl⟩ := List.append_of_mem (List.mem_reverse.2 (hin b _ hf))
    obtain ⟨sx, hsx, hstx⟩ := hstage l1 l2 b fused x hl hf hx
    obtain ⟨sy, hsy, hsty⟩ := hstage l1 l2 b fused y hl hf hy
    rw [hsx] at hsy
    injection hsy with hsy
    subst hsy
    exact ⟨sx, hstx, hsty⟩

theorem sinkWithin_shortcut_8 (n : Nat) : sinkWithin shortcut [2, 6, 8, 7] n 8 = true := by
  induction n with
  | zero => decide
  | succ n ih => simp only [sinkWithin, ih, Bool.true_or]

theorem stage_respects_backbone_levels_witness :
    (∀ l : List OpNode, (id l).Perm l) ∧
    (∀ e, e ∈ shortcut.edges → id e.1 < id e.2) ∧
    GetSequantialTrainableFwOps id shortcut (fun _ => true)
      = .ok [some [6, 3, 4, 5], some [2, 0, 1], some [7], some [8]] ∧
    GetStageDepth2Stage [some [6, 3, 4, 5], some [2, 0, 1], some [7], some [8]] 3
      = .ok [(0, 0), (1, 1), (2, 2), (3, 2)] ∧
    (2, 8) ∈ shortcut.edges ∧
    stageOfOp id shortcut (fun _ => true) 3 2 = some 1 ∧
    stageOfOp id shortcut (fun _ => true) 3 8 = some 2 ∧
    (∃ backbone_op_nodes backbone_op2fused_ops,
      GetBackBoneOps id shortcut (GetTrainableFwOps shortcut (fun _ => true))
        = .ok backbone_op_nodes ∧
      GetBackboneOp2FusedOps id shortcut (fun _ => true) = .ok backbone_op2fused_ops ∧
      (∀ u v fused_u fused_v n,
        hmFind backbone_op2fused_ops u = some (some fused_u) →
        hmFind backbone_op2fused_ops v = some (some fused_v) →
        sinkWithin shortcut backbone_op_nodes n v = true →
        sinkWithin shortcut backbone_op_nodes n u = false →
        ∀ x y, x ∈ fused_u → y ∈ fused_v →
          ∃ sx sy, stageOfOp id shortcut (fun _ => true) 3 x = some sx ∧
            stageOfOp id shortcut (fun _ => true) 3 y = some sy ∧ sx ≤ sy) ∧
      (∀ u v fused_u fused_v, (u, v) ∈ shortcut.edges →
        hmFind backbone_op2fused_ops u = some (some fused_u) →
        hmFind backbone_op2fused_ops v = some (some fused_v) →
        (∀ w n, (u, w) ∈ shortcut.edges → sinkWithin shortcut backbone_op_nodes n w = true →
          sinkWithin shortcut backbone_op_nodes n v = true) →
        ∀ x y, x ∈ fused_u → y ∈ fused_v →
          ∃ sx sy, stageOfOp id shortcut (fun _ => true) 3 x = some sx ∧
            stageOfOp id shortcut (fun _ => true) 3 y = some sy ∧ sx ≤ sy) ∧
      (∀ b fused, hmFind backbone_op2fused_ops b = some (some fused) →
        ∀ x y, x ∈ fused → y ∈ fused →
          ∃ s, stageOfOp id shortcut (fun _ => true) 3 x = some s ∧
            stageOfOp id shortcut (fun _ => true) 3 y = some s)) ∧
    ∃ sx sy, stageOfOp id shortcut (fun _ => true) 3 0 = some sx ∧
      stageOfOp id shortcut (fun _ => true) 3 8 = some sy ∧ sx ≤ sy := by
  have hthm := stage_respects_backbone_levels id shortcut (fun _ => true) 3 id
    (fun l => List.Perm.refl l) (by decide)
    ⟨[some [6, 3, 4, 5], some [2, 0, 1], some [7], some [8]],
      [(0, 0), (1, 1), (2, 2), (3, 2)], by decide, by decide⟩
  refine ⟨fun l => List.Perm.refl l, by decide, by decide, by decide, by decide, by decide,
    by decide, hthm, ?_⟩
  obtain ⟨backbone, m, hb, hm, _, hedge, _⟩ := hthm
  have hb1 : GetBackBoneOps id shortcut (GetTrainableFwOps shortcut (fun _ => true))
      = .ok [2, 6, 8, 7] := by decide
  have hm1 : GetBackboneOp2FusedOps id shortcut (fun _ => true)
      = .ok [(2, some [2, 0, 1]), (6, some [6, 3, 4, 5]), (8, some [8]), (7, some [7])] := by
    decide
  rw [hb1] at hb
  rw [hm1] at hm
  injection hb with hb
  injection hm with hm
  subst hb
  subst hm
  exact hedge 2 8 [2, 0, 1] [8] (by decide) (by decide) (by decide)
    (fun w n _ _ => sinkWithin_shortcut_8 n) 0 8 (by decide) (by decide)

/-- C2, counterexample to dependency order: `shortcut` is acyclic, the stage assignment
succeeds on it with three stages, and the edge `2 → 6` goes from stage `1` back to stage
`0`: op `2` reaches the sink `8` along one edge, op `6` along two, so the traversal from
the sinks visits `2` before `6`. The same holds when the in-edges of op `8` are
enumerated in the other order (`shortcutAlt`). In `sidefeed`, with two stages, the edge
`0 → 7` goes from stage `1` back to stage `0`: op `0` is fused into the group of the
backbone op `3`, which is placed after the group of op `7`. -/
theorem shortcut_edge_goes_back :
    (∀ e, e ∈ shortcut.edges → e.1 < e.2) ∧
    (2, 6) ∈ shortcut.edges ∧
    stageOfOp id shortcut (fun _ => true) 3 2 = some 1 ∧
    stageOfOp id shortcut (fun _ => true) 3 6 = some 0 ∧
    (∀ e, e ∈ shortcutAlt.edges → e.1 < e.2) ∧
    (2, 6) ∈ shortcutAlt.edges ∧
    stageOfOp id shortcutAlt (fun _ => true) 3 2 = some 1 ∧
    stageOfOp id shortcutAlt (fun _ => true) 3 6 = some 0 ∧
    (∀ e, e ∈ sidefeed.edges → e.1 < e.2) ∧
    (0, 7) ∈ sidefeed.edges ∧
    stageOfOp id sidefeed (fun _ => true) 2 0 = some 1 ∧
    stageOfOp id sidefeed (fun _ => true) 2 7 = some 0 := by
  refine ⟨by decide, by decide, by decide, by decide, by decide, by decide, by decide,
    by decide, by decide, by decide, by decide, by decide⟩

end StagePartition
